import Mathlib

/-!
Verification of the flag-vector slot-allocation pool library: a packed bitset
(`BitVec` over 32-bit words), a multi-level OR-reduction bitset
(`HierarchicalBitVec`), a naive boolean flag vector (`BoolVec`), and the
generic allocation pool (`FlagsBasedPool`) parameterized over a flag-vector
implementation.  All definitions are shallow embeddings of the Rust source
(`src/flag_based/bit.rs`, `hierarchical.rs`, `bool.rs`, `mod.rs`); machine
words are natural numbers kept below `2 ^ 32`, vectors are lists, and
operations that abort on a contract violation return `Option`.
-/

namespace PoolParty

/-- Word width of a `Block` (`u32`), from `bit.rs`. -/
def BITS_PER_BLOCK : Nat := 32

/-- Largest value of a `Block` (`u32::MAX`). -/
def BLOCK_MAX : Nat := 2 ^ 32 - 1

theorem BITS_PER_BLOCK_eq : BITS_PER_BLOCK = 32 := rfl

theorem BLOCK_MAX_eq : BLOCK_MAX = 2 ^ 32 - 1 := rfl

/-- Number of 32-bit words needed to hold `n` bits: `((n-1)/32)+1` for `n > 0`,
as computed throughout `bit.rs`. -/
def numBlocks (n : Nat) : Nat := if n = 0 then 0 else (n - 1) / 32 + 1

/-- Ceiling division in the source's style `((n-1)/p)+1`; meaningful for `n ≥ 1`. -/
def ceil_div (n p : Nat) : Nat := (n - 1) / p + 1

theorem ceil_div_one (n : Nat) : ceil_div n 1 = n - 1 + 1 := by
  simp [ceil_div]

theorem ceil_div_one_of_pos {n : Nat} (h : 0 < n) : ceil_div n 1 = n := by
  simp [ceil_div]; omega

theorem ceil_div_ceil_div (n p q : Nat) (hn : 0 < n) (hp : 0 < p) :
    ceil_div (ceil_div n p) q = ceil_div n (p * q) := by
  unfold ceil_div
  rw [Nat.add_sub_cancel, Nat.div_div_eq_div_mul]

theorem le_ceil_div_mul (n p : Nat) (hn : 0 < n) (hp : 0 < p) :
    n ≤ ceil_div n p * p := by
  unfold ceil_div
  have h : (n - 1) / p < (n - 1) / p + 1 := Nat.lt_succ_self _
  have := (Nat.div_lt_iff_lt_mul hp).mp h
  omega

theorem lt_ceil_div_iff (n p i : Nat) (hn : 0 < n) (hp : 0 < p) :
    i < ceil_div n p ↔ i * p < n := by
  unfold ceil_div
  constructor
  · intro h
    have h1 : i ≤ (n - 1) / p := by omega
    have h2 : i * p ≤ (n - 1) / p * p := Nat.mul_le_mul_right p h1
    have h3 : (n - 1) / p * p ≤ n - 1 := Nat.div_mul_le_self (n - 1) p
    omega
  · intro h
    have h1 : i * p ≤ n - 1 := by omega
    have h2 : i ≤ (n - 1) / p := (Nat.le_div_iff_mul_le hp).mpr h1
    omega

theorem ceil_div_le_ceil_div (p : Nat) {n m : Nat} (h : n ≤ m) :
    ceil_div n p ≤ ceil_div m p := by
  unfold ceil_div
  have := Nat.div_le_div_right (c := p) (Nat.sub_le_sub_right h 1)
  omega

theorem ceil_div_pos (n p : Nat) : 0 < ceil_div n p :=
  Nat.succ_pos _

theorem ceil_div_grow (N m p : Nat) (hp : 0 < p) (h : m * p < N) :
    m + ceil_div (N - m * p) p = ceil_div N p := by
  unfold ceil_div
  have h2 : N - m * p - 1 = N - 1 - p * m := by rw [Nat.mul_comm p m]; omega
  rw [h2, Nat.sub_mul_div (N - 1) p m (by rw [Nat.mul_comm p m]; omega)]
  have h3 : m ≤ (N - 1) / p := (Nat.le_div_iff_mul_le hp).mpr (by omega)
  omega

theorem numBlocks_eq_ceil_div {n : Nat} (h : 0 < n) : numBlocks n = ceil_div n 32 := by
  simp [numBlocks, ceil_div]; omega

theorem le_32_mul_numBlocks (n : Nat) : n ≤ 32 * numBlocks n := by
  rcases Nat.eq_zero_or_pos n with h | h
  · simp [h]
  · rw [numBlocks_eq_ceil_div h]
    have := le_ceil_div_mul n 32 h (by norm_num)
    omega

theorem lt_numBlocks_iff {n i : Nat} : i < numBlocks n ↔ 32 * i < n := by
  rcases Nat.eq_zero_or_pos n with h | h
  · simp [h, numBlocks]
  · rw [numBlocks_eq_ceil_div h, lt_ceil_div_iff n 32 i h (by norm_num)]
    omega

/-! List indexing helpers stated with `List.getD`. -/

theorem getD_of_length_le {α : Type} {l : List α} {j : Nat} (d : α)
    (h : l.length ≤ j) : l.getD j d = d := by
  simp [List.getD_eq_getElem?_getD, List.getElem?_eq_none h]

theorem getD_set_self {α : Type} {l : List α} {i : Nat} (a d : α)
    (h : i < l.length) : (l.set i a).getD i d = a := by
  simp [List.getD_eq_getElem?_getD, List.getElem?_set_self h]

theorem getD_set_ne {α : Type} {l : List α} {i j : Nat} (a d : α)
    (h : i ≠ j) : (l.set i a).getD j d = l.getD j d := by
  simp [List.getD_eq_getElem?_getD, List.getElem?_set_ne h]

theorem getD_append_lt {α : Type} {l₁ l₂ : List α} {j : Nat} (d : α)
    (h : j < l₁.length) : (l₁ ++ l₂).getD j d = l₁.getD j d := by
  simp [List.getD_eq_getElem?_getD, List.getElem?_append, h]

theorem getD_append_ge {α : Type} {l₁ l₂ : List α} {j : Nat} (d : α)
    (h : l₁.length ≤ j) : (l₁ ++ l₂).getD j d = l₂.getD (j - l₁.length) d := by
  simp [List.getD_eq_getElem?_getD, List.getElem?_append_right h]

theorem getD_replicate {α : Type} {n j : Nat} (a d : α) (h : j < n) :
    (List.replicate n a).getD j d = a := by
  simp [List.getD_eq_getElem?_getD, List.getElem?_replicate, h]

theorem mem_of_getD {α : Type} {l : List α} {j : Nat} {d : α}
    (h : j < l.length) : l.getD j d ∈ l := by
  rw [List.getD_eq_getElem?_getD, List.getElem?_eq_getElem h]
  exact List.getElem_mem h

/-! Bit manipulation helpers over natural numbers standing for `u32` words. -/

theorem testBit_ge_32 {w j : Nat} (hw : w < 2 ^ 32) (hj : 32 ≤ j) :
    w.testBit j = false :=
  Nat.testBit_eq_false_of_lt (lt_of_lt_of_le hw (Nat.pow_le_pow_right (by norm_num) hj))

theorem ne_zero_iff_exists_testBit {w : Nat} : w ≠ 0 ↔ ∃ j, w.testBit j = true := by
  constructor
  · intro h
    by_contra hc
    push_neg at hc
    refine h (Nat.eq_of_testBit_eq (fun i => ?_))
    rw [Nat.zero_testBit]
    exact Bool.eq_false_iff.mpr (hc i)
  · rintro ⟨j, hj⟩ h0
    rw [h0, Nat.zero_testBit] at hj
    exact Bool.false_ne_true hj

theorem ne_zero_iff_exists_testBit_lt {w : Nat} (hw : w < 2 ^ 32) :
    w ≠ 0 ↔ ∃ j, j < 32 ∧ w.testBit j = true := by
  rw [ne_zero_iff_exists_testBit]
  constructor
  · rintro ⟨j, hj⟩
    refine ⟨j, ?_, hj⟩
    by_contra hc
    rw [testBit_ge_32 hw (by omega)] at hj
    simp at hj
  · rintro ⟨j, _, hj⟩
    exact ⟨j, hj⟩

/-- In-word bit update: `w &= !(1 << i); w |= v << i` from `BitVec::set_bit`. -/
def setBitIn (w i : Nat) (v : Bool) : Nat :=
  (w &&& (BLOCK_MAX ^^^ (1 <<< i))) ||| ((if v then 1 else 0) <<< i)

theorem testBit_setBitIn (w i : Nat) (v : Bool) (j : Nat) (hi : i < 32) (hj : j < 32) :
    (setBitIn w i v).testBit j = if j = i then v else w.testBit j := by
  unfold setBitIn
  rw [Nat.testBit_lor, Nat.testBit_land, Nat.testBit_xor, BLOCK_MAX_eq,
    Nat.testBit_two_pow_sub_one]
  by_cases h : j = i
  · subst h
    cases v
    · simp [Nat.zero_shiftLeft, Nat.one_shiftLeft, Nat.testBit_two_pow, hj]
    · simp [Nat.one_shiftLeft, Nat.testBit_two_pow, hj]
  · have h' : i ≠ j := fun hh => h hh.symm
    cases v
    · simp [Nat.zero_shiftLeft, Nat.one_shiftLeft, Nat.testBit_two_pow, hj, h, h']
    · simp [Nat.one_shiftLeft, Nat.testBit_two_pow, hj, h, h']

theorem setBitIn_lt (w i : Nat) (v : Bool) (hw : w < 2 ^ 32) (hi : i < 32) :
    setBitIn w i v < 2 ^ 32 := by
  unfold setBitIn
  apply Nat.or_lt_two_pow
  · exact lt_of_le_of_lt Nat.and_le_left hw
  · cases v
    · simp [Nat.zero_shiftLeft]
    · rw [if_pos rfl, Nat.one_shiftLeft]
      exact Nat.pow_lt_pow_right (by norm_num) hi

/-- Suffix mask `(u32::MAX << i) mod 2^32` used by
`set_bit_and_all_bits_after_it_to_true`. -/
def suffixMask (i : Nat) : Nat := (BLOCK_MAX <<< i) % 2 ^ 32

theorem testBit_suffixMask (i j : Nat) :
    (suffixMask i).testBit j = (decide (i ≤ j) && decide (j < 32)) := by
  unfold suffixMask
  rw [Nat.testBit_mod_two_pow, Nat.testBit_shiftLeft, BLOCK_MAX_eq,
    Nat.testBit_two_pow_sub_one]
  by_cases h1 : j < 32 <;> by_cases h2 : i ≤ j <;> simp [h1, h2] <;> omega

theorem suffixMask_lt (i : Nat) : suffixMask i < 2 ^ 32 :=
  Nat.mod_lt _ (by norm_num)

/-- Word-level loop of `BitVec::add_bits` setting bits `start ≤ b < start+cnt`. -/
def setBitsRange (w start cnt : Nat) (v : Bool) : Nat :=
  match cnt with
  | 0 => w
  | c + 1 => setBitsRange (setBitIn w start v) (start + 1) c v

theorem testBit_setBitsRange (cnt : Nat) :
    ∀ w start : Nat, ∀ v : Bool, ∀ j : Nat, start + cnt ≤ 32 → j < 32 →
    (setBitsRange w start cnt v).testBit j =
      if start ≤ j ∧ j < start + cnt then v else w.testBit j := by
  induction cnt with
  | zero =>
    intro w start v j _ _
    rw [show setBitsRange w start 0 v = w from rfl, if_neg (by omega)]
  | succ c ih =>
    intro w start v j hle hj
    rw [setBitsRange, ih _ _ _ _ (by omega) hj,
      testBit_setBitIn w start v j (by omega) hj]
    by_cases h1 : start + 1 ≤ j ∧ j < start + 1 + c
    · rw [if_pos h1, if_pos (by omega)]
    · by_cases h2 : j = start
      · rw [if_neg h1, if_pos h2, if_pos (by omega)]
      · rw [if_neg h1, if_neg h2, if_neg (by omega)]

theorem setBitsRange_lt (cnt : Nat) :
    ∀ w start : Nat, ∀ v : Bool, w < 2 ^ 32 → start + cnt ≤ 32 →
    setBitsRange w start cnt v < 2 ^ 32 := by
  induction cnt with
  | zero => intro w start v hw _; simpa [setBitsRange] using hw
  | succ c ih =>
    intro w start v hw hle
    exact ih _ _ _ (setBitIn_lt w start v hw (by omega)) (by omega)

/-- Fuelled count of trailing zeros; `ctz w` models `u32::trailing_zeros` for
nonzero `w < 2^32`. -/
def ctzAux : Nat → Nat → Nat
  | 0, _ => 0
  | fuel + 1, m => if m % 2 = 1 then 0 else if m = 0 then 0 else ctzAux fuel (m / 2) + 1

def ctz (m : Nat) : Nat := ctzAux 32 m

theorem ctzAux_spec (fuel : Nat) :
    ∀ m : Nat, 0 < m → m < 2 ^ fuel →
    m.testBit (ctzAux fuel m) = true ∧ ∀ j < ctzAux fuel m, m.testBit j = false := by
  induction fuel with
  | zero =>
    intro m h1 h2
    norm_num at h2
    omega
  | succ f ih =>
    intro m h1 h2
    by_cases hodd : m % 2 = 1
    · constructor
      · rw [ctzAux, if_pos hodd, Nat.testBit_zero]
        simp [hodd]
      · intro j hj
        rw [ctzAux, if_pos hodd] at hj
        omega
    · have hm0 : m ≠ 0 := by omega
      have h2' : m / 2 < 2 ^ f := by
        rw [pow_succ] at h2
        omega
      have h1' : 0 < m / 2 := by omega
      obtain ⟨ha, hb⟩ := ih (m / 2) h1' h2'
      have heq : ctzAux (f + 1) m = ctzAux f (m / 2) + 1 := by
        rw [ctzAux, if_neg hodd, if_neg hm0]
      constructor
      · rw [heq, Nat.testBit_succ]
        exact ha
      · intro j hj
        rw [heq] at hj
        match j with
        | 0 =>
          rw [Nat.testBit_zero]
          simp [hodd]
        | j + 1 =>
          rw [Nat.testBit_succ]
          exact hb j (by omega)

theorem ctz_spec {m : Nat} (h1 : m ≠ 0) (h2 : m < 2 ^ 32) :
    m.testBit (ctz m) = true ∧ ∀ j < ctz m, m.testBit j = false :=
  ctzAux_spec 32 m (by omega) h2

theorem ctz_lt_32 {m : Nat} (h1 : m ≠ 0) (h2 : m < 2 ^ 32) : ctz m < 32 := by
  obtain ⟨ha, _⟩ := ctz_spec h1 h2
  by_contra hc
  rw [testBit_ge_32 h2 (by omega)] at ha
  simp at ha


theorem BLOCK_MAX_lt : BLOCK_MAX < 2 ^ 32 := by norm_num [BLOCK_MAX]

theorem testBit_BLOCK_MAX (j : Nat) : BLOCK_MAX.testBit j = decide (j < 32) := by
  rw [BLOCK_MAX_eq, Nat.testBit_two_pow_sub_one]

/-- Packed bitset over 32-bit words, from `bit.rs`: a list of words plus the
logical bit count. -/
structure BitVec where
  flags : List Nat
  num_bits : Nat

def BitVec.new : BitVec := ⟨[], 0⟩

/-- The `BitVec::with_bits`: `ceil(n/32)` words all equal to `u32::MAX` or `0`. -/
def BitVec.with_bits (num_bits : Nat) (value : Bool) : BitVec :=
  if num_bits = 0 then ⟨[], num_bits⟩
  else ⟨List.replicate ((num_bits - 1) / 32 + 1) (if value then BLOCK_MAX else 0), num_bits⟩

def BitVec.num_blocks (bv : BitVec) : Nat := bv.flags.length

/-- The `BitVec::get_bit` (the source asserts `bit < num_bits`; reads beyond that
are raw storage reads). -/
def BitVec.get_bit (bv : BitVec) (bit : Nat) : Bool :=
  (bv.flags.getD (bit / 32) 0).testBit (bit % 32)

/-- The `BitVec::set_bit`: clear then or the addressed bit inside its word. -/
def BitVec.set_bit (bv : BitVec) (bit : Nat) (value : Bool) : BitVec :=
  ⟨bv.flags.set (bit / 32) (setBitIn (bv.flags.getD (bit / 32) 0) (bit % 32) value),
   bv.num_bits⟩

/-- The `BitVec::set_bit_and_all_bits_after_it_to_true`: or a suffix mask into the
word holding `bit`, then overwrite every later word with `u32::MAX`. -/
def BitVec.set_bit_and_all_bits_after_it_to_true (bv : BitVec) (bit : Nat) : BitVec :=
  ⟨((bv.flags.set (bit / 32) ((bv.flags.getD (bit / 32) 0) ||| suffixMask (bit % 32))).take
      (bit / 32 + 1)) ++
    List.replicate (bv.flags.length - (bit / 32 + 1)) BLOCK_MAX,
   bv.num_bits⟩

/-- The `BitVec::add_bits`: fill the free tail of the last word bit by bit, then
append `ceil((k - free)/32)` words of `u32::MAX` or `0`. -/
def BitVec.add_bits (bv : BitVec) (num_bits_to_add : Nat) (value_of_bits : Bool) : BitVec :=
  if bv.num_bits + num_bits_to_add = 0 then bv
  else if num_bits_to_add = 0 then bv
  else if bv.num_bits = 0 then BitVec.with_bits num_bits_to_add value_of_bits
  else
    let num_alloc_bits_in_last_flag := bv.num_bits - (bv.flags.length - 1) * 32
    let num_free_bits_in_last_flag := 32 - num_alloc_bits_in_last_flag
    let num_bits_to_add_from_last_flag :=
      if num_bits_to_add ≤ num_free_bits_in_last_flag then num_bits_to_add
      else num_free_bits_in_last_flag
    let len := bv.flags.length - 1
    let flags1 := bv.flags.set len
      (setBitsRange (bv.flags.getD len 0) num_alloc_bits_in_last_flag
        num_bits_to_add_from_last_flag value_of_bits)
    let flags2 :=
      if num_free_bits_in_last_flag < num_bits_to_add then
        flags1 ++ List.replicate
          ((num_bits_to_add - num_free_bits_in_last_flag - 1) / 32 + 1)
          (if value_of_bits then BLOCK_MAX else 0)
      else flags1
    ⟨flags2, bv.num_bits + num_bits_to_add⟩

/-- The `BitVec::get_block`: the word at `idx`, with bits at positions `≥ num_bits`
masked out when `idx` addresses the last word. -/
def BitVec.get_block (bv : BitVec) (idx_of_block : Nat) : Nat :=
  if bv.flags.length = 0 then 0
  else if idx_of_block = bv.flags.length - 1 then
    if bv.num_bits % 32 ≠ 0 then
      (bv.flags.getD idx_of_block 0) &&&
        (2 ^ (bv.num_bits - 32 * (bv.flags.length - 1)) - 1)
    else (bv.flags.getD idx_of_block 0) &&& BLOCK_MAX
  else bv.flags.getD idx_of_block 0

/-- Word scan of `BitVec::find_a_true_bit`. -/
def findBlockAux : Nat → List Nat → Option Nat
  | _, [] => none
  | b, w :: ws => if w ≠ 0 then some (b * 32 + ctz w) else findBlockAux (b + 1) ws

def BitVec.find_a_true_bit (bv : BitVec) : Option Nat := findBlockAux 0 bv.flags

/-- Well-formedness maintained by every `BitVec` constructor and mutator:
words fit in 32 bits and the word count is exactly `ceil(num_bits/32)`. -/
def BitVec.WF (bv : BitVec) : Prop :=
  (∀ w ∈ bv.flags, w < 2 ^ 32) ∧ bv.flags.length = numBlocks bv.num_bits

theorem BitVec.WF.flag_lt {bv : BitVec} (h : bv.WF) {b : Nat} :
    bv.flags.getD b 0 < 2 ^ 32 := by
  by_cases hb : b < bv.flags.length
  · exact h.1 _ (mem_of_getD hb)
  · rw [getD_of_length_le 0 (by omega)]
    norm_num

theorem BitVec.new_WF : BitVec.new.WF := by
  constructor
  · intro w hw
    simp [BitVec.new] at hw
  · simp [BitVec.new, numBlocks]

theorem BitVec.with_bits_num_bits (n : Nat) (v : Bool) :
    (BitVec.with_bits n v).num_bits = n := by
  unfold BitVec.with_bits
  by_cases h : n = 0 <;> simp [h]

theorem BitVec.with_bits_length (n : Nat) (v : Bool) :
    (BitVec.with_bits n v).flags.length = numBlocks n := by
  unfold BitVec.with_bits numBlocks
  by_cases h : n = 0 <;> simp [h]

theorem BitVec.with_bits_WF (n : Nat) (v : Bool) : (BitVec.with_bits n v).WF := by
  refine ⟨?_, by rw [BitVec.with_bits_num_bits]; exact BitVec.with_bits_length n v⟩
  intro w hw
  unfold BitVec.with_bits at hw
  by_cases h : n = 0
  · simp [h] at hw
  · simp [h] at hw
    cases v with
    | false => simp at hw; omega
    | true => simp at hw; rw [hw]; exact BLOCK_MAX_lt

theorem BitVec.get_bit_with_bits (n : Nat) (v : Bool) (j : Nat)
    (h : j < 32 * numBlocks n) : (BitVec.with_bits n v).get_bit j = v := by
  have hn : n ≠ 0 := by
    intro h0
    rw [h0] at h
    simp [numBlocks] at h
  have hb : j / 32 < numBlocks n := by omega
  unfold BitVec.get_bit BitVec.with_bits
  rw [if_neg hn]
  have hrep : (List.replicate ((n - 1) / 32 + 1) (if v then BLOCK_MAX else 0)).getD (j / 32) 0 =
      (if v then BLOCK_MAX else 0) := by
    apply getD_replicate
    have : numBlocks n = (n - 1) / 32 + 1 := by simp [numBlocks, hn]
    omega
  simp only [hrep]
  cases v with
  | false => simp [Nat.zero_testBit]
  | true => simp [testBit_BLOCK_MAX]; omega

theorem BitVec.get_bit_ge_capacity {bv : BitVec} {j : Nat}
    (h : 32 * bv.flags.length ≤ j) : bv.get_bit j = false := by
  unfold BitVec.get_bit
  rw [getD_of_length_le 0 (by omega), Nat.zero_testBit]

theorem BitVec.set_bit_num_bits (bv : BitVec) (i : Nat) (v : Bool) :
    (bv.set_bit i v).num_bits = bv.num_bits := rfl

theorem BitVec.set_bit_length (bv : BitVec) (i : Nat) (v : Bool) :
    (bv.set_bit i v).flags.length = bv.flags.length := by
  simp [BitVec.set_bit]

theorem BitVec.set_bit_WF {bv : BitVec} (h : bv.WF) (i : Nat) (v : Bool) :
    (bv.set_bit i v).WF := by
  refine ⟨?_, by rw [BitVec.set_bit_length, BitVec.set_bit_num_bits]; exact h.2⟩
  intro w hw
  rcases List.mem_or_eq_of_mem_set hw with h1 | h1
  · exact h.1 _ h1
  · rw [h1]
    exact setBitIn_lt _ _ _ h.flag_lt (by omega)

theorem BitVec.get_bit_set_bit {bv : BitVec} (hwf : bv.WF) {i : Nat}
    (hi : i < bv.num_bits) (v : Bool) (j : Nat) :
    (bv.set_bit i v).get_bit j = if j = i then v else bv.get_bit j := by
  have hblk : i / 32 < bv.flags.length := by
    rw [hwf.2]
    rw [lt_numBlocks_iff]
    omega
  unfold BitVec.get_bit BitVec.set_bit
  by_cases hb : j / 32 = i / 32
  · simp only [hb, getD_set_self _ 0 hblk]
    rw [testBit_setBitIn _ _ _ _ (by omega) (by omega)]
    by_cases hji : j = i
    · rw [if_pos (by omega), if_pos hji]
    · rw [if_neg (by omega), if_neg hji]

  · rw [getD_set_ne _ 0 (fun hh => hb hh.symm), if_neg (by omega)]


theorem getD_take_lt {α : Type} {l : List α} {m j : Nat} (d : α) (h : j < m) :
    (l.take m).getD j d = l.getD j d := by
  simp [List.getD_eq_getElem?_getD, List.getElem?_take_of_lt h]

theorem BitVec.set_suffix_num_bits (bv : BitVec) (i : Nat) :
    (bv.set_bit_and_all_bits_after_it_to_true i).num_bits = bv.num_bits := rfl

theorem BitVec.set_suffix_length {bv : BitVec} {i : Nat}
    (h : i / 32 < bv.flags.length) :
    (bv.set_bit_and_all_bits_after_it_to_true i).flags.length = bv.flags.length := by
  simp [BitVec.set_bit_and_all_bits_after_it_to_true, List.length_take]
  omega

theorem bit_blk_lt_length {bv : BitVec} (hwf : bv.WF) {i : Nat}
    (hi : i < bv.num_bits) : i / 32 < bv.flags.length := by
  rw [hwf.2, lt_numBlocks_iff]
  omega

theorem BitVec.set_suffix_WF {bv : BitVec} (hwf : bv.WF) {i : Nat}
    (hi : i < bv.num_bits) :
    (bv.set_bit_and_all_bits_after_it_to_true i).WF := by
  have hblk := bit_blk_lt_length hwf hi
  refine ⟨?_, by rw [BitVec.set_suffix_length hblk, BitVec.set_suffix_num_bits]; exact hwf.2⟩
  intro w hw
  rcases List.mem_append.mp hw with h1 | h1
  · rcases List.mem_or_eq_of_mem_set (List.take_subset _ _ h1) with h2 | h2
    · exact hwf.1 _ h2
    · rw [h2]
      exact Nat.or_lt_two_pow hwf.flag_lt (suffixMask_lt _)
  · rw [List.eq_of_mem_replicate h1]
    exact BLOCK_MAX_lt

theorem BitVec.get_bit_set_suffix {bv : BitVec} (hwf : bv.WF) {i : Nat}
    (hi : i < bv.num_bits) (j : Nat) (hj : j < 32 * bv.flags.length) :
    (bv.set_bit_and_all_bits_after_it_to_true i).get_bit j =
      if i ≤ j then true else bv.get_bit j := by
  have hblk := bit_blk_lt_length hwf hi
  have htakelen : ((bv.flags.set (i / 32) ((bv.flags.getD (i / 32) 0) ||| suffixMask (i % 32))).take
      (i / 32 + 1)).length = i / 32 + 1 := by
    simp [List.length_take]
    omega
  unfold BitVec.get_bit BitVec.set_bit_and_all_bits_after_it_to_true
  rcases Nat.lt_trichotomy (j / 32) (i / 32) with hb | hb | hb
  · rw [getD_append_lt 0 (by omega), getD_take_lt 0 (by omega),
      getD_set_ne _ 0 (by omega), if_neg (by omega)]
  · rw [getD_append_lt 0 (by omega), getD_take_lt 0 (by omega), hb,
      getD_set_self _ 0 hblk, Nat.testBit_lor, testBit_suffixMask]
    by_cases hij : i ≤ j
    · have : i % 32 ≤ j % 32 := by omega
      simp [if_pos hij, this]
      omega
    · have : ¬(i % 32 ≤ j % 32) := by omega
      simp [if_neg hij, this]
  · rw [getD_append_ge 0 (by omega), htakelen,
      getD_replicate BLOCK_MAX 0 (by omega), testBit_BLOCK_MAX,
      if_pos (by omega)]
    simp
    omega

theorem BitVec.add_bits_num_bits (bv : BitVec) (k : Nat) (v : Bool) :
    (bv.add_bits k v).num_bits = bv.num_bits + k := by
  unfold BitVec.add_bits
  by_cases h0 : bv.num_bits + k = 0
  · simp [h0]
    omega
  · rw [if_neg h0]
    by_cases h1 : k = 0
    · simp [h1]
    · rw [if_neg h1]
      by_cases h2 : bv.num_bits = 0
      · simp [h2, BitVec.with_bits_num_bits]
      · rw [if_neg h2]

theorem BitVec.add_bits_length {bv : BitVec} (hwf : bv.WF) {k : Nat} (hk : 0 < k)
    (v : Bool) : (bv.add_bits k v).flags.length = numBlocks (bv.num_bits + k) := by
  unfold BitVec.add_bits
  rw [if_neg (by omega), if_neg (by omega)]
  by_cases h2 : bv.num_bits = 0
  · rw [if_pos h2, h2, BitVec.with_bits_length, Nat.zero_add]
  · rw [if_neg h2]
    dsimp only
    have hlen := hwf.2
    have hlen1 : bv.flags.length = (bv.num_bits - 1) / 32 + 1 := by
      rw [hlen]; simp [numBlocks, h2]
    have hnb : numBlocks (bv.num_bits + k) = (bv.num_bits + k - 1) / 32 + 1 := by
      unfold numBlocks
      rw [if_neg (by omega)]
    rw [hnb]
    by_cases h3 : 32 - (bv.num_bits - (bv.flags.length - 1) * 32) < k
    · rw [if_pos h3]
      simp only [List.length_append, List.length_set, List.length_replicate]
      omega
    · rw [if_neg h3]
      simp only [List.length_set]
      omega

theorem BitVec.add_bits_WF {bv : BitVec} (hwf : bv.WF) {k : Nat} (hk : 0 < k)
    (v : Bool) : (bv.add_bits k v).WF := by
  refine ⟨?_, by rw [BitVec.add_bits_num_bits]; exact BitVec.add_bits_length hwf hk v⟩
  unfold BitVec.add_bits
  rw [if_neg (by omega), if_neg (by omega)]
  by_cases h2 : bv.num_bits = 0
  · rw [if_pos h2]
    exact (BitVec.with_bits_WF k v).1
  · rw [if_neg h2]
    dsimp only
    have hlen1 : bv.flags.length = (bv.num_bits - 1) / 32 + 1 := by
      rw [hwf.2]; simp [numBlocks, h2]
    have hrange : setBitsRange (bv.flags.getD (bv.flags.length - 1) 0)
        (bv.num_bits - (bv.flags.length - 1) * 32)
        (if k ≤ 32 - (bv.num_bits - (bv.flags.length - 1) * 32) then k
          else 32 - (bv.num_bits - (bv.flags.length - 1) * 32)) v < 2 ^ 32 := by
      apply setBitsRange_lt _ _ _ _ hwf.flag_lt
      by_cases hc : k ≤ 32 - (bv.num_bits - (bv.flags.length - 1) * 32)
      · rw [if_pos hc]; omega
      · rw [if_neg hc]; omega
    by_cases h3 : 32 - (bv.num_bits - (bv.flags.length - 1) * 32) < k
    · rw [if_pos h3]
      intro w hw
      rcases List.mem_append.mp hw with h4 | h4
      · rcases List.mem_or_eq_of_mem_set h4 with h5 | h5
        · exact hwf.1 _ h5
        · rw [h5]; exact hrange
      · rw [List.eq_of_mem_replicate h4]
        cases v
        · norm_num
        · exact BLOCK_MAX_lt
    · rw [if_neg h3]
      intro w hw
      rcases List.mem_or_eq_of_mem_set hw with h5 | h5
      · exact hwf.1 _ h5
      · rw [h5]; exact hrange


theorem BitVec.get_bit_add_bits {bv : BitVec} (hwf : bv.WF) {k : Nat} (hk : 0 < k)
    (v : Bool) (j : Nat) (hj : j < bv.num_bits + k) :
    (bv.add_bits k v).get_bit j = if j < bv.num_bits then bv.get_bit j else v := by
  unfold BitVec.add_bits
  rw [if_neg (by omega), if_neg (by omega)]
  by_cases h2 : bv.num_bits = 0
  · rw [if_pos h2, if_neg (by omega)]
    exact BitVec.get_bit_with_bits k v j (by rw [h2] at hj; have := le_32_mul_numBlocks k; omega)
  · rw [if_neg h2]
    dsimp only
    have hn : 0 < bv.num_bits := by omega
    have hlen1 : bv.flags.length = (bv.num_bits - 1) / 32 + 1 := by
      rw [hwf.2]; simp [numBlocks, h2]
    have halloc : 1 ≤ bv.num_bits - (bv.flags.length - 1) * 32 ∧
        bv.num_bits - (bv.flags.length - 1) * 32 ≤ 32 := by omega
    by_cases h3 : 32 - (bv.num_bits - (bv.flags.length - 1) * 32) < k
    · rw [if_pos h3, if_neg (by omega)]
      unfold BitVec.get_bit
      simp only [List.length_set]
      by_cases hb : j / 32 < bv.flags.length
      · rw [getD_append_lt 0 (by simp [List.length_set]; omega)]
        by_cases hbl : j / 32 = bv.flags.length - 1
        · rw [hbl, getD_set_self _ 0 (by omega),
            testBit_setBitsRange _ _ _ _ _ (by omega) (by omega)]
          by_cases hjn : j < bv.num_bits
          · rw [if_neg (by omega), if_pos hjn]
          · rw [if_pos (by omega), if_neg hjn]
        · rw [getD_set_ne _ 0 (by omega)]
          have hjn : j < bv.num_bits := by omega
          rw [if_pos hjn]
      · rw [getD_append_ge 0 (by simp [List.length_set]; omega)]
        simp only [List.length_set]
        have hjn : ¬ j < bv.num_bits := by omega
        rw [if_neg hjn,
          getD_replicate _ 0 (by omega)]
        cases v
        · simp
        · simp [testBit_BLOCK_MAX]
          omega
    · rw [if_neg h3, if_pos (by omega)]
      unfold BitVec.get_bit
      have hb : j / 32 ≤ bv.flags.length - 1 := by omega
      by_cases hbl : j / 32 = bv.flags.length - 1
      · rw [hbl, getD_set_self _ 0 (by omega),
          testBit_setBitsRange _ _ _ _ _ (by omega) (by omega)]
        by_cases hjn : j < bv.num_bits
        · rw [if_neg (by omega), if_pos hjn]
        · rw [if_pos (by omega), if_neg hjn]
      · rw [getD_set_ne _ 0 (by omega)]
        have hjn : j < bv.num_bits := by omega
        rw [if_pos hjn]

theorem BitVec.get_block_lt {bv : BitVec} (hwf : bv.WF) (b : Nat) :
    bv.get_block b < 2 ^ 32 := by
  unfold BitVec.get_block
  by_cases h0 : bv.flags.length = 0
  · rw [if_pos h0]; norm_num
  · rw [if_neg h0]
    by_cases h1 : b = bv.flags.length - 1
    · rw [if_pos h1]
      by_cases h2 : bv.num_bits % 32 ≠ 0
      · rw [if_pos h2]
        exact lt_of_le_of_lt Nat.and_le_left hwf.flag_lt
      · rw [if_neg h2]
        exact lt_of_le_of_lt Nat.and_le_left hwf.flag_lt
    · rw [if_neg h1]
      exact hwf.flag_lt

theorem BitVec.testBit_get_block {bv : BitVec} (hwf : bv.WF) (b j : Nat) (hj : j < 32) :
    (bv.get_block b).testBit j =
      (decide (32 * b + j < bv.num_bits) && bv.get_bit (32 * b + j)) := by
  have hget : bv.get_bit (32 * b + j) = (bv.flags.getD b 0).testBit j := by
    unfold BitVec.get_bit
    have e1 : (32 * b + j) / 32 = b := by omega
    have e2 : (32 * b + j) % 32 = j := by omega
    rw [e1, e2]
  rw [hget]
  unfold BitVec.get_block
  by_cases h0 : bv.flags.length = 0
  · rw [if_pos h0]
    have hn : bv.num_bits = 0 := by
      have h1 := hwf.2
      have := le_32_mul_numBlocks bv.num_bits
      omega
    rw [Nat.zero_testBit, getD_of_length_le 0 (by omega), Nat.zero_testBit]
    simp [hn]
  · rw [if_neg h0]
    have hn : 0 < bv.num_bits := by
      by_contra hc
      have h1 := hwf.2
      have hz : bv.num_bits = 0 := by omega
      rw [hz] at h1
      unfold numBlocks at h1
      rw [if_pos rfl] at h1
      exact h0 h1
    have hn2 : bv.num_bits ≠ 0 := by omega
    have hlen1 : bv.flags.length = (bv.num_bits - 1) / 32 + 1 := by
      rw [hwf.2]; simp [numBlocks, hn2]
    by_cases h1 : b = bv.flags.length - 1
    · rw [if_pos h1]
      by_cases h2 : bv.num_bits % 32 ≠ 0
      · rw [if_pos h2, Nat.testBit_land, Nat.testBit_two_pow_sub_one, h1]
        by_cases h4 : j < bv.num_bits - 32 * (bv.flags.length - 1)
        · simp only [decide_eq_true_eq] at h4 ⊢
          rw [decide_eq_true h4, decide_eq_true (by omega : 32 * (bv.flags.length - 1) + j < bv.num_bits)]
          simp [Bool.and_comm]
        · rw [decide_eq_false h4, decide_eq_false (by omega : ¬ 32 * (bv.flags.length - 1) + j < bv.num_bits)]
          simp
      · rw [if_neg h2, Nat.testBit_land, testBit_BLOCK_MAX, decide_eq_true hj, h1,
          decide_eq_true (by omega : 32 * (bv.flags.length - 1) + j < bv.num_bits)]
        simp
    · rw [if_neg h1]
      by_cases hbl : b < bv.flags.length
      · rw [decide_eq_true (by omega : 32 * b + j < bv.num_bits)]
        simp
      · rw [getD_of_length_le 0 (by omega), Nat.zero_testBit,
          decide_eq_false (by omega : ¬ 32 * b + j < bv.num_bits)]
        simp

theorem BitVec.get_block_ne_zero_iff {bv : BitVec} (hwf : bv.WF) (b : Nat) :
    bv.get_block b ≠ 0 ↔
      ∃ u, 32 * b ≤ u ∧ u < 32 * (b + 1) ∧ u < bv.num_bits ∧ bv.get_bit u = true := by
  rw [ne_zero_iff_exists_testBit_lt (BitVec.get_block_lt hwf b)]
  constructor
  · rintro ⟨j, hj, hbit⟩
    rw [BitVec.testBit_get_block hwf b j hj] at hbit
    refine ⟨32 * b + j, by omega, by omega, ?_, ?_⟩
    · have := Bool.and_eq_true_iff.mp hbit
      simp at this
      omega
    · exact (Bool.and_eq_true_iff.mp hbit).2
  · rintro ⟨u, h1, h2, h3, h4⟩
    refine ⟨u - 32 * b, by omega, ?_⟩
    rw [BitVec.testBit_get_block hwf b _ (by omega)]
    have he : 32 * b + (u - 32 * b) = u := by omega
    rw [he, h4, decide_eq_true h3]
    rfl


theorem findBlockAux_cons (b w : Nat) (ws : List Nat) :
    findBlockAux b (w :: ws) =
      if w ≠ 0 then some (b * 32 + ctz w) else findBlockAux (b + 1) ws := rfl

theorem findBlockAux_none (ws : List Nat) : ∀ b : Nat,
    (findBlockAux b ws = none ↔ ∀ w ∈ ws, w = 0) := by
  induction ws with
  | nil => intro b; simp [findBlockAux]
  | cons w ws ih =>
    intro b
    by_cases hw : w = 0
    · rw [show findBlockAux b (w :: ws) = findBlockAux (b + 1) ws by
        rw [findBlockAux_cons, if_neg (by simpa using hw)]]
      rw [ih (b + 1)]
      constructor
      · intro h u hu
        rcases List.mem_cons.mp hu with h1 | h1
        · rw [h1, hw]
        · exact h u h1
      · intro h u hu
        exact h u (List.mem_cons_of_mem _ hu)
    · rw [show findBlockAux b (w :: ws) = some (b * 32 + ctz w) by
        rw [findBlockAux_cons, if_pos (by simpa using hw)]]
      constructor
      · intro h; exact absurd h (by simp)
      · intro h; exact absurd (h w (List.mem_cons_self _ _)) hw

theorem findBlockAux_some (ws : List Nat) : ∀ b r : Nat,
    findBlockAux b ws = some r →
    ∃ c, b ≤ c ∧ c - b < ws.length ∧ ws.getD (c - b) 0 ≠ 0 ∧
      (∀ d < c - b, ws.getD d 0 = 0) ∧ r = c * 32 + ctz (ws.getD (c - b) 0) := by
  induction ws with
  | nil => intro b r h; simp [findBlockAux] at h
  | cons w ws ih =>
    intro b r h
    by_cases hw : w = 0
    · rw [show findBlockAux b (w :: ws) = findBlockAux (b + 1) ws by
        rw [findBlockAux_cons, if_neg (by simpa using hw)]] at h
      obtain ⟨c, h1, h2, h3, h4, h5⟩ := ih (b + 1) r h
      refine ⟨c, by omega, by simp; omega, ?_, ?_, ?_⟩
      · have he : c - b = (c - (b + 1)) + 1 := by omega
        rw [he]
        exact h3
      · intro d hd
        match d with
        | 0 => exact hw
        | d + 1 =>
          have := h4 d (by omega)
          exact this
      · have he : c - b = (c - (b + 1)) + 1 := by omega
        rw [he]
        exact h5
    · rw [show findBlockAux b (w :: ws) = some (b * 32 + ctz w) by
        rw [findBlockAux_cons, if_pos (by simpa using hw)]] at h
      refine ⟨b, Nat.le_refl b, by simp, ?_, ?_, ?_⟩
      · rw [Nat.sub_self]
        simpa using hw
      · intro d hd
        exact absurd hd (by omega)
      · rw [Nat.sub_self]
        rw [show (w :: ws).getD 0 0 = w from rfl]
        simp at h
        omega

theorem BitVec.find_a_true_bit_none {bv : BitVec} (h : bv.find_a_true_bit = none)
    (j : Nat) : bv.get_bit j = false := by
  have hall := (findBlockAux_none bv.flags 0).mp h
  unfold BitVec.get_bit
  by_cases hb : j / 32 < bv.flags.length
  · rw [hall _ (mem_of_getD hb), Nat.zero_testBit]
  · rw [getD_of_length_le 0 (by omega), Nat.zero_testBit]

theorem BitVec.find_a_true_bit_some {bv : BitVec} (hwf : bv.WF) {r : Nat}
    (h : bv.find_a_true_bit = some r) :
    bv.get_bit r = true ∧ ∀ j < r, bv.get_bit j = false := by
  obtain ⟨c, hbc, hcl, hcnz, hbefore, hr⟩ := findBlockAux_some bv.flags 0 r h
  simp only [Nat.sub_zero] at hcl hcnz hbefore hr
  have hwlt : bv.flags.getD c 0 < 2 ^ 32 := hwf.flag_lt
  obtain ⟨hc1, hc2⟩ := ctz_spec hcnz hwlt
  have hctz : ctz (bv.flags.getD c 0) < 32 := ctz_lt_32 hcnz hwlt
  constructor
  · unfold BitVec.get_bit
    have e1 : r / 32 = c := by omega
    have e2 : r % 32 = ctz (bv.flags.getD c 0) := by omega
    rw [e1, e2]
    exact hc1
  · intro j hj
    unfold BitVec.get_bit
    rcases Nat.lt_or_ge (j / 32) c with hb | hb
    · rw [hbefore _ hb, Nat.zero_testBit]
    · have e1 : j / 32 = c := by omega
      rw [e1]
      exact hc2 _ (by omega)

theorem BitVec.find_a_true_bit_lowest {bv : BitVec} (hwf : bv.WF)
    (hex : ∃ i, i < bv.num_bits ∧ bv.get_bit i = true) :
    ∃ r, bv.find_a_true_bit = some r ∧ r < bv.num_bits ∧ bv.get_bit r = true ∧
      ∀ j < r, bv.get_bit j = false := by
  obtain ⟨i, hi, hbit⟩ := hex
  cases hop : bv.find_a_true_bit with
  | none =>
    rw [BitVec.find_a_true_bit_none hop i] at hbit
    exact absurd hbit (by simp)
  | some r =>
    obtain ⟨h1, h2⟩ := BitVec.find_a_true_bit_some hwf hop
    have hri : r ≤ i := by
      by_contra hc
      rw [h2 i (by omega)] at hbit
      exact absurd hbit (by simp)
    exact ⟨r, rfl, by omega, h1, h2⟩

/-! Filter-over-interval helpers used to relate scan and tree iterators to the
set of true bits. -/

theorem filter_range_eq_of_first (p : Nat → Bool) (cur t n : Nat)
    (h1 : cur ≤ t) (ht : t < n) (hp : p t = true)
    (hbefore : ∀ j, cur ≤ j → j < t → p j = false) :
    (List.range' cur (n - cur)).filter p = t :: (List.range' (t + 1) (n - (t + 1))).filter p := by
  have hsplit : List.range' cur (t - cur) ++ List.range' t (n - t) = List.range' cur (n - cur) := by
    have := List.range'_append cur (t - cur) (n - t) 1
    have e1 : cur + 1 * (t - cur) = t := by omega
    have e2 : n - t + (t - cur) = n - cur := by omega
    rw [e1, e2] at this
    exact this
  rw [← hsplit, List.filter_append]
  have hnil : (List.range' cur (t - cur)).filter p = [] := by
    rw [List.filter_eq_nil_iff]
    intro a ha
    obtain ⟨i, hilt, hieq⟩ := List.mem_range'.mp ha
    subst hieq
    rw [hbefore (cur + 1 * i) (by omega) (by omega)]
    simp
  rw [hnil, List.nil_append]
  have he : n - t = (n - (t + 1)) + 1 := by omega
  rw [he, List.range'_succ, List.filter_cons, if_pos hp]

theorem filter_range_eq_nil (p : Nat → Bool) (cur n : Nat)
    (hall : ∀ j, cur ≤ j → j < n → p j = false) :
    (List.range' cur (n - cur)).filter p = [] := by
  rw [List.filter_eq_nil_iff]
  intro a ha
  obtain ⟨i, hilt, hieq⟩ := List.mem_range'.mp ha
  subst hieq
  rw [hall (cur + 1 * i) (by omega) (by omega)]
  simp

/-- Inner skip loop of the `TrueBitsIterator` in `bit.rs`, fuelled. -/
def nextTrueAux (bv : BitVec) : Nat → Nat → Option Nat
  | 0, _ => none
  | fuel + 1, cur =>
    if bv.num_bits ≤ cur then none
    else if bv.get_bit cur then some cur
    else nextTrueAux bv fuel (cur + 1)

/-- Repeatedly advancing the `TrueBitsIterator` of `bit.rs` from position `cur`
collects the emitted indices. -/
def emitTrueBits (bv : BitVec) : Nat → Nat → List Nat
  | 0, _ => []
  | fuel + 1, cur =>
    match nextTrueAux bv (bv.num_bits + 1) cur with
    | none => []
    | some t => t :: emitTrueBits bv fuel (t + 1)

/-- The full emitted sequence of `BitVec::true_bits`. -/
def BitVec.true_bits_list (bv : BitVec) : List Nat :=
  emitTrueBits bv (bv.num_bits + 1) 0

theorem nextTrueAux_none_spec (bv : BitVec) : ∀ fuel cur : Nat,
    bv.num_bits ≤ cur + fuel → nextTrueAux bv fuel cur = none →
    ∀ j, cur ≤ j → j < bv.num_bits → bv.get_bit j = false := by
  intro fuel
  induction fuel with
  | zero => intro cur hf h j h1 h2; omega
  | succ f ih =>
    intro cur hf h j h1 h2
    unfold nextTrueAux at h
    by_cases hc : bv.num_bits ≤ cur
    · omega
    · rw [if_neg hc] at h
      by_cases hg : bv.get_bit cur
      · rw [if_pos hg] at h
        exact absurd h (by simp)
      · rw [if_neg hg] at h
        rcases Nat.eq_or_lt_of_le h1 with he | hlt
        · rw [← he]
          exact Bool.eq_false_iff.mpr hg
        · exact ih (cur + 1) (by omega) h j hlt h2

theorem nextTrueAux_some_spec (bv : BitVec) : ∀ fuel cur t : Nat,
    nextTrueAux bv fuel cur = some t →
    cur ≤ t ∧ t < bv.num_bits ∧ bv.get_bit t = true ∧
      ∀ j, cur ≤ j → j < t → bv.get_bit j = false := by
  intro fuel
  induction fuel with
  | zero => intro cur t h; exact absurd h (by simp [nextTrueAux])
  | succ f ih =>
    intro cur t h
    unfold nextTrueAux at h
    by_cases hc : bv.num_bits ≤ cur
    · rw [if_pos hc] at h
      exact absurd h (by simp)
    · rw [if_neg hc] at h
      by_cases hg : bv.get_bit cur
      · rw [if_pos hg] at h
        have ht : t = cur := by
          have := Option.some.inj h
          omega
        refine ⟨by omega, by omega, by rw [ht]; exact hg, ?_⟩
        intro j h1 h2
        omega
      · rw [if_neg hg] at h
        obtain ⟨h1, h2, h3, h4⟩ := ih (cur + 1) t h
        refine ⟨by omega, h2, h3, ?_⟩
        intro j hj1 hj2
        rcases Nat.eq_or_lt_of_le hj1 with he | hlt
        · rw [← he]
          exact Bool.eq_false_iff.mpr hg
        · exact h4 j hlt hj2

theorem emitTrueBits_eq (bv : BitVec) : ∀ fuel cur : Nat,
    bv.num_bits + 1 ≤ fuel + cur →
    emitTrueBits bv fuel cur =
      (List.range' cur (bv.num_bits - cur)).filter (fun i => bv.get_bit i) := by
  intro fuel
  induction fuel with
  | zero =>
    intro cur hf
    rw [show emitTrueBits bv 0 cur = [] from rfl]
    rw [show bv.num_bits - cur = 0 by omega]
    rfl
  | succ f ih =>
    intro cur hf
    unfold emitTrueBits
    cases hnx : nextTrueAux bv (bv.num_bits + 1) cur with
    | none =>
      rw [filter_range_eq_nil _ cur _ (nextTrueAux_none_spec bv _ cur (by omega) hnx)]
    | some t =>
      obtain ⟨h1, h2, h3, h4⟩ := nextTrueAux_some_spec bv _ cur t hnx
      dsimp only
      rw [ih (t + 1) (by omega),
        filter_range_eq_of_first (fun i => bv.get_bit i) cur t bv.num_bits h1 h2 h3 h4]

theorem BitVec.true_bits_list_eq (bv : BitVec) :
    bv.true_bits_list = (List.range bv.num_bits).filter (fun i => bv.get_bit i) := by
  unfold BitVec.true_bits_list
  rw [emitTrueBits_eq bv _ 0 (by omega), Nat.sub_zero, List.range_eq_range']


/-! The multi-level OR-reduction bitset of `hierarchical.rs`: a stack of
`BitVec` levels, level 0 holding the data and each bit of level `k+1`
summarizing one 32-bit block of level `k`. -/

structure HierarchicalBitVec where
  levels : List BitVec

/-- Level access with the empty `BitVec` as the out-of-range default. -/
def levelAt (levels : List BitVec) (k : Nat) : BitVec := levels.getD k BitVec.new

def HierarchicalBitVec.new : HierarchicalBitVec := ⟨[]⟩

/-- Bottom-up level construction loop of `HierarchicalBitVec::with_bits`; the
fuel only bounds the iteration count and is chosen large enough. -/
def buildLevels (num_bits : Nat) (value_of_bits : Bool) : Nat → Nat → List BitVec
  | 0, _ => []
  | fuel + 1, num_bits_per_bit_at_level =>
    let num_bits_needed_at_level := (num_bits - 1) / num_bits_per_bit_at_level + 1
    if num_bits_needed_at_level ≤ 32 then
      [BitVec.with_bits num_bits_needed_at_level value_of_bits]
    else
      BitVec.with_bits num_bits_needed_at_level value_of_bits ::
        buildLevels num_bits value_of_bits fuel (num_bits_per_bit_at_level * 32)

def HierarchicalBitVec.with_bits (num_bits : Nat) (value_of_bits : Bool) : HierarchicalBitVec :=
  if num_bits = 0 then ⟨[]⟩
  else ⟨buildLevels num_bits value_of_bits num_bits 1⟩

def HierarchicalBitVec.num_bits (h : HierarchicalBitVec) : Nat :=
  match h.levels with
  | [] => 0
  | l0 :: _ => l0.num_bits

def HierarchicalBitVec.get_bit (h : HierarchicalBitVec) (idx : Nat) : Bool :=
  (levelAt h.levels 0).get_bit idx

/-- Upward parent-bit recomputation loop of `HierarchicalBitVec::set_bit`. -/
def propagateUp : Nat → Nat → Nat → List BitVec → List BitVec
  | 0, _, _, levels => levels
  | fuel + 1, level, idx_of_parent_bit, levels =>
    if level < levels.length then
      let children := (levelAt levels (level - 1)).get_block idx_of_parent_bit
      propagateUp fuel (level + 1) (idx_of_parent_bit / 32)
        (levels.set level
          ((levelAt levels level).set_bit idx_of_parent_bit (decide (children ≠ 0))))
    else levels

def HierarchicalBitVec.set_bit (h : HierarchicalBitVec) (idx : Nat) (value : Bool) :
    HierarchicalBitVec :=
  let levels0 := h.levels.set 0 ((levelAt h.levels 0).set_bit idx value)
  ⟨propagateUp levels0.length 1 (idx / 32) levels0⟩

/-- Level growth loop (step 1 of `HierarchicalBitVec::add_bits`): grow each
level until one has enough spare capacity for the new bits. -/
def growLevels (value : Bool) (num_bits_each_level_encompasses num_bits : Nat) :
    Nat → Nat → Nat → List BitVec → List BitVec
  | 0, _, _, levels => levels
  | fuel + 1, level, num_bits_per_bit_at_level, levels =>
    if level < levels.length then
      let num_bits_at_level := (levelAt levels level).num_bits
      let max_num_bits_level_can_encompass := num_bits_at_level * num_bits_per_bit_at_level
      let num_bits_level_can_encompass :=
        max_num_bits_level_can_encompass - num_bits_each_level_encompasses
      if num_bits ≤ num_bits_level_can_encompass then levels
      else
        let num_bits_to_encompass := num_bits - num_bits_level_can_encompass
        let num_bits_for_level := (num_bits_to_encompass - 1) / num_bits_per_bit_at_level + 1
        growLevels value num_bits_each_level_encompasses num_bits fuel (level + 1)
          (num_bits_per_bit_at_level * 32)
          (levels.set level ((levelAt levels level).add_bits num_bits_for_level value))
    else levels

/-- Upward suffix-true propagation (step 2 of `HierarchicalBitVec::add_bits`,
only for `value = true`). -/
def suffixTrueAll : Nat → Nat → Nat → List BitVec → List BitVec
  | 0, _, _, levels => levels
  | fuel + 1, level, idx_of_bit, levels =>
    if level < levels.length then
      suffixTrueAll fuel (level + 1) (idx_of_bit / 32)
        (levels.set level ((levelAt levels level).set_bit_and_all_bits_after_it_to_true idx_of_bit))
    else levels

/-- Per-bit OR-reduction fill of a freshly synthesized top level (step 3 of
`HierarchicalBitVec::add_bits`). -/
def fillFromChild (child : BitVec) : Nat → Nat → BitVec → BitVec
  | 0, _, new_level => new_level
  | cnt + 1, idx_of_parent_bit, new_level =>
    fillFromChild child cnt (idx_of_parent_bit + 1)
      (new_level.set_bit idx_of_parent_bit (decide (child.get_block idx_of_parent_bit ≠ 0)))

/-- New-top-level synthesis loop (step 3 of `HierarchicalBitVec::add_bits`). -/
def addTopLevels (value : Bool) (new_num_bits : Nat) : Nat → Nat → List BitVec → List BitVec
  | 0, _, levels => levels
  | fuel + 1, num_bits_per_bit_at_level, levels =>
    let num_bits_needed_to_fit_items := (new_num_bits - 1) / num_bits_per_bit_at_level + 1
    let child := levelAt levels (levels.length - 1)
    let new_level :=
      fillFromChild child num_bits_needed_to_fit_items 0
        (BitVec.with_bits num_bits_needed_to_fit_items value)
    let levels' := levels ++ [new_level]
    if num_bits_needed_to_fit_items ≤ 32 then levels'
    else addTopLevels value new_num_bits fuel (num_bits_per_bit_at_level * 32) levels'

def HierarchicalBitVec.add_bits (h : HierarchicalBitVec) (num_bits : Nat) (value : Bool) :
    HierarchicalBitVec :=
  if num_bits = 0 then h
  else if h.levels.isEmpty then HierarchicalBitVec.with_bits num_bits value
  else
    let new_num_bits := (levelAt h.levels 0).num_bits + num_bits
    let num_bits_each_level_encompasses := (levelAt h.levels 0).num_bits
    let idx_of_first_new_bit_at_level_0 := num_bits_each_level_encompasses
    let levels1 :=
      growLevels value num_bits_each_level_encompasses num_bits h.levels.length 0 1 h.levels
    let levels2 :=
      if value then suffixTrueAll levels1.length 0 idx_of_first_new_bit_at_level_0 levels1
      else levels1
    let levels3 :=
      if 1 < (levelAt levels2 (levels2.length - 1)).num_blocks then
        addTopLevels value new_num_bits new_num_bits (32 ^ levels2.length) levels2
      else levels2
    ⟨levels3⟩

/-- Downward descent loop of `HierarchicalBitVec::find_a_true_bit`. -/
def descendLevels (levels : List BitVec) : Nat → Nat → Nat
  | 0, idx => idx
  | level + 1, idx =>
    descendLevels levels level (idx * 32 + ctz ((levelAt levels level).get_block idx))

def HierarchicalBitVec.find_a_true_bit (h : HierarchicalBitVec) : Option Nat :=
  if h.levels.isEmpty then none
  else
    let top := levelAt h.levels (h.levels.length - 1)
    if top.get_block 0 = 0 then none
    else some (descendLevels h.levels (h.levels.length - 1) (ctz (top.get_block 0)))

/-! Depth-first `TrueBitsIterator` of `hierarchical.rs`. -/

structure HTrueBitsIterator where
  stack : List (Nat × Nat)
  flags : Nat
  base_global_idx_of_flags : Nat

/-- Push loop over bits in descending order (so that lower bits end nearer the
stack top), from `TrueBitsIterator::next`. -/
def pushChildrenLoop (childLevel base_idx flagsWord : Nat) (st : List (Nat × Nat)) :
    List (Nat × Nat) :=
  ((List.range 32).reverse).foldl
    (fun acc bit =>
      if flagsWord &&& (1 <<< bit) ≠ 0 then (childLevel, base_idx + bit) :: acc else acc) st

/-- Frame-popping loop of `TrueBitsIterator::next`: pop frames, expanding
internal nodes, until a level-0 block is found; `none` models both stack
exhaustion and the `assert!(flags != 0)` contract failure. -/
def popFrames (levels : List BitVec) : Nat → List (Nat × Nat) → Option (Nat × Nat × List (Nat × Nat))
  | 0, _ => none
  | fuel + 1, stack =>
    match stack with
    | [] => none
    | (level, idx_of_flags) :: rest =>
      if level = 0 then
        some ((levelAt levels 0).get_block idx_of_flags, idx_of_flags * 32, rest)
      else
        let flagsWord := (levelAt levels level).get_block idx_of_flags
        if flagsWord = 0 then none
        else popFrames levels fuel (pushChildrenLoop (level - 1) (idx_of_flags * 32) flagsWord rest)

/-- Fuel bound for `popFrames`: replacing a frame by its children strictly
decreases this weight. -/
def stackWeight (stack : List (Nat × Nat)) : Nat := (stack.map (fun f => 33 ^ f.1)).sum

def hNext (levels : List BitVec) (s : HTrueBitsIterator) : Option (Nat × HTrueBitsIterator) :=
  let step :=
    if s.flags = 0 then
      if s.stack = [] then none
      else popFrames levels (stackWeight s.stack + 1) s.stack
    else some (s.flags, s.base_global_idx_of_flags, s.stack)
  match step with
  | none => none
  | some (flagsWord, base, stack') =>
    if flagsWord = 0 then none
    else
      some (base + ctz flagsWord,
        ⟨stack', flagsWord &&& (BLOCK_MAX ^^^ (1 <<< ctz flagsWord)), base⟩)

def hInit (h : HierarchicalBitVec) : HTrueBitsIterator :=
  if ¬ h.levels.isEmpty ∧ (levelAt h.levels (h.levels.length - 1)).get_block 0 ≠ 0 then
    ⟨[(h.levels.length - 1, 0)], 0, 0⟩
  else ⟨[], 0, 0⟩

def emitHAux (levels : List BitVec) : Nat → HTrueBitsIterator → List Nat
  | 0, _ => []
  | fuel + 1, s =>
    match hNext levels s with
    | none => []
    | some (t, s') => t :: emitHAux levels fuel s'

/-- The full emitted sequence of `HierarchicalBitVec::true_bits`. -/
def HierarchicalBitVec.true_bits_list (h : HierarchicalBitVec) : List Nat :=
  emitHAux h.levels (h.num_bits + 1) (hInit h)

/-- Structural and consistency invariant of a non-empty hierarchy over `n`
level-0 bits (the source checks it in `_get_error`): well-formed levels of the
exact ceiling sizes, a one-word top, no redundant top level, and every parent
bit equal to the OR of its masked child block. -/
def HLevelsWF (levels : List BitVec) (n : Nat) : Prop :=
  0 < n ∧ 0 < levels.length ∧ (levelAt levels 0).num_bits = n ∧
  (∀ k, k < levels.length →
    (levelAt levels k).WF ∧ (levelAt levels k).num_bits = ceil_div n (32 ^ k)) ∧
  ceil_div n (32 ^ (levels.length - 1)) ≤ 32 ∧
  (∀ k, k + 1 < levels.length → 32 < ceil_div n (32 ^ k)) ∧
  (∀ k, 0 < k → k < levels.length → ∀ i, i < (levelAt levels k).num_bits →
    ((levelAt levels k).get_bit i = true ↔ (levelAt levels (k - 1)).get_block i ≠ 0))

def HierarchicalBitVec.WFH (h : HierarchicalBitVec) : Prop :=
  h.levels = [] ∨ HLevelsWF h.levels h.num_bits


theorem levelAt_set_self {levels : List BitVec} {k : Nat} (h : k < levels.length)
    (bv : BitVec) : levelAt (levels.set k bv) k = bv :=
  getD_set_self bv BitVec.new h

theorem levelAt_set_ne {levels : List BitVec} {k j : Nat} (h : k ≠ j)
    (bv : BitVec) : levelAt (levels.set k bv) j = levelAt levels j :=
  getD_set_ne bv BitVec.new h

theorem levelAt_append_lt {levels extra : List BitVec} {k : Nat}
    (h : k < levels.length) : levelAt (levels ++ extra) k = levelAt levels k :=
  getD_append_lt BitVec.new h

theorem levelAt_append_ge {levels extra : List BitVec} {k : Nat}
    (h : levels.length ≤ k) :
    levelAt (levels ++ extra) k = levelAt extra (k - levels.length) :=
  getD_append_ge BitVec.new h

theorem HierarchicalBitVec.num_bits_eq (h : HierarchicalBitVec)
    (hne : h.levels ≠ []) : h.num_bits = (levelAt h.levels 0).num_bits := by
  unfold HierarchicalBitVec.num_bits
  match hl : h.levels with
  | [] => exact absurd hl hne
  | l0 :: rest => rfl

theorem buildLevels_succ (n : Nat) (v : Bool) (f pw : Nat) :
    buildLevels n v (f + 1) pw =
      if (n - 1) / pw + 1 ≤ 32 then [BitVec.with_bits ((n - 1) / pw + 1) v]
      else BitVec.with_bits ((n - 1) / pw + 1) v :: buildLevels n v f (pw * 32) := rfl

theorem buildLevels_spec (n : Nat) (v : Bool) (hn : 0 < n) : ∀ fuel pw : Nat, 0 < pw →
    (n - 1) / pw < fuel →
    0 < (buildLevels n v fuel pw).length ∧
    (∀ k, k < (buildLevels n v fuel pw).length →
      levelAt (buildLevels n v fuel pw) k = BitVec.with_bits (ceil_div n (pw * 32 ^ k)) v) ∧
    ceil_div n (pw * 32 ^ ((buildLevels n v fuel pw).length - 1)) ≤ 32 ∧
    (∀ k, k + 1 < (buildLevels n v fuel pw).length → 32 < ceil_div n (pw * 32 ^ k)) := by
  intro fuel
  induction fuel with
  | zero => intro pw hpw hf; exact absurd hf (Nat.not_lt_zero _)
  | succ f ih =>
    intro pw hpw hf
    show 0 < (buildLevels n v (f + 1) pw).length ∧ _
    by_cases hc : (n - 1) / pw + 1 ≤ 32
    · have hb : buildLevels n v (f + 1) pw =
          [BitVec.with_bits ((n - 1) / pw + 1) v] := by
        rw [buildLevels_succ, if_pos hc]
      rw [hb]
      refine ⟨by simp, ?_, ?_, ?_⟩
      · intro k hk
        simp at hk
        rw [hk]
        show BitVec.with_bits (ceil_div n pw) v = _
        rw [pow_zero, Nat.mul_one]
      · show ceil_div n (pw * 32 ^ 0) ≤ 32
        rw [pow_zero, Nat.mul_one]
        exact hc
      · intro k hk
        simp at hk
    · have hb : buildLevels n v (f + 1) pw =
          BitVec.with_bits ((n - 1) / pw + 1) v :: buildLevels n v f (pw * 32) := by
        rw [buildLevels_succ, if_neg hc]
      have hdec : (n - 1) / (pw * 32) < f := by
        rw [← Nat.div_div_eq_div_mul]
        have h32 : 32 ≤ (n - 1) / pw := by omega
        have := Nat.div_lt_self (show 0 < (n - 1) / pw by omega) (show 1 < 32 by norm_num)
        omega
      obtain ⟨ihpos, ihget, ihtop, ihmin⟩ := ih (pw * 32) (by omega) hdec
      rw [hb]
      have hlen : (BitVec.with_bits ((n - 1) / pw + 1) v ::
          buildLevels n v f (pw * 32)).length = (buildLevels n v f (pw * 32)).length + 1 := by
        simp
      refine ⟨by simp, ?_, ?_, ?_⟩
      · intro k hk
        match k with
        | 0 =>
          show BitVec.with_bits ((n - 1) / pw + 1) v = _
          rw [pow_zero, Nat.mul_one]
          rfl
        | k + 1 =>
          show levelAt (buildLevels n v f (pw * 32)) k = _
          rw [hlen] at hk
          rw [ihget k (by omega)]
          have he : pw * 32 * 32 ^ k = pw * 32 ^ (k + 1) := by ring
          rw [he]
      · rw [hlen, Nat.add_sub_cancel]
        obtain ⟨m, hm⟩ : ∃ m, (buildLevels n v f (pw * 32)).length = m + 1 :=
          ⟨(buildLevels n v f (pw * 32)).length - 1, by omega⟩
        rw [hm] at ihtop ⊢
        rw [Nat.add_sub_cancel] at ihtop
        have he : pw * 32 ^ (m + 1) = pw * 32 * 32 ^ m := by
          rw [pow_succ]
          ring
        rw [he]
        exact ihtop
      · intro k hk
        rw [hlen] at hk
        match k with
        | 0 =>
          rw [pow_zero, Nat.mul_one]
          show 32 < ceil_div n pw
          unfold ceil_div
          omega
        | k + 1 =>
          have := ihmin k (by omega)
          have he : pw * 32 * 32 ^ k = pw * 32 ^ (k + 1) := by ring
          rw [he] at this
          exact this

theorem HierarchicalBitVec.with_bits_levels (n : Nat) (v : Bool) (hn : 0 < n) :
    (HierarchicalBitVec.with_bits n v).levels = buildLevels n v n 1 := by
  unfold HierarchicalBitVec.with_bits
  rw [if_neg (by omega)]

theorem HLevelsWF_with_bits (n : Nat) (v : Bool) (hn : 0 < n) :
    HLevelsWF (buildLevels n v n 1) n := by
  obtain ⟨hpos, hget, htop, hmin⟩ := buildLevels_spec n v hn n 1 (by omega) (by omega)
  have hsimp : ∀ k, (1 : Nat) * 32 ^ k = 32 ^ k := fun k => Nat.one_mul _
  refine ⟨hn, hpos, ?_, ?_, ?_, ?_, ?_⟩
  · rw [hget 0 hpos, hsimp 0, pow_zero, BitVec.with_bits_num_bits, ceil_div_one_of_pos hn]
  · intro k hk
    rw [hget k hk, hsimp k]
    exact ⟨BitVec.with_bits_WF _ v, BitVec.with_bits_num_bits _ v⟩
  · rw [← hsimp ((buildLevels n v n 1).length - 1)]
    exact htop
  · intro k hk
    rw [← hsimp k]
    exact hmin k hk
  · intro k hk0 hk i hi
    rw [hget k hk, hsimp k] at hi ⊢
    rw [BitVec.with_bits_num_bits] at hi
    have hk1 : k - 1 < (buildLevels n v n 1).length := by omega
    rw [hget (k - 1) hk1, hsimp (k - 1)]
    have hmkk : ceil_div n (32 ^ k) = ceil_div (ceil_div n (32 ^ (k - 1))) 32 := by
      rw [ceil_div_ceil_div n _ 32 hn (Nat.pos_pow_of_pos _ (by norm_num))]
      congr 1
      obtain ⟨m, hm⟩ : ∃ m, k = m + 1 := ⟨k - 1, by omega⟩
      subst hm
      rw [Nat.add_sub_cancel, pow_succ]
    have hchildpos : 0 < ceil_div n (32 ^ (k - 1)) := ceil_div_pos _ _
    have hchild32 : 32 * i < ceil_div n (32 ^ (k - 1)) := by
      rw [hmkk] at hi
      have := (lt_ceil_div_iff _ 32 i hchildpos (by norm_num)).mp hi
      omega
    rw [BitVec.get_bit_with_bits _ v i
        (by have := le_32_mul_numBlocks (ceil_div n (32 ^ k)); omega),
      BitVec.get_block_ne_zero_iff (BitVec.with_bits_WF _ v) i]
    rw [BitVec.with_bits_num_bits]
    cases v with
    | false =>
      simp only [Bool.false_eq_true, false_iff]
      push_neg
      intro u h1 h2 h3
      rw [BitVec.get_bit_with_bits _ false u
        (by have := le_32_mul_numBlocks (ceil_div n (32 ^ (k - 1))); omega)]
      simp
    | true =>
      simp only [true_iff]
      refine ⟨32 * i, by omega, by omega, hchild32, ?_⟩
      exact BitVec.get_bit_with_bits _ true (32 * i)
        (by have := le_32_mul_numBlocks (ceil_div n (32 ^ (k - 1))); omega)

theorem HierarchicalBitVec.with_bits_WFH (n : Nat) (v : Bool) :
    (HierarchicalBitVec.with_bits n v).WFH := by
  rcases Nat.eq_zero_or_pos n with h0 | h0
  · left
    unfold HierarchicalBitVec.with_bits
    rw [h0, if_pos rfl]
  · right
    have hl := HierarchicalBitVec.with_bits_levels n v h0
    have hw := HLevelsWF_with_bits n v h0
    rw [HierarchicalBitVec.num_bits_eq _ (by rw [hl]; intro hc; rw [hc] at hw; exact absurd hw.2.1 (by simp)), hl]
    rw [hw.2.2.1]
    exact hw

theorem HierarchicalBitVec.with_bits_num (n : Nat) (v : Bool) :
    (HierarchicalBitVec.with_bits n v).num_bits = n := by
  rcases Nat.eq_zero_or_pos n with h0 | h0
  · unfold HierarchicalBitVec.with_bits HierarchicalBitVec.num_bits
    rw [h0, if_pos rfl]
  · have hl := HierarchicalBitVec.with_bits_levels n v h0
    have hw := HLevelsWF_with_bits n v h0
    rw [HierarchicalBitVec.num_bits_eq _ (by rw [hl]; intro hc; rw [hc] at hw; exact absurd hw.2.1 (by simp)), hl]
    exact hw.2.2.1


theorem div_lt_ceil_div (i n p : Nat) (hi : i < n) (hp : 0 < p) :
    i / p < ceil_div n p := by
  rw [lt_ceil_div_iff n p _ (by omega) hp]
  have := Nat.div_mul_le_self i p
  omega

theorem div_pow_succ_32 (i t : Nat) : i / 32 ^ t / 32 = i / 32 ^ (t + 1) := by
  rw [Nat.div_div_eq_div_mul, pow_succ]

theorem BitVec.get_block_set_bit_other {bv : BitVec} (bit : Nat) (v : Bool)
    {b : Nat} (hb : b ≠ bit / 32) :
    (bv.set_bit bit v).get_block b = bv.get_block b := by
  have hfl : (bv.set_bit bit v).flags = bv.flags.set (bit / 32)
      (setBitIn (bv.flags.getD (bit / 32) 0) (bit % 32) v) := rfl
  have hnb : (bv.set_bit bit v).num_bits = bv.num_bits := rfl
  unfold BitVec.get_block
  rw [hfl, hnb, List.length_set, getD_set_ne _ 0 (fun hh => hb hh.symm)]

theorem propagateUp_succ (fuel level idx : Nat) (levels : List BitVec) :
    propagateUp (fuel + 1) level idx levels =
      if level < levels.length then
        propagateUp fuel (level + 1) (idx / 32)
          (levels.set level ((levelAt levels level).set_bit idx
            (decide ((levelAt levels (level - 1)).get_block idx ≠ 0))))
      else levels := rfl

theorem propagateUp_spec (L n i : Nat) (v : Bool) (origGet : Nat → Bool)
    (hn : 0 < n) (hi : i < n) :
    ∀ fuel t idx : Nat, ∀ ls : List BitVec, 1 ≤ t → L ≤ t + fuel → idx = i / 32 ^ t →
    ls.length = L →
    (∀ k, k < L → (levelAt ls k).WF ∧ (levelAt ls k).num_bits = ceil_div n (32 ^ k)) →
    (∀ j, (levelAt ls 0).get_bit j = if j = i then v else origGet j) →
    (∀ k, 0 < k → k < L → ∀ jj, jj < ceil_div n (32 ^ k) → (t ≤ k → jj ≠ i / 32 ^ k) →
      ((levelAt ls k).get_bit jj = true ↔ (levelAt ls (k - 1)).get_block jj ≠ 0)) →
    (propagateUp fuel t idx ls).length = L ∧
    (∀ k, k < L → (levelAt (propagateUp fuel t idx ls) k).WF ∧
      (levelAt (propagateUp fuel t idx ls) k).num_bits = ceil_div n (32 ^ k)) ∧
    (∀ j, (levelAt (propagateUp fuel t idx ls) 0).get_bit j = if j = i then v else origGet j) ∧
    (∀ k, 0 < k → k < L → ∀ jj, jj < ceil_div n (32 ^ k) →
      ((levelAt (propagateUp fuel t idx ls) k).get_bit jj = true ↔
        (levelAt (propagateUp fuel t idx ls) (k - 1)).get_block jj ≠ 0)) := by
  intro fuel
  induction fuel with
  | zero =>
    intro t idx ls ht hfuel hidx hlen hshape h0 hcons
    rw [show propagateUp 0 t idx ls = ls from rfl]
    refine ⟨hlen, hshape, h0, ?_⟩
    intro k hk0 hkL jj hjj
    exact hcons k hk0 hkL jj hjj (fun hc => absurd (by omega : k < t) (by omega))
  | succ f ih =>
    intro t idx ls ht hfuel hidx hlen hshape h0 hcons
    rw [propagateUp_succ]
    by_cases hc : t < ls.length
    · rw [if_pos hc]
      have htL : t < L := by omega
      have hpatht : i / 32 ^ t < ceil_div n (32 ^ t) :=
        div_lt_ceil_div i n _ hi (Nat.pos_pow_of_pos _ (by norm_num))
      have hwt := (hshape t htL).1
      have hmt := (hshape t htL).2
      have hidxlt : idx < (levelAt ls t).num_bits := by rw [hmt, hidx]; exact hpatht
      set newBit := decide ((levelAt ls (t - 1)).get_block idx ≠ 0) with hnewBit
      set ls' := ls.set t ((levelAt ls t).set_bit idx newBit) with hls'
      have hlen' : ls'.length = L := by rw [hls', List.length_set]; exact hlen
      have hat : levelAt ls' t = (levelAt ls t).set_bit idx newBit :=
        levelAt_set_self (by omega) _
      have hother : ∀ k, k ≠ t → levelAt ls' k = levelAt ls k := by
        intro k hk
        exact levelAt_set_ne (fun hh => hk hh.symm) _
      have hshape' : ∀ k, k < L → (levelAt ls' k).WF ∧
          (levelAt ls' k).num_bits = ceil_div n (32 ^ k) := by
        intro k hkL
        by_cases hke : k = t
        · rw [hke, hat]
          exact ⟨BitVec.set_bit_WF hwt idx newBit,
            by rw [BitVec.set_bit_num_bits]; exact hmt⟩
        · rw [hother k hke]
          exact hshape k hkL
      have h0' : ∀ j, (levelAt ls' 0).get_bit j = if j = i then v else origGet j := by
        intro j
        rw [hother 0 (by omega)]
        exact h0 j
      have hcons' : ∀ k, 0 < k → k < L → ∀ jj, jj < ceil_div n (32 ^ k) →
          (t + 1 ≤ k → jj ≠ i / 32 ^ k) →
          ((levelAt ls' k).get_bit jj = true ↔ (levelAt ls' (k - 1)).get_block jj ≠ 0) := by
        intro k hk0 hkL jj hjj hcond
        by_cases hkt : k = t
        · subst hkt
          rw [hat, BitVec.get_bit_set_bit hwt hidxlt newBit jj,
            hother (k - 1) (by omega)]
          by_cases hje : jj = idx
          · rw [if_pos hje, hnewBit, hje, hidx]
            simp
          · rw [if_neg hje]
            exact hcons k hk0 hkL jj hjj (fun hle => by rw [hidx] at hje; exact hje)
        · rw [hother k hkt]
          by_cases hk1t : k - 1 = t
          · have hkt1 : k = t + 1 := by omega
            have hchild : (levelAt ls' (k - 1)).get_block jj = (levelAt ls (k - 1)).get_block jj := by
              rw [hk1t, hat]
              apply BitVec.get_block_set_bit_other idx newBit
              rw [hidx]
              intro hje
              have hjpath : jj = i / 32 ^ k := by
                rw [hje, hkt1, div_pow_succ_32]
              exact hcond (by omega) hjpath
            rw [hchild]
            exact hcons k hk0 hkL jj hjj (fun hle => hcond (by omega))
          · rw [hother (k - 1) hk1t]
            exact hcons k hk0 hkL jj hjj
              (fun hle => hcond (by omega))
      have hidx' : idx / 32 = i / 32 ^ (t + 1) := by rw [hidx, div_pow_succ_32]
      exact ih (t + 1) (idx / 32) ls' (by omega) (by omega) hidx' hlen' hshape' h0' hcons'
    · rw [if_neg hc]
      refine ⟨hlen, hshape, h0, ?_⟩
      intro k hk0 hkL jj hjj
      exact hcons k hk0 hkL jj hjj (fun hle => absurd hkL (by omega))


theorem HLevelsWF.levels_ne_nil {levels : List BitVec} {n : Nat}
    (hw : HLevelsWF levels n) : levels ≠ [] := by
  intro hc
  rw [hc] at hw
  exact absurd hw.2.1 (by simp)

theorem HierarchicalBitVec.set_bit_spec {h : HierarchicalBitVec}
    (hw : HLevelsWF h.levels h.num_bits) {i : Nat} (hi : i < h.num_bits) (v : Bool) :
    HLevelsWF (h.set_bit i v).levels h.num_bits ∧
    (h.set_bit i v).num_bits = h.num_bits ∧
    (∀ j, (h.set_bit i v).get_bit j = if j = i then v else h.get_bit j) ∧
    (h.set_bit i v).levels.length = h.levels.length := by
  obtain ⟨hn, hLpos, h0n, hshape, htop, hmin, hcons⟩ := hw
  set n := h.num_bits with hnd
  set L := h.levels.length with hLd
  have hw0 : (levelAt h.levels 0).WF := (hshape 0 hLpos).1
  set levels0 := h.levels.set 0 ((levelAt h.levels 0).set_bit i v) with hlv0
  have hlen0 : levels0.length = L := by rw [hlv0, List.length_set]
  have hat0 : levelAt levels0 0 = (levelAt h.levels 0).set_bit i v :=
    levelAt_set_self hLpos _
  have hother0 : ∀ k, k ≠ 0 → levelAt levels0 k = levelAt h.levels k := by
    intro k hk
    exact levelAt_set_ne (fun hh => hk hh.symm) _
  have hshape0 : ∀ k, k < L → (levelAt levels0 k).WF ∧
      (levelAt levels0 k).num_bits = ceil_div n (32 ^ k) := by
    intro k hk
    by_cases hk0 : k = 0
    · rw [hk0, hat0]
      exact ⟨BitVec.set_bit_WF hw0 i v,
        by rw [BitVec.set_bit_num_bits]; exact (hshape 0 hLpos).2⟩
    · rw [hother0 k hk0]
      exact hshape k hk
  have hibound : i < (levelAt h.levels 0).num_bits := by rw [h0n]; exact hi
  have h00 : ∀ j, (levelAt levels0 0).get_bit j =
      if j = i then v else (levelAt h.levels 0).get_bit j := by
    intro j
    rw [hat0]
    exact BitVec.get_bit_set_bit hw0 hibound v j
  have hcons0 : ∀ k, 0 < k → k < L → ∀ jj, jj < ceil_div n (32 ^ k) →
      (1 ≤ k → jj ≠ i / 32 ^ k) →
      ((levelAt levels0 k).get_bit jj = true ↔ (levelAt levels0 (k - 1)).get_block jj ≠ 0) := by
    intro k hk0 hkL jj hjj hcond
    rw [hother0 k (by omega)]
    by_cases hk1 : k - 1 = 0
    · have hk1e : k = 1 := by omega
      have hchild : (levelAt levels0 (k - 1)).get_block jj =
          (levelAt h.levels (k - 1)).get_block jj := by
        rw [hk1, hat0]
        apply BitVec.get_block_set_bit_other i v
        have := hcond (by omega)
        rw [hk1e] at this
        rw [pow_one] at this
        exact fun hh => this hh
      rw [hchild]
      exact hcons k hk0 hkL jj (by rw [(hshape k hkL).2]; exact hjj)
    · rw [hother0 (k - 1) hk1]
      exact hcons k hk0 hkL jj (by rw [(hshape k hkL).2]; exact hjj)
  have hresult : (h.set_bit i v).levels = propagateUp levels0.length 1 (i / 32) levels0 := rfl
  have hidx1 : i / 32 = i / 32 ^ 1 := by rw [pow_one]
  obtain ⟨rlen, rshape, rget, rcons⟩ :=
    propagateUp_spec L n i v (fun j => (levelAt h.levels 0).get_bit j) hn hi
      levels0.length 1 (i / 32) levels0 (by omega) (by omega) hidx1 hlen0 hshape0 h00 hcons0
  rw [← hresult] at rlen rshape rget rcons
  have hresne : (h.set_bit i v).levels ≠ [] := by
    intro hc
    rw [hc] at rlen
    simp at rlen
    omega
  have hrnum : (h.set_bit i v).num_bits = n := by
    rw [HierarchicalBitVec.num_bits_eq _ hresne, (rshape 0 (by omega)).2, pow_zero,
      ceil_div_one_of_pos hn]
  refine ⟨?_, hrnum, ?_, by rw [rlen]⟩
  · refine ⟨hn, by omega, ?_, by rw [rlen]; exact rshape, by rw [rlen]; exact htop,
      by rw [rlen]; exact hmin, ?_⟩
    · rw [(rshape 0 (by omega)).2, pow_zero, ceil_div_one_of_pos hn]
    · intro k hk0 hkL jj hjj
      rw [rlen] at hkL
      exact rcons k hk0 hkL jj (by rw [← (rshape k hkL).2]; exact hjj)
  · intro j
    unfold HierarchicalBitVec.get_bit
    exact rget j

theorem HierarchicalBitVec.set_bit_WFH {h : HierarchicalBitVec} (hw : h.WFH)
    {i : Nat} (hi : i < h.num_bits) (v : Bool) : (h.set_bit i v).WFH := by
  rcases hw with hw | hw
  · exfalso
    unfold HierarchicalBitVec.num_bits at hi
    rw [hw] at hi
    simp at hi
  · right
    rw [(HierarchicalBitVec.set_bit_spec hw hi v).2.1]
    exact (HierarchicalBitVec.set_bit_spec hw hi v).1


theorem ceil_div_le_iff (N p m : Nat) (hN : 0 < N) (hp : 0 < p) :
    ceil_div N p ≤ m ↔ N ≤ m * p := by
  have h := lt_ceil_div_iff N p m hN hp
  omega

theorem growLevels_succ (v : Bool) (enc a f level pw : Nat) (ls : List BitVec) :
    growLevels v enc a (f + 1) level pw ls =
      if level < ls.length then
        if a ≤ (levelAt ls level).num_bits * pw - enc then ls
        else
          growLevels v enc a f (level + 1) (pw * 32)
            (ls.set level ((levelAt ls level).add_bits
              ((a - ((levelAt ls level).num_bits * pw - enc) - 1) / pw + 1) v))
      else ls := rfl

theorem growLevels_spec (ol : List BitVec) (n a : Nat) (v : Bool) (hn : 0 < n) (ha : 0 < a)
    (hshape : ∀ k, k < ol.length →
      (levelAt ol k).WF ∧ (levelAt ol k).num_bits = ceil_div n (32 ^ k)) :
    ∀ fuel t pw : Nat, ∀ ls : List BitVec, pw = 32 ^ t → ol.length ≤ t + fuel →
    ls.length = ol.length →
    (∀ k, t ≤ k → k < ol.length → levelAt ls k = levelAt ol k) →
    (∀ k, k < t → k < ol.length →
      (levelAt ls k).WF ∧ (levelAt ls k).num_bits = ceil_div (n + a) (32 ^ k) ∧
      (∀ j, j < ceil_div n (32 ^ k) →
        (levelAt ls k).get_bit j = (levelAt ol k).get_bit j) ∧
      (∀ j, ceil_div n (32 ^ k) ≤ j → j < ceil_div (n + a) (32 ^ k) →
        (levelAt ls k).get_bit j = v)) →
    (∀ k, k < t → k < ol.length → ceil_div n (32 ^ k) * 32 ^ k < n + a) →
    (growLevels v n a fuel t pw ls).length = ol.length ∧
    ∃ B, B ≤ ol.length ∧
      (∀ k, k < B → k < ol.length →
        (levelAt (growLevels v n a fuel t pw ls) k).WF ∧
        (levelAt (growLevels v n a fuel t pw ls) k).num_bits = ceil_div (n + a) (32 ^ k) ∧
        (∀ j, j < ceil_div n (32 ^ k) →
          (levelAt (growLevels v n a fuel t pw ls) k).get_bit j = (levelAt ol k).get_bit j) ∧
        (∀ j, ceil_div n (32 ^ k) ≤ j → j < ceil_div (n + a) (32 ^ k) →
          (levelAt (growLevels v n a fuel t pw ls) k).get_bit j = v)) ∧
      (∀ k, B ≤ k → k < ol.length →
        levelAt (growLevels v n a fuel t pw ls) k = levelAt ol k) ∧
      (∀ k, k < B → k < ol.length → ceil_div n (32 ^ k) * 32 ^ k < n + a) ∧
      (B < ol.length → n + a ≤ ceil_div n (32 ^ B) * 32 ^ B) := by
  intro fuel
  induction fuel with
  | zero =>
    intro t pw ls hpw hfuel hlen hsame hgrown hspare
    rw [show growLevels v n a 0 t pw ls = ls from rfl]
    refine ⟨hlen, ol.length, Nat.le_refl _, ?_, ?_, ?_, ?_⟩
    · intro k hk hkL
      exact hgrown k (by omega) hkL
    · intro k hk hkL
      omega
    · intro k hk hkL
      exact hspare k (by omega) hkL
    · intro hc
      omega
  | succ f ih =>
    intro t pw ls hpw hfuel hlen hsame hgrown hspare
    rw [growLevels_succ]
    by_cases hc : t < ls.length
    · rw [if_pos hc]
      have htL : t < ol.length := by omega
      have hlt : levelAt ls t = levelAt ol t := hsame t (Nat.le_refl t) htL
      have hwt := (hshape t htL).1
      have hmt := (hshape t htL).2
      have hpwpos : 0 < pw := by rw [hpw]; exact Nat.pos_pow_of_pos _ (by norm_num)
      have hcap : n ≤ ceil_div n (32 ^ t) * 32 ^ t :=
        le_ceil_div_mul n _ hn (Nat.pos_pow_of_pos _ (by norm_num))
      by_cases hbr : a ≤ (levelAt ls t).num_bits * pw - n
      · rw [if_pos hbr]
        rw [hlt, hmt, hpw] at hbr
        have hX : n + a ≤ ceil_div n (32 ^ t) * 32 ^ t := by
          set X := ceil_div n (32 ^ t) * 32 ^ t with hXd
          omega
        refine ⟨hlen, t, by omega, ?_, ?_, ?_, ?_⟩
        · intro k hk hkL
          exact hgrown k hk hkL
        · intro k hk hkL
          exact hsame k hk hkL
        · intro k hk hkL
          exact hspare k hk hkL
        · intro hc2
          exact hX
      · rw [if_neg hbr]
        rw [hlt, hmt, hpw] at hbr
        have hspare_t : ceil_div n (32 ^ t) * 32 ^ t < n + a := by
          set X := ceil_div n (32 ^ t) * 32 ^ t with hXd
          omega
        set g := (a - ((levelAt ls t).num_bits * pw - n) - 1) / pw + 1 with hg
        have hgval : g = ceil_div (n + a - ceil_div n (32 ^ t) * 32 ^ t) (32 ^ t) := by
          rw [hg, hlt, hmt, hpw]
          have he : a - (ceil_div n (32 ^ t) * 32 ^ t - n) =
              n + a - ceil_div n (32 ^ t) * 32 ^ t := by
            set X := ceil_div n (32 ^ t) * 32 ^ t with hXd
            omega
          rw [he]
          rfl
        have hnewsize : ceil_div n (32 ^ t) + g = ceil_div (n + a) (32 ^ t) := by
          rw [hgval]
          exact ceil_div_grow (n + a) (ceil_div n (32 ^ t)) (32 ^ t)
            (Nat.pos_pow_of_pos _ (by norm_num)) hspare_t
        have hgpos : 0 < g := by rw [hg]; exact Nat.succ_pos _
        set ls' := ls.set t ((levelAt ls t).add_bits g v) with hls'
        have hlen' : ls'.length = ol.length := by rw [hls', List.length_set]; exact hlen
        have hat : levelAt ls' t = (levelAt ls t).add_bits g v :=
          levelAt_set_self (by omega) _
        have hother : ∀ k, k ≠ t → levelAt ls' k = levelAt ls k := by
          intro k hk
          exact levelAt_set_ne (fun hh => hk hh.symm) _
        have hsame' : ∀ k, t + 1 ≤ k → k < ol.length → levelAt ls' k = levelAt ol k := by
          intro k hk hkL
          rw [hother k (by omega)]
          exact hsame k (by omega) hkL
        have hgrown' : ∀ k, k < t + 1 → k < ol.length →
            (levelAt ls' k).WF ∧ (levelAt ls' k).num_bits = ceil_div (n + a) (32 ^ k) ∧
            (∀ j, j < ceil_div n (32 ^ k) →
              (levelAt ls' k).get_bit j = (levelAt ol k).get_bit j) ∧
            (∀ j, ceil_div n (32 ^ k) ≤ j → j < ceil_div (n + a) (32 ^ k) →
              (levelAt ls' k).get_bit j = v) := by
          intro k hk hkL
          by_cases hke : k = t
          · subst hke
            rw [hat, hlt]
            have hwf0 : (levelAt ol k).WF := hwt
            refine ⟨BitVec.add_bits_WF hwf0 hgpos v, ?_, ?_, ?_⟩
            · rw [BitVec.add_bits_num_bits, hmt, hnewsize]
            · intro j hj
              rw [BitVec.get_bit_add_bits hwf0 hgpos v j (by rw [hmt]; omega)]
              rw [if_pos (by rw [hmt]; omega)]
            · intro j hj1 hj2
              rw [BitVec.get_bit_add_bits hwf0 hgpos v j
                (by rw [hmt]; omega)]
              rw [if_neg (by rw [hmt]; omega)]
          · rw [hother k hke]
            exact hgrown k (by omega) hkL
        have hspare' : ∀ k, k < t + 1 → k < ol.length →
            ceil_div n (32 ^ k) * 32 ^ k < n + a := by
          intro k hk hkL
          by_cases hke : k = t
          · subst hke
            exact hspare_t
          · exact hspare k (by omega) hkL
        have hpw' : pw * 32 = 32 ^ (t + 1) := by rw [hpw, pow_succ]
        exact ih (t + 1) (pw * 32) ls' hpw' (by omega) hlen' hsame' hgrown' hspare'
    · rw [if_neg hc]
      refine ⟨hlen, ol.length, Nat.le_refl _, ?_, ?_, ?_, ?_⟩
      · intro k hk hkL
        exact hgrown k (by omega) hkL
      · intro k hk hkL
        omega
      · intro k hk hkL
        exact hspare k (by omega) hkL
      · intro hc2
        omega


theorem ceil_div_eq_of_eq_base (n N B k : Nat) (hn : 0 < n) (hN : n ≤ N) (hk : B ≤ k)
    (hbase : ceil_div N (32 ^ B) = ceil_div n (32 ^ B)) :
    ceil_div N (32 ^ k) = ceil_div n (32 ^ k) := by
  have hpow : 32 ^ B * 32 ^ (k - B) = 32 ^ k := by
    rw [← pow_add]
    congr 1
    omega
  have h1 : ceil_div N (32 ^ k) = ceil_div (ceil_div N (32 ^ B)) (32 ^ (k - B)) := by
    rw [ceil_div_ceil_div _ _ _ (by omega) (Nat.pos_pow_of_pos _ (by norm_num)), hpow]
  have h2 : ceil_div n (32 ^ k) = ceil_div (ceil_div n (32 ^ B)) (32 ^ (k - B)) := by
    rw [ceil_div_ceil_div _ _ _ hn (Nat.pos_pow_of_pos _ (by norm_num)), hpow]
  rw [h1, h2, hbase]

theorem growLevels_phase1 (ol : List BitVec) (n a : Nat) (v : Bool) (hn : 0 < n) (ha : 0 < a)
    (hshape : ∀ k, k < ol.length →
      (levelAt ol k).WF ∧ (levelAt ol k).num_bits = ceil_div n (32 ^ k)) :
    (growLevels v n a ol.length 0 1 ol).length = ol.length ∧
    ∀ k, k < ol.length →
      (levelAt (growLevels v n a ol.length 0 1 ol) k).WF ∧
      (levelAt (growLevels v n a ol.length 0 1 ol) k).num_bits = ceil_div (n + a) (32 ^ k) ∧
      (∀ j, j < ceil_div n (32 ^ k) →
        (levelAt (growLevels v n a ol.length 0 1 ol) k).get_bit j = (levelAt ol k).get_bit j) ∧
      (∀ j, ceil_div n (32 ^ k) ≤ j → j < ceil_div (n + a) (32 ^ k) →
        (levelAt (growLevels v n a ol.length 0 1 ol) k).get_bit j = v) := by
  obtain ⟨hlen, B, hBle, hgrown, hunch, hspares, hbreak⟩ :=
    growLevels_spec ol n a v hn ha hshape ol.length 0 1 ol (by rw [pow_zero]) (by omega)
      rfl (fun k hk hkL => rfl) (fun k hk hkL => absurd hk (by omega))
      (fun k hk hkL => absurd hk (by omega))
  refine ⟨hlen, ?_⟩
  intro k hkL
  by_cases hkB : k < B
  · exact hgrown k hkB hkL
  · have hBk : B ≤ k := by omega
    have hBL : B < ol.length := by omega
    have hbase : ceil_div (n + a) (32 ^ B) = ceil_div n (32 ^ B) := by
      apply Nat.le_antisymm
      · rw [ceil_div_le_iff _ _ _ (by omega) (Nat.pos_pow_of_pos _ (by norm_num))]
        exact hbreak hBL
      · exact ceil_div_le_ceil_div _ (by omega)
    have hsz : ceil_div (n + a) (32 ^ k) = ceil_div n (32 ^ k) :=
      ceil_div_eq_of_eq_base n (n + a) B k hn (by omega) hBk hbase
    rw [hunch k hBk hkL]
    refine ⟨(hshape k hkL).1, by rw [(hshape k hkL).2, hsz], ?_, ?_⟩
    · intro j hj
      rfl
    · intro j hj1 hj2
      rw [hsz] at hj2
      omega

theorem suffixTrueAll_succ (f level idx : Nat) (ls : List BitVec) :
    suffixTrueAll (f + 1) level idx ls =
      if level < ls.length then
        suffixTrueAll f (level + 1) (idx / 32)
          (ls.set level ((levelAt ls level).set_bit_and_all_bits_after_it_to_true idx))
      else ls := rfl

theorem suffixTrueAll_spec (n L : Nat) (sz : Nat → Nat) (hn : 0 < n) :
    ∀ fuel t idx : Nat, ∀ ls : List BitVec, L ≤ t + fuel → idx = n / 32 ^ t →
    ls.length = L →
    (∀ k, k < L → (levelAt ls k).WF ∧ (levelAt ls k).num_bits = sz k) →
    (∀ k, k < L → n / 32 ^ k < sz k) →
    (suffixTrueAll fuel t idx ls).length = L ∧
    (∀ k, k < L → (levelAt (suffixTrueAll fuel t idx ls) k).WF ∧
      (levelAt (suffixTrueAll fuel t idx ls) k).num_bits = sz k) ∧
    (∀ k, k < t → k < L → levelAt (suffixTrueAll fuel t idx ls) k = levelAt ls k) ∧
    (∀ k, t ≤ k → k < L → ∀ j, j < 32 * (levelAt ls k).flags.length →
      (levelAt (suffixTrueAll fuel t idx ls) k).get_bit j =
        if n / 32 ^ k ≤ j then true else (levelAt ls k).get_bit j) := by
  intro fuel
  induction fuel with
  | zero =>
    intro t idx ls hfuel hidx hlen hshape hbound
    rw [show suffixTrueAll 0 t idx ls = ls from rfl]
    refine ⟨hlen, hshape, fun k hk hkL => rfl, ?_⟩
    intro k hk hkL
    omega
  | succ f ih =>
    intro t idx ls hfuel hidx hlen hshape hbound
    rw [suffixTrueAll_succ]
    by_cases hc : t < ls.length
    · rw [if_pos hc]
      have htL : t < L := by omega
      have hwt := (hshape t htL).1
      have hmt := (hshape t htL).2
      have hidxlt : idx < (levelAt ls t).num_bits := by
        rw [hmt, hidx]
        exact hbound t htL
      set ls' := ls.set t ((levelAt ls t).set_bit_and_all_bits_after_it_to_true idx) with hls'
      have hlen' : ls'.length = L := by rw [hls', List.length_set]; exact hlen
      have hat : levelAt ls' t = (levelAt ls t).set_bit_and_all_bits_after_it_to_true idx :=
        levelAt_set_self (by omega) _
      have hother : ∀ k, k ≠ t → levelAt ls' k = levelAt ls k := by
        intro k hk
        exact levelAt_set_ne (fun hh => hk hh.symm) _
      have hshape' : ∀ k, k < L → (levelAt ls' k).WF ∧ (levelAt ls' k).num_bits = sz k := by
        intro k hkL
        by_cases hke : k = t
        · rw [hke, hat]
          exact ⟨BitVec.set_suffix_WF hwt hidxlt,
            by rw [BitVec.set_suffix_num_bits]; exact hmt⟩
        · rw [hother k hke]
          exact hshape k hkL
      have hidx' : idx / 32 = n / 32 ^ (t + 1) := by rw [hidx, div_pow_succ_32]
      obtain ⟨rlen, rshape, runch, rget⟩ :=
        ih (t + 1) (idx / 32) ls' (by omega) hidx' hlen' hshape' hbound
      refine ⟨rlen, rshape, ?_, ?_⟩
      · intro k hk hkL
        rw [runch k (by omega) hkL, hother k (by omega)]
      · intro k hk hkL j hj
        by_cases hke : k = t
        · subst hke
          rw [runch k (by omega) hkL, hat,
            BitVec.get_bit_set_suffix hwt hidxlt j hj, hidx]
        · have hflags : (levelAt ls' k).flags.length = (levelAt ls k).flags.length := by
            rw [hother k hke]
          rw [← hflags] at hj
          rw [rget k (by omega) hkL j hj, hother k hke]
    · rw [if_neg hc]
      refine ⟨hlen, hshape, fun k hk hkL => rfl, ?_⟩
      intro k hk hkL
      omega


/-- First index of a level not carrying its original value after `add_bits`:
with `value = true` the suffix-true pass rewrites from `n / 32^k` upward, with
`value = false` only the appended region beyond `ceil(n / 32^k)` is new. -/
def addCut (v : Bool) (n k : Nat) : Nat :=
  if v then n / 32 ^ k else ceil_div n (32 ^ k)

theorem ceil_div_pow_step (N k : Nat) (hN : 0 < N) (hk : 0 < k) :
    ceil_div N (32 ^ k) = ceil_div (ceil_div N (32 ^ (k - 1))) 32 := by
  rw [ceil_div_ceil_div N _ 32 hN (Nat.pos_pow_of_pos _ (by norm_num))]
  congr 1
  obtain ⟨m, hm⟩ : ∃ m, k = m + 1 := ⟨k - 1, by omega⟩
  subst hm
  rw [Nat.add_sub_cancel, pow_succ]

theorem div_pow_step (n k : Nat) (hk : 0 < k) : n / 32 ^ (k - 1) / 32 = n / 32 ^ k := by
  obtain ⟨m, hm⟩ : ∃ m, k = m + 1 := ⟨k - 1, by omega⟩
  subst hm
  rw [Nat.add_sub_cancel, div_pow_succ_32]

theorem addCut_le (v : Bool) (n k : Nat) (hn : 0 < n) :
    addCut v n k ≤ ceil_div n (32 ^ k) := by
  unfold addCut
  cases v
  · rw [if_neg (by simp)]
  · rw [if_pos rfl]
    have hp : (0 : Nat) < 32 ^ k := Nat.pos_pow_of_pos _ (by norm_num)
    have h2 := le_ceil_div_mul n (32 ^ k) hn hp
    have h3 : n / 32 ^ k < ceil_div n (32 ^ k) + 1 := by
      rw [Nat.div_lt_iff_lt_mul hp]
      have h4 : (ceil_div n (32 ^ k) + 1) * 32 ^ k =
          ceil_div n (32 ^ k) * 32 ^ k + 32 ^ k := by ring
      omega
    omega

theorem addCut_div_step (v : Bool) (n k : Nat) (hk : 0 < k) :
    addCut v n (k - 1) / 32 = addCut v n k ∨ (v = false) := by
  cases v
  · right; rfl
  · left
    unfold addCut
    rw [if_pos rfl, if_pos rfl]
    exact div_pow_step n k hk

theorem consistency_of_addChar (ol : List BitVec) (n a : Nat) (v : Bool) (L : Nat)
    (hn : 0 < n) (ha : 0 < a)
    (holshape : ∀ k, k < L →
      (levelAt ol k).WF ∧ (levelAt ol k).num_bits = ceil_div n (32 ^ k))
    (holcons : ∀ k, 0 < k → k < L → ∀ jj, jj < ceil_div n (32 ^ k) →
      ((levelAt ol k).get_bit jj = true ↔ (levelAt ol (k - 1)).get_block jj ≠ 0))
    (ls2 : List BitVec) (hlen : ls2.length = L)
    (hshape : ∀ k, k < L →
      (levelAt ls2 k).WF ∧ (levelAt ls2 k).num_bits = ceil_div (n + a) (32 ^ k))
    (hgetlow : ∀ k, k < L → ∀ j, j < addCut v n k →
      (levelAt ls2 k).get_bit j = (levelAt ol k).get_bit j)
    (hgethigh : ∀ k, k < L → ∀ j, addCut v n k ≤ j → j < ceil_div (n + a) (32 ^ k) →
      (levelAt ls2 k).get_bit j = v) :
    ∀ k, 0 < k → k < L → ∀ jj, jj < ceil_div (n + a) (32 ^ k) →
      ((levelAt ls2 k).get_bit jj = true ↔ (levelAt ls2 (k - 1)).get_block jj ≠ 0) := by
  intro k hk0 hkL jj hjj
  have hk1L : k - 1 < L := by omega
  have hp32 : (0 : Nat) < 32 ^ (k - 1) := Nat.pos_pow_of_pos _ (by norm_num)
  have hp32k : (0 : Nat) < 32 ^ k := Nat.pos_pow_of_pos _ (by norm_num)
  have hchildwf : (levelAt ls2 (k - 1)).WF := (hshape (k - 1) hk1L).1
  have hchildsz : (levelAt ls2 (k - 1)).num_bits = ceil_div (n + a) (32 ^ (k - 1)) :=
    (hshape (k - 1) hk1L).2
  have holchildwf : (levelAt ol (k - 1)).WF := (holshape (k - 1) hk1L).1
  have holchildsz : (levelAt ol (k - 1)).num_bits = ceil_div n (32 ^ (k - 1)) :=
    (holshape (k - 1) hk1L).2
  have hstep : ceil_div (n + a) (32 ^ k) = ceil_div (ceil_div (n + a) (32 ^ (k - 1))) 32 :=
    ceil_div_pow_step (n + a) k (by omega) hk0
  have holstep : ceil_div n (32 ^ k) = ceil_div (ceil_div n (32 ^ (k - 1))) 32 :=
    ceil_div_pow_step n k hn hk0
  have hcutle : addCut v n (k - 1) ≤ ceil_div n (32 ^ (k - 1)) := addCut_le v n _ hn
  have hcutlek : addCut v n k ≤ ceil_div n (32 ^ k) := addCut_le v n _ hn
  have holle : ceil_div n (32 ^ (k - 1)) ≤ ceil_div (n + a) (32 ^ (k - 1)) :=
    ceil_div_le_ceil_div _ (by omega)
  rw [BitVec.get_block_ne_zero_iff hchildwf jj, hchildsz]
  by_cases hcut : jj < addCut v n k
  · have hjm : jj < ceil_div n (32 ^ k) := by omega
    rw [hgetlow k hkL jj hcut, holcons k hk0 hkL jj hjm,
      BitVec.get_block_ne_zero_iff holchildwf jj, holchildsz]
    constructor
    · rintro ⟨u, h1, h2, h3, h4⟩
      refine ⟨u, h1, h2, by omega, ?_⟩
      by_cases hu : u < addCut v n (k - 1)
      · rw [hgetlow (k - 1) hk1L u hu]
        exact h4
      · cases v with
        | false =>
          exfalso
          unfold addCut at hu
          rw [if_neg (by simp)] at hu
          omega
        | true =>
          exact hgethigh (k - 1) hk1L u (by omega) (by omega)
    · rintro ⟨u, h1, h2, h3, h4⟩
      have hublock : u < addCut v n (k - 1) := by
        cases v with
        | false =>
          by_contra hcu
          unfold addCut at hcu
          rw [if_neg (by simp)] at hcu
          rw [hgethigh (k - 1) hk1L u (by unfold addCut; rw [if_neg (by simp)]; omega) h3] at h4
          exact absurd h4 (by simp)
        | true =>
          unfold addCut at hcut ⊢
          rw [if_pos rfl] at hcut ⊢
          have hd : n / 32 ^ (k - 1) / 32 = n / 32 ^ k := div_pow_step n k hk0
          have h32jj : 32 * (jj + 1) ≤ n / 32 ^ (k - 1) := by
            have := Nat.div_mul_le_self (n / 32 ^ (k - 1)) 32
            omega
          omega
      rw [hgetlow (k - 1) hk1L u hublock] at h4
      exact ⟨u, h1, h2, by omega, h4⟩
  · rw [hgethigh k hkL jj (by omega) hjj]
    cases v with
    | false =>
      simp only [Bool.false_eq_true, false_iff]
      push_neg
      intro u h1 h2 h3
      have humk : ceil_div n (32 ^ (k - 1)) ≤ u := by
        unfold addCut at hcut
        rw [if_neg (by simp)] at hcut
        have h4 : ceil_div n (32 ^ (k - 1)) ≤ 32 * ceil_div n (32 ^ k) := by
          rw [holstep]
          have := le_ceil_div_mul (ceil_div n (32 ^ (k - 1))) 32 (ceil_div_pos _ _) (by norm_num)
          omega
        omega
      rw [hgethigh (k - 1) hk1L u (by unfold addCut; rw [if_neg (by simp)]; omega) h3]
      simp
    | true =>
      simp only [true_iff]
      have hcutk : n / 32 ^ k ≤ jj := by
        unfold addCut at hcut
        rw [if_pos rfl] at hcut
        omega
      by_cases hcase : n / 32 ^ (k - 1) ≤ 32 * jj
      · refine ⟨32 * jj, by omega, by omega, ?_, ?_⟩
        · rw [hstep] at hjj
          have := (lt_ceil_div_iff _ 32 jj (ceil_div_pos _ _) (by norm_num)).mp hjj
          omega
        · apply hgethigh (k - 1) hk1L (32 * jj) (by unfold addCut; rw [if_pos rfl]; omega)
          rw [hstep] at hjj
          have := (lt_ceil_div_iff _ 32 jj (ceil_div_pos _ _) (by norm_num)).mp hjj
          omega
      · have hu2 : n / 32 ^ (k - 1) < 32 * (jj + 1) := by
          have hd : n / 32 ^ (k - 1) / 32 = n / 32 ^ k := div_pow_step n k hk0
          have := (Nat.div_lt_iff_lt_mul (show (0 : Nat) < 32 by norm_num)).mp
            (Nat.lt_succ_self (n / 32 ^ (k - 1) / 32))
          omega
        refine ⟨n / 32 ^ (k - 1), by omega, by omega, ?_, ?_⟩
        · have := div_lt_ceil_div n (n + a) (32 ^ (k - 1)) (by omega) hp32
          omega
        · apply hgethigh (k - 1) hk1L _ (by unfold addCut; rw [if_pos rfl])
          have := div_lt_ceil_div n (n + a) (32 ^ (k - 1)) (by omega) hp32
          omega


theorem fillFromChild_spec (child : BitVec) : ∀ cnt idx : Nat, ∀ lv : BitVec, lv.WF →
    idx + cnt ≤ lv.num_bits →
    (fillFromChild child cnt idx lv).WF ∧
    (fillFromChild child cnt idx lv).num_bits = lv.num_bits ∧
    ∀ j, (fillFromChild child cnt idx lv).get_bit j =
      if idx ≤ j ∧ j < idx + cnt then decide (child.get_block j ≠ 0) else lv.get_bit j := by
  intro cnt
  induction cnt with
  | zero =>
    intro idx lv hwf hle
    rw [show fillFromChild child 0 idx lv = lv from rfl]
    refine ⟨hwf, rfl, ?_⟩
    intro j
    rw [if_neg (by omega)]
  | succ c ih =>
    intro idx lv hwf hle
    rw [show fillFromChild child (c + 1) idx lv =
      fillFromChild child c (idx + 1)
        (lv.set_bit idx (decide (child.get_block idx ≠ 0))) from rfl]
    have hidxlt : idx < lv.num_bits := by omega
    have hwf' : (lv.set_bit idx (decide (child.get_block idx ≠ 0))).WF :=
      BitVec.set_bit_WF hwf idx _
    have hle' : idx + 1 + c ≤ (lv.set_bit idx (decide (child.get_block idx ≠ 0))).num_bits := by
      rw [BitVec.set_bit_num_bits]
      omega
    obtain ⟨rwf, rnum, rget⟩ := ih (idx + 1) _ hwf' hle'
    refine ⟨rwf, by rw [rnum, BitVec.set_bit_num_bits], ?_⟩
    intro j
    rw [rget j, BitVec.get_bit_set_bit hwf hidxlt _ j]
    by_cases h1 : idx + 1 ≤ j ∧ j < idx + 1 + c
    · rw [if_pos h1, if_pos (by omega)]
    · by_cases h2 : j = idx
      · rw [if_neg h1, if_pos h2, if_pos (by omega), h2]
      · rw [if_neg h1, if_neg h2, if_neg (by omega)]

theorem levelAt_singleton (x : BitVec) : levelAt [x] 0 = x := rfl

theorem addTopLevels_succ (v : Bool) (newN f pw : Nat) (ls : List BitVec) :
    addTopLevels v newN (f + 1) pw ls =
      if (newN - 1) / pw + 1 ≤ 32 then
        ls ++ [fillFromChild (levelAt ls (ls.length - 1)) ((newN - 1) / pw + 1) 0
          (BitVec.with_bits ((newN - 1) / pw + 1) v)]
      else
        addTopLevels v newN f (pw * 32)
          (ls ++ [fillFromChild (levelAt ls (ls.length - 1)) ((newN - 1) / pw + 1) 0
            (BitVec.with_bits ((newN - 1) / pw + 1) v)]) := rfl

theorem addTopLevels_spec (v : Bool) (newN : Nat) (hN : 0 < newN) :
    ∀ fuel pw : Nat, ∀ ls : List BitVec, pw = 32 ^ ls.length → (newN - 1) / pw < fuel →
    0 < ls.length →
    (∀ k, k < ls.length →
      (levelAt ls k).WF ∧ (levelAt ls k).num_bits = ceil_div newN (32 ^ k)) →
    (∀ k, 0 < k → k < ls.length → ∀ jj, jj < ceil_div newN (32 ^ k) →
      ((levelAt ls k).get_bit jj = true ↔ (levelAt ls (k - 1)).get_block jj ≠ 0)) →
    32 < ceil_div newN (32 ^ (ls.length - 1)) →
    (∀ k, k + 1 < ls.length → 32 < ceil_div newN (32 ^ k)) →
    (∀ k, k < ls.length → levelAt (addTopLevels v newN fuel pw ls) k = levelAt ls k) ∧
    HLevelsWF (addTopLevels v newN fuel pw ls) newN ∧
    ls.length < (addTopLevels v newN fuel pw ls).length := by
  intro fuel
  induction fuel with
  | zero =>
    intro pw ls hpw hfuel hpos hshape hcons htrig hmin
    exact absurd hfuel (Nat.not_lt_zero _)
  | succ f ih =>
    intro pw ls hpw hfuel hpos hshape hcons htrig hmin
    rw [addTopLevels_succ]
    have hpwpos : 0 < pw := by rw [hpw]; exact Nat.pos_pow_of_pos _ (by norm_num)
    have hneed : (newN - 1) / pw + 1 = ceil_div newN (32 ^ ls.length) := by
      rw [hpw]; rfl
    set need := (newN - 1) / pw + 1 with hneedd
    set child := levelAt ls (ls.length - 1) with hchildd
    set new_level := fillFromChild child need 0 (BitVec.with_bits need v) with hnew
    obtain ⟨nwf, nnum, nget⟩ := fillFromChild_spec child need 0 (BitVec.with_bits need v)
      (BitVec.with_bits_WF _ v) (by rw [BitVec.with_bits_num_bits]; omega)
    rw [BitVec.with_bits_num_bits] at nnum
    set ls' := ls ++ [new_level] with hls'
    have hlen' : ls'.length = ls.length + 1 := by rw [hls']; simp
    have hpre : ∀ k, k < ls.length → levelAt ls' k = levelAt ls k := by
      intro k hk
      exact levelAt_append_lt hk
    have htopnew : levelAt ls' ls.length = new_level := by
      rw [hls', levelAt_append_ge (Nat.le_refl _), Nat.sub_self, levelAt_singleton]
    have hshape' : ∀ k, k < ls'.length →
        (levelAt ls' k).WF ∧ (levelAt ls' k).num_bits = ceil_div newN (32 ^ k) := by
      intro k hk
      rw [hlen'] at hk
      by_cases hke : k = ls.length
      · rw [hke, htopnew]
        exact ⟨nwf, by rw [nnum, hneed]⟩
      · rw [hpre k (by omega)]
        exact hshape k (by omega)
    have hcons' : ∀ k, 0 < k → k < ls'.length → ∀ jj, jj < ceil_div newN (32 ^ k) →
        ((levelAt ls' k).get_bit jj = true ↔ (levelAt ls' (k - 1)).get_block jj ≠ 0) := by
      intro k hk0 hk jj hjj
      rw [hlen'] at hk
      by_cases hke : k = ls.length
      · rw [hke] at hjj
        rw [hke, htopnew, hpre (ls.length - 1) (by omega), ← hchildd, nget jj,
          if_pos (by rw [hneed]; omega)]
        simp
      · rw [hpre k (by omega), hpre (k - 1) (by omega)]
        exact hcons k hk0 (by omega) jj hjj
    have hmin' : ∀ k, k + 1 < ls'.length → 32 < ceil_div newN (32 ^ k) := by
      intro k hk
      rw [hlen'] at hk
      by_cases hke : k = ls.length - 1
      · rw [hke]; exact htrig
      · exact hmin k (by omega)
    by_cases hc : need ≤ 32
    · rw [if_pos hc]
      refine ⟨hpre, ?_, by rw [hlen']; omega⟩
      refine ⟨hN, by rw [hlen']; omega, ?_, hshape', ?_, hmin', ?_⟩
      · rw [hpre 0 hpos, (hshape 0 hpos).2, pow_zero, ceil_div_one_of_pos hN]
      · rw [hlen', Nat.add_sub_cancel, ← hneed]
        exact hc
      · intro k hk0 hk jj hjj
        exact hcons' k hk0 hk jj (by rw [← (hshape' k hk).2]; exact hjj)
    · rw [if_neg hc]
      have hbig : 32 ≤ (newN - 1) / pw := by omega
      have hdec : (newN - 1) / (pw * 32) < f := by
        rw [← Nat.div_div_eq_div_mul]
        have := Nat.div_lt_self (show 0 < (newN - 1) / pw by omega) (show 1 < 32 by norm_num)
        omega
      have hpw' : pw * 32 = 32 ^ ls'.length := by
        rw [hlen', hpw, pow_succ]
      have htrig' : 32 < ceil_div newN (32 ^ (ls'.length - 1)) := by
        rw [hlen', Nat.add_sub_cancel, ← hneed]
        omega
      obtain ⟨rpre, rwf, rlen⟩ := ih (pw * 32) ls' hpw' hdec (by rw [hlen']; omega)
        hshape' hcons' htrig' hmin'
      refine ⟨?_, rwf, by rw [hlen'] at rlen; omega⟩
      intro k hk
      rw [rpre k (by rw [hlen']; omega), hpre k hk]


/-! Named intermediate states of `HierarchicalBitVec::add_bits`, mirroring the
`levels1`/`levels2`/`levels3` lets of the source. -/

def addBitsLevels1 (h : HierarchicalBitVec) (a : Nat) (v : Bool) : List BitVec :=
  growLevels v (levelAt h.levels 0).num_bits a h.levels.length 0 1 h.levels

def addBitsLevels2 (h : HierarchicalBitVec) (a : Nat) (v : Bool) : List BitVec :=
  if v then
    suffixTrueAll (addBitsLevels1 h a v).length 0 (levelAt h.levels 0).num_bits
      (addBitsLevels1 h a v)
  else addBitsLevels1 h a v

def addBitsLevels3 (h : HierarchicalBitVec) (a : Nat) (v : Bool) : List BitVec :=
  if 1 < (levelAt (addBitsLevels2 h a v) ((addBitsLevels2 h a v).length - 1)).num_blocks then
    addTopLevels v ((levelAt h.levels 0).num_bits + a) ((levelAt h.levels 0).num_bits + a)
      (32 ^ (addBitsLevels2 h a v).length) (addBitsLevels2 h a v)
  else addBitsLevels2 h a v

theorem HierarchicalBitVec.add_bits_levels_eq (h : HierarchicalBitVec) (a : Nat) (v : Bool)
    (ha : a ≠ 0) (hne : h.levels ≠ []) :
    (h.add_bits a v).levels = addBitsLevels3 h a v := by
  unfold HierarchicalBitVec.add_bits
  rw [if_neg ha, if_neg (by rw [List.isEmpty_iff]; exact hne)]
  rfl

theorem addCut_zero (v : Bool) (n : Nat) (hn : 0 < n) : addCut v n 0 = n := by
  unfold addCut
  cases v
  · rw [if_neg (by simp), pow_zero, ceil_div_one_of_pos hn]
  · rw [if_pos rfl, pow_zero, Nat.div_one]

theorem HierarchicalBitVec.add_bits_spec {h : HierarchicalBitVec}
    (hw : HLevelsWF h.levels h.num_bits) {a : Nat} (ha : 0 < a) (v : Bool) :
    HLevelsWF (h.add_bits a v).levels (h.num_bits + a) ∧
    (h.add_bits a v).num_bits = h.num_bits + a ∧
    (∀ j, j < h.num_bits → (h.add_bits a v).get_bit j = h.get_bit j) ∧
    (∀ j, h.num_bits ≤ j → j < h.num_bits + a → (h.add_bits a v).get_bit j = v) := by
  obtain ⟨hn, hLpos, h0n, hshape, htop, hmin, hcons⟩ := hw
  set n := h.num_bits with hnd
  set L := h.levels.length with hLd
  have hne : h.levels ≠ [] := by
    intro hc
    rw [hLd, hc] at hLpos
    simp at hLpos
  have hdef := HierarchicalBitVec.add_bits_levels_eq h a v (by omega) hne
  have hshapec : ∀ k, k < L →
      (levelAt h.levels k).WF ∧ (levelAt h.levels k).num_bits = ceil_div n (32 ^ k) :=
    hshape
  have hconsc : ∀ k, 0 < k → k < L → ∀ jj, jj < ceil_div n (32 ^ k) →
      ((levelAt h.levels k).get_bit jj = true ↔
        (levelAt h.levels (k - 1)).get_block jj ≠ 0) := by
    intro k hk0 hkL jj hjj
    exact hcons k hk0 hkL jj (by rw [(hshape k hkL).2]; exact hjj)
  have he1 : addBitsLevels1 h a v = growLevels v n a L 0 1 h.levels := by
    unfold addBitsLevels1
    rw [h0n]
  obtain ⟨hlen1, hchar1⟩ := growLevels_phase1 h.levels n a v hn ha hshapec
  rw [← hLd, ← he1] at hlen1 hchar1
  have hmid : (addBitsLevels2 h a v).length = L ∧
      (∀ k, k < L → (levelAt (addBitsLevels2 h a v) k).WF ∧
        (levelAt (addBitsLevels2 h a v) k).num_bits = ceil_div (n + a) (32 ^ k)) ∧
      (∀ k, k < L → ∀ j, j < addCut v n k →
        (levelAt (addBitsLevels2 h a v) k).get_bit j = (levelAt h.levels k).get_bit j) ∧
      (∀ k, k < L → ∀ j, addCut v n k ≤ j → j < ceil_div (n + a) (32 ^ k) →
        (levelAt (addBitsLevels2 h a v) k).get_bit j = v) := by
    cases v with
    | false =>
      rw [show addBitsLevels2 h a false = addBitsLevels1 h a false by
        unfold addBitsLevels2; rw [if_neg (by simp)]]
      refine ⟨hlen1, fun k hk => ⟨(hchar1 k hk).1, (hchar1 k hk).2.1⟩, ?_, ?_⟩
      · intro k hk j hj
        unfold addCut at hj
        rw [if_neg (by simp)] at hj
        exact (hchar1 k hk).2.2.1 j hj
      · intro k hk j hj1 hj2
        unfold addCut at hj1
        rw [if_neg (by simp)] at hj1
        exact (hchar1 k hk).2.2.2 j hj1 hj2
    | true =>
      rw [show addBitsLevels2 h a true =
          suffixTrueAll (addBitsLevels1 h a true).length 0 (levelAt h.levels 0).num_bits
            (addBitsLevels1 h a true) by
        unfold addBitsLevels2; rw [if_pos rfl]]
      obtain ⟨rlen, rshape, runch, rget⟩ :=
        suffixTrueAll_spec n L (fun k => ceil_div (n + a) (32 ^ k)) hn
          (addBitsLevels1 h a true).length 0 (levelAt h.levels 0).num_bits
          (addBitsLevels1 h a true)
          (by omega) (by rw [h0n, pow_zero, Nat.div_one]) hlen1
          (fun k hk => ⟨(hchar1 k hk).1, (hchar1 k hk).2.1⟩)
          (fun k hk => div_lt_ceil_div n (n + a) _ (by omega)
            (Nat.pos_pow_of_pos _ (by norm_num)))
      refine ⟨rlen, rshape, ?_, ?_⟩
      · intro k hk j hj
        unfold addCut at hj
        rw [if_pos rfl] at hj
        have hjm : j < ceil_div n (32 ^ k) := by
          have := addCut_le true n k hn
          unfold addCut at this
          rw [if_pos rfl] at this
          omega
        have hjcap : j < 32 * (levelAt (addBitsLevels1 h a true) k).flags.length := by
          have hwf1 := (hchar1 k hk).1
          have hsz1 := (hchar1 k hk).2.1
          have hnb := le_32_mul_numBlocks (levelAt (addBitsLevels1 h a true) k).num_bits
          rw [← hwf1.2] at hnb
          have hle := ceil_div_le_ceil_div (32 ^ k) (show n ≤ n + a by omega)
          omega
        rw [rget k (by omega) hk j hjcap, if_neg (by omega)]
        exact (hchar1 k hk).2.2.1 j hjm
      · intro k hk j hj1 hj2
        unfold addCut at hj1
        rw [if_pos rfl] at hj1
        have hjcap : j < 32 * (levelAt (addBitsLevels1 h a true) k).flags.length := by
          have hwf1 := (hchar1 k hk).1
          have hsz1 := (hchar1 k hk).2.1
          have hnb := le_32_mul_numBlocks (levelAt (addBitsLevels1 h a true) k).num_bits
          rw [← hwf1.2] at hnb
          omega
        rw [rget k (by omega) hk j hjcap, if_pos hj1]
  obtain ⟨hlen2, hshape2, hgetlow, hgethigh⟩ := hmid
  have hcons2 : ∀ k, 0 < k → k < L → ∀ jj, jj < ceil_div (n + a) (32 ^ k) →
      ((levelAt (addBitsLevels2 h a v) k).get_bit jj = true ↔
        (levelAt (addBitsLevels2 h a v) (k - 1)).get_block jj ≠ 0) :=
    consistency_of_addChar h.levels n a v L hn ha hshapec hconsc
      (addBitsLevels2 h a v) hlen2 hshape2 hgetlow hgethigh
  have hmin2 : ∀ k, k + 1 < L → 32 < ceil_div (n + a) (32 ^ k) := by
    intro k hk
    have h1 := hmin k hk
    have h2 := ceil_div_le_ceil_div (32 ^ k) (show n ≤ n + a by omega)
    omega
  have hget0cut : addCut v n 0 = n := addCut_zero v n hn
  have hsz0 : ceil_div (n + a) (32 ^ 0) = n + a := by
    rw [pow_zero, ceil_div_one_of_pos (by omega)]
  have htrigger_iff : 1 < (levelAt (addBitsLevels2 h a v)
      ((addBitsLevels2 h a v).length - 1)).num_blocks ↔
      32 < ceil_div (n + a) (32 ^ (L - 1)) := by
    have hk : L - 1 < L := by omega
    have hwf2 := (hshape2 (L - 1) hk).1
    have hsz2 := (hshape2 (L - 1) hk).2
    rw [hlen2]
    unfold BitVec.num_blocks
    rw [hwf2.2, hsz2]
    have hpos : 0 < ceil_div (n + a) (32 ^ (L - 1)) := ceil_div_pos _ _
    rw [numBlocks_eq_ceil_div hpos]
    rw [lt_ceil_div_iff _ 32 1 hpos (by norm_num)]
  have hfinal : HLevelsWF (addBitsLevels3 h a v) (n + a) ∧
      (∀ k, k < L → levelAt (addBitsLevels3 h a v) k = levelAt (addBitsLevels2 h a v) k) := by
    unfold addBitsLevels3
    by_cases htr : 1 < (levelAt (addBitsLevels2 h a v)
        ((addBitsLevels2 h a v).length - 1)).num_blocks
    · rw [if_pos htr, h0n]
      rw [htrigger_iff] at htr
      obtain ⟨rpre, rwf, rlen⟩ := addTopLevels_spec v (n + a) (by omega)
        (n + a) (32 ^ (addBitsLevels2 h a v).length)
        (addBitsLevels2 h a v) rfl
        (by have := Nat.div_le_self (n + a - 1) (32 ^ (addBitsLevels2 h a v).length); omega)
        (by rw [hlen2]; omega)
        (by rw [hlen2]; exact hshape2)
        (by rw [hlen2]; exact hcons2)
        (by rw [hlen2]; exact htr)
        (by rw [hlen2]; exact hmin2)
      refine ⟨rwf, ?_⟩
      intro k hk
      exact rpre k (by rw [hlen2]; omega)
    · rw [if_neg htr]
      rw [htrigger_iff] at htr
      refine ⟨⟨by omega, by rw [hlen2]; omega, ?_, by rw [hlen2]; exact hshape2,
        by rw [hlen2]; omega, by rw [hlen2]; exact hmin2, ?_⟩, fun k hk => rfl⟩
      · rw [(hshape2 0 (by omega)).2, hsz0]
      · intro k hk0 hk jj hjj
        rw [hlen2] at hk
        exact hcons2 k hk0 hk jj (by rw [← (hshape2 k hk).2]; exact hjj)
  obtain ⟨hwf3, hpre3⟩ := hfinal
  have hlevels : (h.add_bits a v).levels = addBitsLevels3 h a v := hdef
  have hresne : (h.add_bits a v).levels ≠ [] := by
    rw [hlevels]
    exact hwf3.levels_ne_nil
  have hnum : (h.add_bits a v).num_bits = n + a := by
    rw [HierarchicalBitVec.num_bits_eq _ hresne, hlevels, hwf3.2.2.1]
  refine ⟨by rw [hlevels]; exact hwf3, hnum, ?_, ?_⟩
  · intro j hj
    unfold HierarchicalBitVec.get_bit
    rw [hlevels, hpre3 0 (by omega), hgetlow 0 (by omega) j (by omega)]
  · intro j hj1 hj2
    unfold HierarchicalBitVec.get_bit
    rw [hlevels, hpre3 0 (by omega), hgethigh 0 (by omega) j (by omega) (by omega)]


theorem HierarchicalBitVec.with_bits_get_bit (n : Nat) (v : Bool) (j : Nat) (hj : j < n) :
    (HierarchicalBitVec.with_bits n v).get_bit j = v := by
  have hn : 0 < n := by omega
  obtain ⟨hpos, hget, _, _⟩ := buildLevels_spec n v hn n 1 (by omega) (by omega)
  unfold HierarchicalBitVec.get_bit
  rw [HierarchicalBitVec.with_bits_levels n v hn, hget 0 hpos, pow_zero, Nat.mul_one,
    ceil_div_one_of_pos hn]
  exact BitVec.get_bit_with_bits n v j (by have := le_32_mul_numBlocks n; omega)

theorem HierarchicalBitVec.add_bits_full {h : HierarchicalBitVec} (hw : h.WFH)
    (a : Nat) (v : Bool) :
    (h.add_bits a v).WFH ∧ (h.add_bits a v).num_bits = h.num_bits + a ∧
    (∀ j, j < h.num_bits → (h.add_bits a v).get_bit j = h.get_bit j) ∧
    (∀ j, h.num_bits ≤ j → j < h.num_bits + a → (h.add_bits a v).get_bit j = v) := by
  by_cases ha : a = 0
  · have he : h.add_bits a v = h := by
      unfold HierarchicalBitVec.add_bits
      rw [ha, if_pos rfl]
    rw [he, ha]
    exact ⟨hw, rfl, fun j hj => rfl, fun j hj1 hj2 => by omega⟩
  · rcases hw with hemp | hwf
    · have hnum0 : h.num_bits = 0 := by
        unfold HierarchicalBitVec.num_bits
        rw [hemp]
      have he : h.add_bits a v = HierarchicalBitVec.with_bits a v := by
        unfold HierarchicalBitVec.add_bits
        rw [if_neg ha, if_pos (by rw [List.isEmpty_iff]; exact hemp)]
      rw [he, hnum0]
      refine ⟨HierarchicalBitVec.with_bits_WFH a v,
        by rw [HierarchicalBitVec.with_bits_num]; omega, fun j hj => by omega, ?_⟩
      intro j hj1 hj2
      exact HierarchicalBitVec.with_bits_get_bit a v j (by omega)
    · obtain ⟨h1, h2, h3, h4⟩ := HierarchicalBitVec.add_bits_spec hwf (by omega : 0 < a) v
      refine ⟨?_, h2, h3, h4⟩
      right
      rw [h2]
      exact h1

/-- Level-`l` bit `t` is set exactly when some level-0 bit in its subtree
range `[t * 32^l, (t+1) * 32^l)` is set: the global OR-reduction property. -/
theorem subtree_char {levels : List BitVec} {n : Nat} (hw : HLevelsWF levels n) :
    ∀ l, l < levels.length → ∀ t, t < ceil_div n (32 ^ l) →
    ((levelAt levels l).get_bit t = true ↔
      ∃ j, j < n ∧ t * 32 ^ l ≤ j ∧ j < (t + 1) * 32 ^ l ∧
        (levelAt levels 0).get_bit j = true) := by
  obtain ⟨hn, hLpos, h0n, hshape, htop, hmin, hcons⟩ := hw
  intro l
  induction l with
  | zero =>
    intro hl t ht
    rw [pow_zero, ceil_div_one_of_pos hn] at ht
    constructor
    · intro hbit
      exact ⟨t, ht, by omega, by omega, hbit⟩
    · rintro ⟨j, h1, h2, h3, h4⟩
      have : j = t := by omega
      rw [← this]
      exact h4
  | succ l ih =>
    intro hl t ht
    have hlL : l < levels.length := by omega
    have hchildwf := (hshape l hlL).1
    have hchildsz := (hshape l hlL).2
    have hP : (0 : Nat) < 32 ^ l := Nat.pos_pow_of_pos _ (by norm_num)
    have hstep : ceil_div n (32 ^ (l + 1)) = ceil_div (ceil_div n (32 ^ l)) 32 := by
      rw [ceil_div_ceil_div n _ 32 hn hP, ← pow_succ]
    have hconsl := hcons (l + 1) (by omega) hl t
      (by rw [(hshape (l + 1) hl).2]; exact ht)
    rw [Nat.add_sub_cancel] at hconsl
    rw [hconsl, BitVec.get_block_ne_zero_iff hchildwf t]
    constructor
    · rintro ⟨u, h1, h2, h3, h4⟩
      rw [hchildsz] at h3
      obtain ⟨j, hj1, hj2, hj3, hj4⟩ := (ih hlL u h3).mp h4
      refine ⟨j, hj1, ?_, ?_, hj4⟩
      · calc t * 32 ^ (l + 1) = 32 * t * 32 ^ l := by ring
        _ ≤ u * 32 ^ l := Nat.mul_le_mul_right _ (by omega)
        _ ≤ j := hj2
      · calc j < (u + 1) * 32 ^ l := hj3
        _ ≤ (32 * (t + 1)) * 32 ^ l := Nat.mul_le_mul_right _ (by omega)
        _ = (t + 1) * 32 ^ (l + 1) := by ring
    · rintro ⟨j, hj1, hj2, hj3, hj4⟩
      set u := j / 32 ^ l with hu
      have hul : u < ceil_div n (32 ^ l) := div_lt_ceil_div j n _ hj1 hP
      have hub1 : u * 32 ^ l ≤ j := Nat.div_mul_le_self j _
      have hub2 : j < (u + 1) * 32 ^ l := by
        rw [hu]
        exact (Nat.div_lt_iff_lt_mul hP).mp (Nat.lt_succ_self _)
      have h32t : 32 * t ≤ u := by
        rw [hu]
        rw [Nat.le_div_iff_mul_le hP]
        calc 32 * t * 32 ^ l = t * 32 ^ (l + 1) := by ring
        _ ≤ j := hj2
      have h32t1 : u < 32 * (t + 1) := by
        rw [hu]
        rw [Nat.div_lt_iff_lt_mul hP]
        calc j < (t + 1) * 32 ^ (l + 1) := hj3
        _ = 32 * (t + 1) * 32 ^ l := by ring
      refine ⟨u, by omega, by omega, by rw [hchildsz]; exact hul, ?_⟩
      exact (ih hlL u hul).mpr ⟨j, hj1, hub1, hub2, hj4⟩

theorem descendLevels_invariant {levels : List BitVec} {n : Nat} (hw : HLevelsWF levels n) :
    ∀ l, l < levels.length → ∀ t, t < ceil_div n (32 ^ l) →
    (levelAt levels l).get_bit t = true →
    (∀ u, u < t → (levelAt levels l).get_bit u = false) →
    descendLevels levels l t < n ∧
    (levelAt levels 0).get_bit (descendLevels levels l t) = true ∧
    ∀ j, j < descendLevels levels l t → (levelAt levels 0).get_bit j = false := by
  obtain ⟨hn, hLpos, h0n, hshape, htop, hmin, hcons⟩ := hw
  have hwfull : HLevelsWF levels n := ⟨hn, hLpos, h0n, hshape, htop, hmin, hcons⟩
  intro l
  induction l with
  | zero =>
    intro hl t ht hbit hmin0
    rw [pow_zero, ceil_div_one_of_pos hn] at ht
    rw [show descendLevels levels 0 t = t from rfl]
    exact ⟨ht, hbit, hmin0⟩
  | succ l ih =>
    intro hl t ht hbit hminl
    have hlL : l < levels.length := by omega
    have hchildwf := (hshape l hlL).1
    have hchildsz := (hshape l hlL).2
    have hstep : ceil_div n (32 ^ (l + 1)) = ceil_div (ceil_div n (32 ^ l)) 32 := by
      rw [ceil_div_ceil_div n _ 32 hn (Nat.pos_pow_of_pos _ (by norm_num)), ← pow_succ]
    have hconsl := hcons (l + 1) (by omega) hl t
      (by rw [(hshape (l + 1) hl).2]; exact ht)
    rw [Nat.add_sub_cancel] at hconsl
    have hblk : (levelAt levels l).get_block t ≠ 0 := hconsl.mp hbit
    have hblklt : (levelAt levels l).get_block t < 2 ^ 32 := BitVec.get_block_lt hchildwf t
    obtain ⟨hc1, hc2⟩ := ctz_spec hblk hblklt
    have hctzlt : ctz ((levelAt levels l).get_block t) < 32 := ctz_lt_32 hblk hblklt
    set c := ctz ((levelAt levels l).get_block t) with hc
    rw [BitVec.testBit_get_block hchildwf t c hctzlt] at hc1
    have hc1' := Bool.and_eq_true_iff.mp hc1
    have htc : 32 * t + c < (levelAt levels l).num_bits := by
      have := hc1'.1
      simp at this
      exact this
    have htbit : (levelAt levels l).get_bit (32 * t + c) = true := hc1'.2
    rw [hchildsz] at htc
    have hminl' : ∀ u, u < 32 * t + c → (levelAt levels l).get_bit u = false := by
      intro u hu
      by_cases hub : u < 32 * t
      · have hp : u / 32 < t := by omega
        have hpbit : (levelAt levels (l + 1)).get_bit (u / 32) = false := hminl _ hp
        have hpcons := hcons (l + 1) (by omega) hl (u / 32)
          (by rw [(hshape (l + 1) hl).2]; omega)
        rw [Nat.add_sub_cancel] at hpcons
        have hblk0 : (levelAt levels l).get_block (u / 32) = 0 := by
          by_contra hne
          rw [hpcons.mpr hne] at hpbit
          exact absurd hpbit (by simp)
        have := BitVec.testBit_get_block hchildwf (u / 32) (u % 32) (by omega)
        rw [hblk0, Nat.zero_testBit] at this
        have he : 32 * (u / 32) + u % 32 = u := by omega
        rw [he] at this
        have hun : u < (levelAt levels l).num_bits := by rw [hchildsz]; omega
        rw [decide_eq_true hun] at this
        simpa using this.symm
      · have hcu : u - 32 * t < c := by omega
        have := hc2 (u - 32 * t) hcu
        rw [BitVec.testBit_get_block hchildwf t (u - 32 * t) (by omega)] at this
        have he : 32 * t + (u - 32 * t) = u := by omega
        rw [he] at this
        by_cases hun : u < (levelAt levels l).num_bits
        · rw [decide_eq_true hun] at this
          simpa using this
        · rw [hchildsz] at hun
          omega
    have hrec := ih hlL (32 * t + c) htc htbit hminl'
    rw [show descendLevels levels (l + 1) t =
      descendLevels levels l (t * 32 + c) from rfl] at *
    have he : t * 32 + c = 32 * t + c := by ring
    rw [he]
    exact hrec


theorem HierarchicalBitVec.top_block_iff {h : HierarchicalBitVec}
    (hw : HLevelsWF h.levels h.num_bits) :
    (levelAt h.levels (h.levels.length - 1)).get_block 0 ≠ 0 ↔
      ∃ j, j < h.num_bits ∧ h.get_bit j = true := by
  obtain ⟨hn, hLpos, h0n, hshape, htop, hmin, hcons⟩ := hw
  have hwfull : HLevelsWF h.levels h.num_bits := ⟨hn, hLpos, h0n, hshape, htop, hmin, hcons⟩
  set T := h.levels.length - 1 with hT
  have hTL : T < h.levels.length := by omega
  have htopwf := (hshape T hTL).1
  have htopsz := (hshape T hTL).2
  have hP : (0 : Nat) < 32 ^ T := Nat.pos_pow_of_pos _ (by norm_num)
  rw [BitVec.get_block_ne_zero_iff htopwf 0]
  constructor
  · rintro ⟨u, h1, h2, h3, h4⟩
    rw [htopsz] at h3
    obtain ⟨j, hj1, _, _, hj4⟩ := (subtree_char hwfull T hTL u h3).mp h4
    exact ⟨j, hj1, hj4⟩
  · rintro ⟨j, hj1, hj2⟩
    set u := j / 32 ^ T with hu
    have hul : u < ceil_div h.num_bits (32 ^ T) := div_lt_ceil_div j _ _ hj1 hP
    have hub1 : u * 32 ^ T ≤ j := Nat.div_mul_le_self j _
    have hub2 : j < (u + 1) * 32 ^ T := by
      rw [hu]
      exact (Nat.div_lt_iff_lt_mul hP).mp (Nat.lt_succ_self _)
    refine ⟨u, by simp, by omega, by rw [htopsz]; exact hul, ?_⟩
    exact (subtree_char hwfull T hTL u hul).mpr ⟨j, hj1, hub1, hub2, hj2⟩

theorem HierarchicalBitVec.find_spec {h : HierarchicalBitVec} (hw : h.WFH) :
    ((∃ i, i < h.num_bits ∧ h.get_bit i = true) →
      ∃ r, h.find_a_true_bit = some r ∧ r < h.num_bits ∧ h.get_bit r = true ∧
        ∀ j, j < r → h.get_bit j = false) ∧
    (h.find_a_true_bit = none → ∀ i, i < h.num_bits → h.get_bit i = false) := by
  rcases hw with hemp | hwf
  · have hnum0 : h.num_bits = 0 := by
      unfold HierarchicalBitVec.num_bits
      rw [hemp]
    constructor
    · rintro ⟨i, hi, _⟩
      omega
    · intro _ i hi
      omega
  · have hne : h.levels ≠ [] := hwf.levels_ne_nil
    have hfind : h.find_a_true_bit =
        (if (levelAt h.levels (h.levels.length - 1)).get_block 0 = 0 then none
         else some (descendLevels h.levels (h.levels.length - 1)
           (ctz ((levelAt h.levels (h.levels.length - 1)).get_block 0)))) := by
      unfold HierarchicalBitVec.find_a_true_bit
      rw [if_neg (by rw [List.isEmpty_iff]; exact hne)]
    by_cases hblk : (levelAt h.levels (h.levels.length - 1)).get_block 0 = 0
    · rw [if_pos hblk] at hfind
      constructor
      · rintro ⟨i, hi, hbit⟩
        exfalso
        have := (HierarchicalBitVec.top_block_iff hwf).mpr ⟨i, hi, hbit⟩
        exact this hblk
      · intro _ i hi
        by_contra hc
        have hbit : h.get_bit i = true := by
          cases hh : h.get_bit i
          · exact absurd hh hc
          · rfl
        exact (HierarchicalBitVec.top_block_iff hwf).mpr ⟨i, hi, hbit⟩ hblk
    · rw [if_neg hblk] at hfind
      obtain ⟨hn, hLpos, h0n, hshape, htop, hmin, hcons⟩ := hwf
      have hwfull : HLevelsWF h.levels h.num_bits := ⟨hn, hLpos, h0n, hshape, htop, hmin, hcons⟩
      set T := h.levels.length - 1 with hT
      have hTL : T < h.levels.length := by omega
      have htopwf := (hshape T hTL).1
      have htopsz := (hshape T hTL).2
      set w := (levelAt h.levels T).get_block 0 with hwdef
      have hwlt : w < 2 ^ 32 := BitVec.get_block_lt htopwf 0
      obtain ⟨hc1, hc2⟩ := ctz_spec hblk hwlt
      have hctzlt : ctz w < 32 := ctz_lt_32 hblk hwlt
      rw [hwdef, BitVec.testBit_get_block htopwf 0 (ctz w) hctzlt] at hc1
      have hc1' := Bool.and_eq_true_iff.mp hc1
      have ht0m : ctz w < (levelAt h.levels T).num_bits := by
        have := hc1'.1
        simp at this
        omega
      have ht0bit : (levelAt h.levels T).get_bit (ctz w) = true := by
        have := hc1'.2
        have he : 32 * 0 + ctz w = ctz w := by omega
        rw [he] at this
        exact this
      rw [htopsz] at ht0m
      have hminl : ∀ u, u < ctz w → (levelAt h.levels T).get_bit u = false := by
        intro u hu
        have := hc2 u hu
        rw [hwdef, BitVec.testBit_get_block htopwf 0 u (by omega)] at this
        have he : 32 * 0 + u = u := by omega
        rw [he] at this
        have hun : u < (levelAt h.levels T).num_bits := by rw [htopsz]; omega
        rw [decide_eq_true hun] at this
        simpa using this
      obtain ⟨hrn, hrbit, hrmin⟩ :=
        descendLevels_invariant hwfull T hTL (ctz w) ht0m ht0bit hminl
      constructor
      · intro _
        exact ⟨descendLevels h.levels T (ctz w), hfind, hrn, hrbit, hrmin⟩
      · intro hcontra
        rw [hfind] at hcontra
        exact absurd hcontra (by simp)

/-! ### Correctness of the hierarchical DFS `TrueBitsIterator`

We give a denotational semantics to iterator states: each stack frame
`(level, idx)` denotes the list of still-pending true level-0 indices inside
its subtree, and the current flags word denotes the remaining indices of the
block being emitted. -/

/-- Pending true level-0 indices covered by the subtree of stack frame
`(level, idx)`: the flags word read for that frame covers level-`level` bits
`[32 * idx, 32 * (idx + 1))`, whose subtrees cover level-0 indices
`[idx * 32 ^ (level + 1), (idx + 1) * 32 ^ (level + 1))`. -/
def frameDen (levels : List BitVec) (n : Nat) (f : Nat × Nat) : List Nat :=
  (List.range' (f.2 * 32 ^ (f.1 + 1)) (32 ^ (f.1 + 1))).filter
    (fun j => decide (j < n) && (levelAt levels 0).get_bit j)

def stackDen (levels : List BitVec) (n : Nat) (st : List (Nat × Nat)) : List Nat :=
  (st.map (frameDen levels n)).flatten

/-- Indices still to be emitted from the current flags word. -/
def curDen (w base : Nat) : List Nat :=
  ((List.range 32).filter (fun b => w.testBit b)).map (fun b => base + b)

def iterDen (levels : List BitVec) (n : Nat) (s : HTrueBitsIterator) : List Nat :=
  curDen s.flags s.base_global_idx_of_flags ++ stackDen levels n s.stack

/-- Invariant of the stack: every frame is at a real level and still has a
pending true bit (the source only pushes frames for set parent bits). -/
def GoodFrames (levels : List BitVec) (n : Nat) (st : List (Nat × Nat)) : Prop :=
  ∀ f ∈ st, f.1 < levels.length ∧ frameDen levels n f ≠ []

def GoodIter (levels : List BitVec) (n : Nat) (s : HTrueBitsIterator) : Prop :=
  s.flags < 2 ^ 32 ∧ GoodFrames levels n s.stack

theorem stackDen_cons (levels : List BitVec) (n : Nat) (f : Nat × Nat)
    (st : List (Nat × Nat)) :
    stackDen levels n (f :: st) = frameDen levels n f ++ stackDen levels n st := rfl

theorem stackDen_append (levels : List BitVec) (n : Nat) (st1 st2 : List (Nat × Nat)) :
    stackDen levels n (st1 ++ st2) = stackDen levels n st1 ++ stackDen levels n st2 := by
  unfold stackDen
  rw [List.map_append, List.flatten_append]

theorem mem_frameDen {levels : List BitVec} {n : Nat} {l c j : Nat} :
    j ∈ frameDen levels n (l, c) ↔
      c * 32 ^ (l + 1) ≤ j ∧ j < (c + 1) * 32 ^ (l + 1) ∧ j < n ∧
        (levelAt levels 0).get_bit j = true := by
  unfold frameDen
  rw [List.mem_filter, List.mem_range'_1]
  have he : (c + 1) * 32 ^ (l + 1) = c * 32 ^ (l + 1) + 32 ^ (l + 1) := by ring
  rw [he]
  simp only [Bool.and_eq_true, decide_eq_true_eq]
  tauto

theorem map_filter_comm {α β : Type} (f : α → β) (p : β → Bool) (l : List α) :
    (l.filter (fun a => p (f a))).map f = (l.map f).filter p := by
  induction l with
  | nil => rfl
  | cons a l ih =>
    by_cases h : p (f a) = true
    · simp only [List.filter_cons, List.map_cons, h, if_pos]
      rw [ih]
    · simp only [List.filter_cons, List.map_cons, h, if_neg, Bool.false_eq_true,
        not_false_iff]
      rw [ih]

theorem flatten_map_filter {α β : Type} (p : α → Bool) (f : α → List β) (l : List α)
    (h : ∀ x ∈ l, p x = false → f x = []) :
    (((l.filter p).map f)).flatten = (l.map f).flatten := by
  induction l with
  | nil => rfl
  | cons a l ih =>
    have ih2 := ih (fun x hx => h x (List.mem_cons_of_mem a hx))
    by_cases hp : p a = true
    · rw [List.filter_cons, if_pos hp, List.map_cons, List.flatten_cons,
        List.map_cons, List.flatten_cons, ih2]
    · have ha : f a = [] := h a (List.mem_cons_self a l) (Bool.eq_false_iff.mpr hp)
      rw [List.filter_cons, if_neg hp, List.map_cons, List.flatten_cons, ha,
        List.nil_append, ih2]

theorem sum_map_const {α : Type} (l : List α) (c : Nat) :
    (l.map (fun _ => c)).sum = l.length * c := by
  induction l with
  | nil => simp
  | cons a l ih =>
    rw [List.map_cons, List.sum_cons, ih, List.length_cons]
    ring

theorem range_mul_filter_flatten (q : Nat → Bool) :
    ∀ (m a c : Nat),
    (List.range' a (m * c)).filter q =
      ((List.range m).map (fun i => (List.range' (a + i * c) c).filter q)).flatten := by
  intro m
  induction m with
  | zero => intro a c; simp
  | succ m ih =>
    intro a c
    have hsplit : List.range' a ((m + 1) * c) =
        List.range' a c ++ List.range' (a + c) (m * c) := by
      have h := List.range'_append a c (m * c) 1
      rw [Nat.one_mul] at h
      rw [Nat.succ_mul]
      exact h.symm
    rw [hsplit, List.filter_append, List.range_succ_eq_map, List.map_cons,
      List.flatten_cons, Nat.zero_mul, Nat.add_zero, List.map_map, ih (a + c) c]
    congr 1
    congr 1
    apply List.map_congr_left
    intro i _
    show (List.range' (a + c + i * c) c).filter q =
      (List.range' (a + (i + 1) * c) c).filter q
    have : a + c + i * c = a + (i + 1) * c := by ring
    rw [this]

theorem frameDen_expand (levels : List BitVec) (n : Nat) (l c : Nat) :
    frameDen levels n (l + 1, c) =
      ((List.range 32).map (fun j => frameDen levels n (l, c * 32 + j))).flatten := by
  unfold frameDen
  dsimp only
  have h32 : (32 : Nat) ^ (l + 1 + 1) = 32 * 32 ^ (l + 1) := by
    rw [pow_succ]; ring
  rw [h32, range_mul_filter_flatten _ 32 (c * (32 * 32 ^ (l + 1))) (32 ^ (l + 1))]
  congr 1
  apply List.map_congr_left
  intro i _
  show (List.range' (c * (32 * 32 ^ (l + 1)) + i * 32 ^ (l + 1)) (32 ^ (l + 1))).filter _ =
    (List.range' ((c * 32 + i) * 32 ^ (l + 1)) (32 ^ (l + 1))).filter _
  have he : c * (32 * 32 ^ (l + 1)) + i * 32 ^ (l + 1) = (c * 32 + i) * 32 ^ (l + 1) := by
    ring
  rw [he]

theorem and_shift_ne_zero_iff (w b : Nat) :
    w &&& (1 <<< b) ≠ 0 ↔ w.testBit b = true := by
  rw [Nat.one_shiftLeft, ne_zero_iff_exists_testBit]
  constructor
  · rintro ⟨j, hj⟩
    rw [Nat.testBit_land, Nat.testBit_two_pow] at hj
    obtain ⟨h1, h2⟩ := Bool.and_eq_true_iff.mp hj
    rw [decide_eq_true_eq] at h2
    rw [h2]
    exact h1
  · intro h
    refine ⟨b, ?_⟩
    rw [Nat.testBit_land, Nat.testBit_two_pow]
    simp [h]

/-- Clearing bit `c` (`flags &= !(1 << c)` in the source): the bitwise effect. -/
theorem testBit_clearBit (w c j : Nat) (hw : w < 2 ^ 32) (hc : c < 32) :
    (w &&& (BLOCK_MAX ^^^ (1 <<< c))).testBit j = (w.testBit j && ! (decide (j = c))) := by
  rw [Nat.testBit_land, Nat.testBit_xor, BLOCK_MAX_eq, Nat.testBit_two_pow_sub_one,
    Nat.one_shiftLeft, Nat.testBit_two_pow]
  by_cases hj : j < 32
  · by_cases hjc : j = c
    · subst hjc
      simp [hj]
    · have hcj : ¬ c = j := fun h => hjc h.symm
      simp [hj, hjc, hcj]
  · rw [testBit_ge_32 hw (by omega)]
    simp

theorem clearBit_lt (w c : Nat) (hw : w < 2 ^ 32) :
    w &&& (BLOCK_MAX ^^^ (1 <<< c)) < 2 ^ 32 :=
  lt_of_le_of_lt Nat.and_le_left hw

/-- Removing the lowest set bit drops the head of the set-bit list. -/
theorem filter_range32_clear (w : Nat) (hw : w < 2 ^ 32) (hne : w ≠ 0) :
    (List.range 32).filter (fun b => w.testBit b) =
      ctz w :: (List.range 32).filter
        (fun b => (w &&& (BLOCK_MAX ^^^ (1 <<< ctz w))).testBit b) := by
  obtain ⟨hc1, hc2⟩ := ctz_spec hne hw
  have hclt : ctz w < 32 := ctz_lt_32 hne hw
  have hmain := filter_range_eq_of_first (fun b => w.testBit b) 0 (ctz w) 32
    (Nat.zero_le _) hclt hc1 (fun j _ hj => hc2 j hj)
  simp only [Nat.sub_zero] at hmain
  rw [List.range_eq_range', hmain]
  congr 1
  have hsplit : List.range' 0 (ctz w + 1) ++ List.range' (ctz w + 1) (32 - (ctz w + 1)) =
      List.range' 0 32 := by
    have h := List.range'_append 0 (ctz w + 1) (32 - (ctz w + 1)) 1
    rw [Nat.one_mul, Nat.zero_add] at h
    rw [show 32 - (ctz w + 1) + (ctz w + 1) = 32 from by omega] at h
    exact h
  rw [← hsplit, List.filter_append]
  have hfirst : (List.range' 0 (ctz w + 1)).filter
      (fun b => (w &&& (BLOCK_MAX ^^^ (1 <<< ctz w))).testBit b) = [] := by
    rw [List.filter_eq_nil_iff]
    intro a ha
    rw [List.mem_range'_1] at ha
    rw [testBit_clearBit w (ctz w) a hw hclt]
    by_cases hac : a = ctz w
    · simp [hac]
    · have : w.testBit a = false := hc2 a (by omega)
      simp [this]
  rw [hfirst, List.nil_append]
  apply List.filter_congr
  intro a ha
  rw [List.mem_range'_1] at ha
  rw [testBit_clearBit w (ctz w) a hw hclt]
  have : ¬ (a = ctz w) := by omega
  simp [this]

theorem curDen_zero (base : Nat) : curDen 0 base = [] := by
  unfold curDen
  have : (List.range 32).filter (fun b => (0 : Nat).testBit b) = [] := by
    rw [List.filter_eq_nil_iff]
    intro a _
    simp [Nat.zero_testBit]
  rw [this]
  rfl

/-- Emitting from a nonzero flags word: the produced index is the head of the
word's denotation and the cleared word denotes the tail. -/
theorem curDen_step (w base : Nat) (hne : w ≠ 0) (hlt : w < 2 ^ 32) :
    curDen w base =
      (base + ctz w) :: curDen (w &&& (BLOCK_MAX ^^^ (1 <<< ctz w))) base := by
  unfold curDen
  rw [filter_range32_clear w hlt hne, List.map_cons]

/-- The push loop prepends one child frame per set bit, lowest bit on top. -/
theorem pushChildrenLoop_den (cl base w : Nat) (st : List (Nat × Nat)) :
    pushChildrenLoop cl base w st =
      ((List.range 32).filter (fun b => w.testBit b)).map (fun b => (cl, base + b)) ++ st := by
  have hgen : ∀ (l : List Nat) (acc : List (Nat × Nat)),
      l.reverse.foldl
        (fun acc bit => if w &&& (1 <<< bit) ≠ 0 then (cl, base + bit) :: acc else acc) acc =
      (l.filter (fun b => w.testBit b)).map (fun b => (cl, base + b)) ++ acc := by
    intro l
    induction l with
    | nil => intro acc; rfl
    | cons a l ih =>
      intro acc
      rw [List.reverse_cons, List.foldl_append, ih acc]
      show (if w &&& (1 <<< a) ≠ 0 then _ :: _ else _) = _
      by_cases ha : w.testBit a = true
      · rw [if_pos ((and_shift_ne_zero_iff w a).mpr ha), List.filter_cons, if_pos ha,
          List.map_cons]
        rfl
      · rw [if_neg (fun hcon => ha ((and_shift_ne_zero_iff w a).mp hcon)),
          List.filter_cons, if_neg ha]
  exact hgen (List.range 32) st

/-- A level-0 frame pops to exactly its denotation: the masked level-0 block
covers indices `[32 c, 32 (c + 1))` clipped to `[0, n)`. -/
theorem curDen_level0 {levels : List BitVec} {n : Nat} (hw : HLevelsWF levels n) (b : Nat) :
    curDen ((levelAt levels 0).get_block b) (b * 32) = frameDen levels n (0, b) := by
  obtain ⟨hn, hL, h0n, hshape, _, _, _⟩ := hw
  have hwf0 := (hshape 0 hL).1
  have hr : frameDen levels n (0, b) =
      ((List.range 32).map (fun j => b * 32 + j)).filter
        (fun j => decide (j < n) && (levelAt levels 0).get_bit j) := by
    unfold frameDen
    dsimp only
    rw [show (32 : Nat) ^ (0 + 1) = 32 from by norm_num, List.range'_eq_map_range]
  rw [hr, ← map_filter_comm (fun j => b * 32 + j) _ (List.range 32)]
  unfold curDen
  congr 1
  apply List.filter_congr
  intro j hj
  have hj32 : j < 32 := List.mem_range.mp hj
  show ((levelAt levels 0).get_block b).testBit j =
    (decide (b * 32 + j < n) && (levelAt levels 0).get_bit (b * 32 + j))
  rw [BitVec.testBit_get_block hwf0 b j hj32, h0n, Nat.mul_comm 32 b]

/-- A frame is still pending exactly when the flags word that `popFrames`
will read for it is nonzero. -/
theorem frameDen_ne_nil_iff {levels : List BitVec} {n : Nat} (hw : HLevelsWF levels n)
    {l c : Nat} (hl : l < levels.length) :
    frameDen levels n (l, c) ≠ [] ↔ (levelAt levels l).get_block c ≠ 0 := by
  obtain ⟨hn, hL, h0n, hshape, htop, hmin, hcons⟩ := hw
  have hwfull : HLevelsWF levels n := ⟨hn, hL, h0n, hshape, htop, hmin, hcons⟩
  have hwfl := (hshape l hl).1
  have hsz := (hshape l hl).2
  have hP : (0 : Nat) < 32 ^ l := Nat.pos_pow_of_pos _ (by norm_num)
  rw [BitVec.get_block_ne_zero_iff hwfl c]
  constructor
  · intro hne
    obtain ⟨j, hj⟩ := List.exists_mem_of_ne_nil _ hne
    rw [mem_frameDen] at hj
    obtain ⟨hj1, hj2, hj3, hj4⟩ := hj
    have hul : j / 32 ^ l < ceil_div n (32 ^ l) := div_lt_ceil_div j n _ hj3 hP
    have hub1 : j / 32 ^ l * 32 ^ l ≤ j := Nat.div_mul_le_self j _
    have hub2 : j < (j / 32 ^ l + 1) * 32 ^ l :=
      (Nat.div_lt_iff_lt_mul hP).mp (Nat.lt_succ_self _)
    have h1 : 32 * c ≤ j / 32 ^ l := by
      rw [Nat.le_div_iff_mul_le hP]
      calc 32 * c * 32 ^ l = c * 32 ^ (l + 1) := by ring
      _ ≤ j := hj1
    have h2 : j / 32 ^ l < 32 * (c + 1) := by
      rw [Nat.div_lt_iff_lt_mul hP]
      calc j < (c + 1) * 32 ^ (l + 1) := hj2
      _ = 32 * (c + 1) * 32 ^ l := by ring
    refine ⟨j / 32 ^ l, h1, h2, by rw [hsz]; exact hul, ?_⟩
    exact (subtree_char hwfull l hl (j / 32 ^ l) hul).mpr ⟨j, hj3, hub1, hub2, hj4⟩
  · rintro ⟨u, h1, h2, h3, h4⟩
    rw [hsz] at h3
    obtain ⟨j, hj1, hj2, hj3, hj4⟩ := (subtree_char hwfull l hl u h3).mp h4
    refine List.ne_nil_of_mem (mem_frameDen.mpr ⟨?_, ?_, hj1, hj4⟩)
    · calc c * 32 ^ (l + 1) = 32 * c * 32 ^ l := by ring
      _ ≤ u * 32 ^ l := Nat.mul_le_mul_right _ h1
      _ ≤ j := hj2
    · calc j < (u + 1) * 32 ^ l := hj3
      _ ≤ 32 * (c + 1) * 32 ^ l := Nat.mul_le_mul_right _ (by omega)
      _ = (c + 1) * 32 ^ (l + 1) := by ring

/-- Frames entirely beyond the bit count denote nothing. -/
theorem frameDen_eq_nil_of_ge {levels : List BitVec} {n : Nat} (hn : 0 < n) {l c : Nat}
    (hc : ceil_div n (32 ^ (l + 1)) ≤ c) : frameDen levels n (l, c) = [] := by
  rw [List.eq_nil_iff_forall_not_mem]
  intro j hj
  rw [mem_frameDen] at hj
  obtain ⟨h1, _, h3, _⟩ := hj
  have hP : (0 : Nat) < 32 ^ (l + 1) := Nat.pos_pow_of_pos _ (by norm_num)
  have hle : n ≤ c * 32 ^ (l + 1) :=
    le_trans (le_ceil_div_mul n _ hn hP) (Nat.mul_le_mul_right _ hc)
  omega

theorem stackWeight_cons (f : Nat × Nat) (st : List (Nat × Nat)) :
    stackWeight (f :: st) = 33 ^ f.1 + stackWeight st := by
  unfold stackWeight
  rw [List.map_cons, List.sum_cons]

theorem stackWeight_append (st1 st2 : List (Nat × Nat)) :
    stackWeight (st1 ++ st2) = stackWeight st1 + stackWeight st2 := by
  unfold stackWeight
  rw [List.map_append, List.sum_append]

theorem stackWeight_children (cl base : Nat) (bs : List Nat) :
    stackWeight (bs.map (fun b => (cl, base + b))) = bs.length * 33 ^ cl := by
  unfold stackWeight
  rw [List.map_map]
  have hc : ((fun f : Nat × Nat => 33 ^ f.1) ∘ fun b => (cl, base + b)) =
      fun _ => 33 ^ cl := rfl
  rw [hc, sum_map_const]

theorem popFrames_succ (levels : List BitVec) (fuel l c : Nat) (rest : List (Nat × Nat)) :
    popFrames levels (fuel + 1) ((l, c) :: rest) =
      if l = 0 then some ((levelAt levels 0).get_block c, c * 32, rest)
      else if (levelAt levels l).get_block c = 0 then none
      else popFrames levels fuel
        (pushChildrenLoop (l - 1) (c * 32) ((levelAt levels l).get_block c) rest) := rfl

/-- The `popFrames` under the stack invariant: it succeeds with a nonzero flags
word whose denotation, followed by the remaining stack's denotation, is
exactly the input stack's denotation. -/
theorem popFrames_spec {levels : List BitVec} {n : Nat} (hw : HLevelsWF levels n) :
    ∀ fuel st, stackWeight st < fuel → GoodFrames levels n st → st ≠ [] →
    ∃ w base st2, popFrames levels fuel st = some (w, base, st2) ∧
      w ≠ 0 ∧ w < 2 ^ 32 ∧
      curDen w base ++ stackDen levels n st2 = stackDen levels n st ∧
      GoodFrames levels n st2 := by
  obtain ⟨hn, hL, h0n, hshape, htop, hmin, hcons⟩ := hw
  have hwfull : HLevelsWF levels n := ⟨hn, hL, h0n, hshape, htop, hmin, hcons⟩
  intro fuel
  induction fuel with
  | zero =>
    intro st h1 _ _
    exact absurd h1 (Nat.not_lt_zero _)
  | succ fuel ih =>
    intro st hfuel hgood hne
    obtain ⟨⟨l, c⟩, rest, rfl⟩ : ∃ f rest, st = f :: rest := by
      cases st with
      | nil => exact absurd rfl hne
      | cons f r => exact ⟨f, r, rfl⟩
    have hhead := hgood (l, c) (List.mem_cons_self _ _)
    have hlL : l < levels.length := hhead.1
    have hden : frameDen levels n (l, c) ≠ [] := hhead.2
    have hrest : GoodFrames levels n rest := fun f hf => hgood f (List.mem_cons_of_mem _ hf)
    by_cases hl0 : l = 0
    · subst hl0
      refine ⟨(levelAt levels 0).get_block c, c * 32, rest, ?_, ?_, ?_, ?_, hrest⟩
      · rw [popFrames_succ, if_pos rfl]
      · intro h0
        apply hden
        have hcd := curDen_level0 hwfull c
        rw [h0, curDen_zero] at hcd
        exact hcd.symm
      · exact BitVec.get_block_lt (hshape 0 hlL).1 c
      · rw [curDen_level0 hwfull c, stackDen_cons]
    · obtain ⟨lv, rfl⟩ : ∃ lv, l = lv + 1 := ⟨l - 1, by omega⟩
      have hlvL : lv < levels.length := by omega
      have hwpar := (hshape (lv + 1) hlL).1
      have hszpar := (hshape (lv + 1) hlL).2
      have hwne : (levelAt levels (lv + 1)).get_block c ≠ 0 :=
        (frameDen_ne_nil_iff hwfull hlL).mp hden
      have hwlt : (levelAt levels (lv + 1)).get_block c < 2 ^ 32 :=
        BitVec.get_block_lt hwpar c
      have hstep : popFrames levels (fuel + 1) ((lv + 1, c) :: rest) =
          popFrames levels fuel
            (pushChildrenLoop lv (c * 32) ((levelAt levels (lv + 1)).get_block c) rest) := by
        rw [popFrames_succ, if_neg (by omega : ¬ lv + 1 = 0), if_neg hwne,
          Nat.add_sub_cancel]
      have hpush : pushChildrenLoop lv (c * 32) ((levelAt levels (lv + 1)).get_block c) rest =
          ((List.range 32).filter
            (fun b => ((levelAt levels (lv + 1)).get_block c).testBit b)).map
            (fun b => (lv, c * 32 + b)) ++ rest :=
        pushChildrenLoop_den lv (c * 32) ((levelAt levels (lv + 1)).get_block c) rest
      have hchild_set : ∀ b, b < 32 →
          ((levelAt levels (lv + 1)).get_block c).testBit b = true →
          lv < levels.length ∧ frameDen levels n (lv, c * 32 + b) ≠ [] := by
        intro b hb32 hbset
        refine ⟨hlvL, ?_⟩
        rw [frameDen_ne_nil_iff hwfull hlvL]
        rw [BitVec.testBit_get_block hwpar c b hb32, Nat.mul_comm 32 c] at hbset
        obtain ⟨hb1, hb2⟩ := Bool.and_eq_true_iff.mp hbset
        rw [decide_eq_true_eq] at hb1
        have hcons2 := hcons (lv + 1) (by omega) hlL (c * 32 + b) hb1
        rw [Nat.add_sub_cancel] at hcons2
        exact hcons2.mp hb2
      have hchild_unset : ∀ b, b < 32 →
          ((levelAt levels (lv + 1)).get_block c).testBit b = false →
          frameDen levels n (lv, c * 32 + b) = [] := by
        intro b hb32 hbunset
        rw [BitVec.testBit_get_block hwpar c b hb32, Nat.mul_comm 32 c] at hbunset
        by_cases hlt : c * 32 + b < (levelAt levels (lv + 1)).num_bits
        · have hbitf : (levelAt levels (lv + 1)).get_bit (c * 32 + b) = false := by
            rcases Bool.and_eq_false_iff.mp hbunset with hcase | hcase
            · rw [decide_eq_false_iff_not] at hcase
              exact absurd hlt hcase
            · exact hcase
          have hcons2 := hcons (lv + 1) (by omega) hlL (c * 32 + b) hlt
          rw [Nat.add_sub_cancel] at hcons2
          have hblk0 : (levelAt levels lv).get_block (c * 32 + b) = 0 := by
            by_contra hne2
            rw [hcons2.mpr hne2] at hbitf
            exact absurd hbitf (by simp)
          by_contra hden2
          exact ((frameDen_ne_nil_iff hwfull hlvL).mp hden2) hblk0
        · apply frameDen_eq_nil_of_ge hn
          rw [hszpar] at hlt
          omega
      have hstackden : stackDen levels n
          (pushChildrenLoop lv (c * 32) ((levelAt levels (lv + 1)).get_block c) rest) =
          frameDen levels n (lv + 1, c) ++ stackDen levels n rest := by
        rw [hpush, stackDen_append]
        congr 1
        unfold stackDen
        rw [List.map_map]
        have hcomp : (frameDen levels n ∘ fun b => (lv, c * 32 + b)) =
            fun b => frameDen levels n (lv, c * 32 + b) := rfl
        rw [hcomp,
          flatten_map_filter (fun b => ((levelAt levels (lv + 1)).get_block c).testBit b)
            (fun b => frameDen levels n (lv, c * 32 + b)) (List.range 32)
            (fun b hb hbf => hchild_unset b (List.mem_range.mp hb) hbf),
          ← frameDen_expand]
      have hgood2 : GoodFrames levels n
          (pushChildrenLoop lv (c * 32) ((levelAt levels (lv + 1)).get_block c) rest) := by
        rw [hpush]
        intro f hf
        rcases List.mem_append.mp hf with hf1 | hf2
        · obtain ⟨b, hb, rfl⟩ := List.mem_map.mp hf1
          rw [List.mem_filter] at hb
          exact hchild_set b (List.mem_range.mp hb.1) hb.2
        · exact hrest f hf2
      have hwt : stackWeight
          (pushChildrenLoop lv (c * 32) ((levelAt levels (lv + 1)).get_block c) rest) <
          fuel := by
        rw [hpush, stackWeight_append, stackWeight_children]
        rw [stackWeight_cons] at hfuel
        have hlen : ((List.range 32).filter
            (fun b => ((levelAt levels (lv + 1)).get_block c).testBit b)).length ≤ 32 := by
          calc _ ≤ (List.range 32).length := List.length_filter_le _ _
          _ = 32 := List.length_range 32
        set X := (33 : Nat) ^ lv with hX
        have h33 : 0 < X := Nat.pos_pow_of_pos _ (by norm_num)
        have hsucc : (33 : Nat) ^ (lv + 1) = 33 * X := by
          rw [hX, pow_succ]
          ring
        rw [show ((lv + 1, c) : Nat × Nat).1 = lv + 1 from rfl, hsucc] at hfuel
        set Y := ((List.range 32).filter
          (fun b => ((levelAt levels (lv + 1)).get_block c).testBit b)).length * X with hY
        have hYle : Y ≤ 32 * X := by
          rw [hY]
          exact Nat.mul_le_mul_right _ hlen
        omega
      have hnewne : pushChildrenLoop lv (c * 32) ((levelAt levels (lv + 1)).get_block c) rest
          ≠ [] := by
        obtain ⟨b0, hb01, hb02⟩ := (ne_zero_iff_exists_testBit_lt hwlt).mp hwne
        rw [hpush]
        exact List.ne_nil_of_mem (List.mem_append_left _
          (List.mem_map_of_mem _ (List.mem_filter.mpr ⟨List.mem_range.mpr hb01, hb02⟩)))
      obtain ⟨w2, base2, st2, hpf, hw2ne, hw2lt, hden2, hgood3⟩ :=
        ih (pushChildrenLoop lv (c * 32) ((levelAt levels (lv + 1)).get_block c) rest)
          hwt hgood2 hnewne
      refine ⟨w2, base2, st2, ?_, hw2ne, hw2lt, ?_, hgood3⟩
      · rw [hstep]
        exact hpf
      · rw [hden2, hstackden, stackDen_cons]

theorem hNext_flags_ne (levels : List BitVec) (s : HTrueBitsIterator) (h : s.flags ≠ 0) :
    hNext levels s = some (s.base_global_idx_of_flags + ctz s.flags,
      ⟨s.stack, s.flags &&& (BLOCK_MAX ^^^ (1 <<< ctz s.flags)),
        s.base_global_idx_of_flags⟩) := by
  unfold hNext
  rw [if_neg h]
  dsimp only
  rw [if_neg h]

theorem hNext_empty (levels : List BitVec) (s : HTrueBitsIterator) (h0 : s.flags = 0)
    (hst : s.stack = []) : hNext levels s = none := by
  unfold hNext
  rw [if_pos h0, if_pos hst]

theorem hNext_pop (levels : List BitVec) (s : HTrueBitsIterator) (h0 : s.flags = 0)
    (w base : Nat) (st2 : List (Nat × Nat))
    (hpf : popFrames levels (stackWeight s.stack + 1) s.stack = some (w, base, st2))
    (hwne : w ≠ 0) (hstne : s.stack ≠ []) :
    hNext levels s =
      some (base + ctz w, ⟨st2, w &&& (BLOCK_MAX ^^^ (1 <<< ctz w)), base⟩) := by
  unfold hNext
  rw [if_pos h0, if_neg hstne, hpf]
  dsimp only
  rw [if_neg hwne]

/-- One iterator step either ends (empty denotation) or emits exactly the head
of the state's denotation, moving to a good state denoting the tail. -/
theorem hNext_spec {levels : List BitVec} {n : Nat} (hw : HLevelsWF levels n)
    (s : HTrueBitsIterator) (hg : GoodIter levels n s) :
    (hNext levels s = none ∧ iterDen levels n s = []) ∨
    (∃ t s2, hNext levels s = some (t, s2) ∧ GoodIter levels n s2 ∧
      iterDen levels n s = t :: iterDen levels n s2) := by
  obtain ⟨hflt, hgf⟩ := hg
  by_cases h0 : s.flags = 0
  · by_cases hst : s.stack = []
    · left
      refine ⟨hNext_empty levels s h0 hst, ?_⟩
      unfold iterDen
      rw [h0, curDen_zero, hst]
      rfl
    · right
      obtain ⟨w, base, st2, hpf, hwne, hwlt, hden, hgood2⟩ :=
        popFrames_spec hw (stackWeight s.stack + 1) s.stack (Nat.lt_succ_self _) hgf hst
      refine ⟨base + ctz w, ⟨st2, w &&& (BLOCK_MAX ^^^ (1 <<< ctz w)), base⟩,
        hNext_pop levels s h0 w base st2 hpf hwne hst,
        ⟨clearBit_lt w _ hwlt, hgood2⟩, ?_⟩
      unfold iterDen
      dsimp only
      rw [h0, curDen_zero, List.nil_append, ← hden, curDen_step w base hwne hwlt]
      rfl
  · right
    refine ⟨s.base_global_idx_of_flags + ctz s.flags,
      ⟨s.stack, s.flags &&& (BLOCK_MAX ^^^ (1 <<< ctz s.flags)),
        s.base_global_idx_of_flags⟩,
      hNext_flags_ne levels s h0, ⟨clearBit_lt _ _ hflt, hgf⟩, ?_⟩
    unfold iterDen
    dsimp only
    rw [curDen_step s.flags _ h0 hflt]
    rfl

theorem emitHAux_succ (levels : List BitVec) (fuel : Nat) (s : HTrueBitsIterator) :
    emitHAux levels (fuel + 1) s =
      match hNext levels s with
      | none => []
      | some (t, s2) => t :: emitHAux levels fuel s2 := rfl

/-- With enough fuel, the iterator emits exactly its state's denotation. -/
theorem emitHAux_den {levels : List BitVec} {n : Nat} (hw : HLevelsWF levels n) :
    ∀ fuel s, GoodIter levels n s → (iterDen levels n s).length ≤ fuel →
    emitHAux levels fuel s = iterDen levels n s := by
  intro fuel
  induction fuel with
  | zero =>
    intro s _ hlen
    have hnil : iterDen levels n s = [] := List.length_eq_zero.mp (Nat.le_zero.mp hlen)
    rw [hnil]
    rfl
  | succ fuel ih =>
    intro s hg hlen
    rcases hNext_spec hw s hg with ⟨hnone, hden⟩ | ⟨t, s2, hsome, hg2, hden⟩
    · rw [emitHAux_succ, hnone, hden]
    · have hlen2 : (iterDen levels n s2).length ≤ fuel := by
        rw [hden, List.length_cons] at hlen
        omega
      rw [emitHAux_succ, hsome]
      dsimp only
      rw [hden, ih s2 hg2 hlen2]

/-- The `HierarchicalBitVec::true_bits` yields exactly the set bits below
`num_bits`, in increasing order. -/
theorem HierarchicalBitVec.true_bits_eq_filter {h : HierarchicalBitVec} (hw : h.WFH) :
    h.true_bits_list = (List.range h.num_bits).filter (fun i => h.get_bit i) := by
  rcases hw with hnil | hwf
  · have h0 : h.num_bits = 0 := by
      unfold HierarchicalBitVec.num_bits
      rw [hnil]
    have hinit : hInit h = ⟨[], 0, 0⟩ := by
      unfold hInit
      rw [if_neg]
      intro hc
      exact hc.1 (by rw [hnil]; rfl)
    unfold HierarchicalBitVec.true_bits_list
    rw [h0, hinit, emitHAux_succ, hNext_empty h.levels ⟨[], 0, 0⟩ rfl rfl]
    simp
  · obtain ⟨hn, hL, h0n, hshape, htop, hmin, hcons⟩ := hwf
    have hwfull : HLevelsWF h.levels h.num_bits := ⟨hn, hL, h0n, hshape, htop, hmin, hcons⟩
    have hne : h.levels ≠ [] := by
      intro hnil2
      rw [hnil2] at hL
      simp at hL
    set T := h.levels.length - 1 with hT
    have hTL : T < h.levels.length := by omega
    by_cases htopblk : (levelAt h.levels (h.levels.length - 1)).get_block 0 = 0
    · have hinit : hInit h = ⟨[], 0, 0⟩ := by
        unfold hInit
        rw [if_neg]
        intro hc
        exact hc.2 htopblk
      unfold HierarchicalBitVec.true_bits_list
      rw [hinit, emitHAux_succ, hNext_empty h.levels ⟨[], 0, 0⟩ rfl rfl]
      symm
      rw [List.filter_eq_nil_iff]
      intro a ha hbit
      rw [List.mem_range] at ha
      exact ((HierarchicalBitVec.top_block_iff hwfull).mpr ⟨a, ha, hbit⟩) htopblk
    · have hroot : frameDen h.levels h.num_bits (T, 0) =
          (List.range h.num_bits).filter (fun i => h.get_bit i) := by
        unfold frameDen
        dsimp only
        rw [Nat.zero_mul]
        have hnle : h.num_bits ≤ 32 ^ (T + 1) := by
          have h1 := le_ceil_div_mul h.num_bits (32 ^ T) hn
            (Nat.pos_pow_of_pos _ (by norm_num))
          calc h.num_bits ≤ ceil_div h.num_bits (32 ^ T) * 32 ^ T := h1
          _ ≤ 32 * 32 ^ T := Nat.mul_le_mul_right _ htop
          _ = 32 ^ (T + 1) := by rw [pow_succ]; ring
        have hsplit : List.range' 0 (32 ^ (T + 1)) =
            List.range' 0 h.num_bits ++
              List.range' h.num_bits (32 ^ (T + 1) - h.num_bits) := by
          have hap := List.range'_append 0 h.num_bits (32 ^ (T + 1) - h.num_bits) 1
          rw [Nat.one_mul, Nat.zero_add] at hap
          rw [show 32 ^ (T + 1) - h.num_bits + h.num_bits = 32 ^ (T + 1) from by omega]
            at hap
          exact hap.symm
        rw [hsplit, List.filter_append]
        have hsecond : (List.range' h.num_bits (32 ^ (T + 1) - h.num_bits)).filter
            (fun j => decide (j < h.num_bits) && (levelAt h.levels 0).get_bit j) = [] := by
          rw [List.filter_eq_nil_iff]
          intro a ha
          rw [List.mem_range'_1] at ha
          have hna : ¬ (a < h.num_bits) := by omega
          simp [hna]
        rw [hsecond, List.append_nil, ← List.range_eq_range']
        apply List.filter_congr
        intro j hj
        rw [List.mem_range] at hj
        simp [HierarchicalBitVec.get_bit, hj]
      have hinit : hInit h = ⟨[(T, 0)], 0, 0⟩ := by
        unfold hInit
        rw [if_pos ⟨fun hE => hne (List.isEmpty_iff.mp hE), htopblk⟩]
      have hgood : GoodIter h.levels h.num_bits ⟨[(T, 0)], 0, 0⟩ := by
        refine ⟨by norm_num, ?_⟩
        intro f hf
        rw [List.mem_singleton] at hf
        subst hf
        refine ⟨hTL, ?_⟩
        rw [frameDen_ne_nil_iff hwfull hTL]
        exact htopblk
      have hiter : iterDen h.levels h.num_bits ⟨[(T, 0)], 0, 0⟩ =
          (List.range h.num_bits).filter (fun i => h.get_bit i) := by
        unfold iterDen
        dsimp only
        rw [curDen_zero, List.nil_append, stackDen_cons,
          show stackDen h.levels h.num_bits [] = [] from rfl, List.append_nil]
        exact hroot
      have hemit := emitHAux_den hwfull (h.num_bits + 1) ⟨[(T, 0)], 0, 0⟩ hgood
        (by
          rw [hiter]
          have hlf := List.length_filter_le (fun i => h.get_bit i) (List.range h.num_bits)
          rw [List.length_range] at hlf
          omega)
      unfold HierarchicalBitVec.true_bits_list
      rw [hinit, hemit, hiter]

/-! ## The `BoolVec` flag vector of `bool.rs` -/

structure BoolVec where
  flags : List Bool

def BoolVec.new : BoolVec := ⟨[]⟩

def BoolVec.with_flags (num_flags : Nat) (value : Bool) : BoolVec :=
  ⟨List.replicate num_flags value⟩

def BoolVec.num_flags (bv : BoolVec) : Nat := bv.flags.length

def BoolVec.get_flag (bv : BoolVec) (flag : Nat) : Bool := bv.flags.getD flag false

def BoolVec.set_flag (bv : BoolVec) (flag : Nat) (value : Bool) : BoolVec :=
  ⟨bv.flags.set flag value⟩

/-- The `self.flags.resize(self.flags.len() + num_flags, value)` only grows. -/
def BoolVec.add_flags (bv : BoolVec) (num_flags : Nat) (value : Bool) : BoolVec :=
  ⟨bv.flags ++ List.replicate num_flags value⟩

/-- Linear scan of `BoolVec::find_a_true_flag` (also the skip loop of its
`TrueFlagsIterator`), fuelled. -/
def boolFindAux (bv : BoolVec) : Nat → Nat → Option Nat
  | 0, _ => none
  | fuel + 1, cur =>
    if bv.flags.length ≤ cur then none
    else if bv.get_flag cur then some cur
    else boolFindAux bv fuel (cur + 1)

def BoolVec.find_a_true_flag (bv : BoolVec) : Option Nat :=
  boolFindAux bv (bv.flags.length + 1) 0

def boolEmitTrue (bv : BoolVec) : Nat → Nat → List Nat
  | 0, _ => []
  | fuel + 1, cur =>
    match boolFindAux bv (bv.flags.length + 1) cur with
    | none => []
    | some t => t :: boolEmitTrue bv fuel (t + 1)

/-- The full emitted sequence of `BoolVec::true_flags`. -/
def BoolVec.true_flags_list (bv : BoolVec) : List Nat :=
  boolEmitTrue bv (bv.flags.length + 1) 0

theorem BoolVec.with_flags_num (n : Nat) (v : Bool) :
    (BoolVec.with_flags n v).num_flags = n := by
  unfold BoolVec.with_flags BoolVec.num_flags
  exact List.length_replicate n v

theorem BoolVec.get_flag_with_flags (n : Nat) (v : Bool) {j : Nat} (h : j < n) :
    (BoolVec.with_flags n v).get_flag j = v := getD_replicate v false h

theorem BoolVec.set_flag_num (bv : BoolVec) (f : Nat) (v : Bool) :
    (bv.set_flag f v).num_flags = bv.num_flags := by
  unfold BoolVec.set_flag BoolVec.num_flags
  exact List.length_set bv.flags f v

theorem BoolVec.get_flag_set_bit (bv : BoolVec) (f : Nat) (v : Bool) (j : Nat)
    (hf : f < bv.num_flags) :
    (bv.set_flag f v).get_flag j = if j = f then v else bv.get_flag j := by
  unfold BoolVec.set_flag BoolVec.get_flag
  by_cases h : j = f
  · rw [if_pos h, h]
    exact getD_set_self v false hf
  · rw [if_neg h]
    exact getD_set_ne v false (fun he => h he.symm)

theorem BoolVec.add_flags_num (bv : BoolVec) (k : Nat) (v : Bool) :
    (bv.add_flags k v).num_flags = bv.num_flags + k := by
  unfold BoolVec.add_flags BoolVec.num_flags
  rw [List.length_append, List.length_replicate]

theorem BoolVec.get_flag_add_flags (bv : BoolVec) (k : Nat) (v : Bool) (j : Nat)
    (hj : j < bv.num_flags + k) :
    (bv.add_flags k v).get_flag j = if j < bv.num_flags then bv.get_flag j else v := by
  unfold BoolVec.add_flags BoolVec.get_flag BoolVec.num_flags at *
  by_cases h : j < bv.flags.length
  · rw [if_pos h]
    exact getD_append_lt false h
  · rw [if_neg h, getD_append_ge false (by omega)]
    exact getD_replicate v false (by omega)

theorem boolFindAux_none_spec (bv : BoolVec) : ∀ fuel cur : Nat,
    bv.flags.length ≤ cur + fuel → boolFindAux bv fuel cur = none →
    ∀ j, cur ≤ j → j < bv.flags.length → bv.get_flag j = false := by
  intro fuel
  induction fuel with
  | zero => intro cur hf h j h1 h2; omega
  | succ f ih =>
    intro cur hf h j h1 h2
    unfold boolFindAux at h
    by_cases hc : bv.flags.length ≤ cur
    · omega
    · rw [if_neg hc] at h
      by_cases hg : bv.get_flag cur
      · rw [if_pos hg] at h
        exact absurd h (by simp)
      · rw [if_neg hg] at h
        rcases Nat.eq_or_lt_of_le h1 with he | hlt
        · rw [← he]
          exact Bool.eq_false_iff.mpr hg
        · exact ih (cur + 1) (by omega) h j hlt h2

theorem boolFindAux_some_spec (bv : BoolVec) : ∀ fuel cur t : Nat,
    boolFindAux bv fuel cur = some t →
    cur ≤ t ∧ t < bv.flags.length ∧ bv.get_flag t = true ∧
      ∀ j, cur ≤ j → j < t → bv.get_flag j = false := by
  intro fuel
  induction fuel with
  | zero => intro cur t h; exact absurd h (by simp [boolFindAux])
  | succ f ih =>
    intro cur t h
    unfold boolFindAux at h
    by_cases hc : bv.flags.length ≤ cur
    · rw [if_pos hc] at h
      exact absurd h (by simp)
    · rw [if_neg hc] at h
      by_cases hg : bv.get_flag cur
      · rw [if_pos hg] at h
        have ht : t = cur := by
          have := Option.some.inj h
          omega
        refine ⟨by omega, by omega, by rw [ht]; exact hg, ?_⟩
        intro j h1 h2
        omega
      · rw [if_neg hg] at h
        obtain ⟨h1, h2, h3, h4⟩ := ih (cur + 1) t h
        refine ⟨by omega, h2, h3, ?_⟩
        intro j hj1 hj2
        rcases Nat.eq_or_lt_of_le hj1 with he | hlt
        · rw [← he]
          exact Bool.eq_false_iff.mpr hg
        · exact h4 j hlt hj2

theorem boolEmitTrue_eq (bv : BoolVec) : ∀ fuel cur : Nat,
    bv.flags.length + 1 ≤ fuel + cur →
    boolEmitTrue bv fuel cur =
      (List.range' cur (bv.flags.length - cur)).filter (fun i => bv.get_flag i) := by
  intro fuel
  induction fuel with
  | zero =>
    intro cur hf
    rw [show boolEmitTrue bv 0 cur = [] from rfl]
    rw [show bv.flags.length - cur = 0 by omega]
    rfl
  | succ f ih =>
    intro cur hf
    unfold boolEmitTrue
    cases hnx : boolFindAux bv (bv.flags.length + 1) cur with
    | none =>
      rw [filter_range_eq_nil _ cur _ (boolFindAux_none_spec bv _ cur (by omega) hnx)]
    | some t =>
      obtain ⟨h1, h2, h3, h4⟩ := boolFindAux_some_spec bv _ cur t hnx
      dsimp only
      rw [ih (t + 1) (by omega),
        filter_range_eq_of_first (fun i => bv.get_flag i) cur t bv.flags.length h1 h2 h3 h4]

theorem BoolVec.true_flags_list_eq (bv : BoolVec) :
    bv.true_flags_list = (List.range bv.num_flags).filter (fun i => bv.get_flag i) := by
  unfold BoolVec.true_flags_list BoolVec.num_flags
  rw [boolEmitTrue_eq bv _ 0 (by omega), Nat.sub_zero, List.range_eq_range']

/-- The `BoolVec::find_a_true_flag` returns the smallest true index, or `None`
when every flag is false. -/
theorem BoolVec.find_a_true_flag_spec (bv : BoolVec) :
    (∀ t, bv.find_a_true_flag = some t →
      t < bv.num_flags ∧ bv.get_flag t = true ∧
        ∀ j, j < t → bv.get_flag j = false) ∧
    (bv.find_a_true_flag = none → ∀ j, j < bv.num_flags → bv.get_flag j = false) := by
  constructor
  · intro t h
    obtain ⟨_, h2, h3, h4⟩ := boolFindAux_some_spec bv _ 0 t h
    exact ⟨h2, h3, fun j hj => h4 j (Nat.zero_le _) hj⟩
  · intro h j hj
    exact boolFindAux_none_spec bv _ 0 (by omega) h j (Nat.zero_le _) hj

/-! ## The generic flags-based pool of `mod.rs`

The `FlagVec` trait becomes a record of operations; the pool functions are
written once against it, and each law needed of an implementation is proved
for `BoolVec`, `BitVec` and `HierarchicalBitVec` below. -/

structure FlagVecOps (F : Type) where
  new : F
  with_flags : Nat → Bool → F
  num_flags : F → Nat
  get_flag : F → Nat → Bool
  set_flag : F → Nat → Bool → F
  add_flags : F → Nat → Bool → F
  find_a_true_flag : F → Option Nat
  true_flags_list : F → List Nat

/-- The behaviour of a `FlagVec` implementation on well-formed values
(`WFF`), as used by the pool: note `find_some` only promises the lowest true
flag when a true flag exists below the logical length — the packed vectors
may report trailing storage bits when none does. -/
structure FlagLaws {F : Type} (ops : FlagVecOps F) (WFF : F → Prop) : Prop where
  new_wf : WFF ops.new
  new_num : ops.num_flags ops.new = 0
  with_flags_wf : ∀ n v, WFF (ops.with_flags n v)
  with_flags_num : ∀ n v, ops.num_flags (ops.with_flags n v) = n
  with_flags_get : ∀ n v j, j < n → ops.get_flag (ops.with_flags n v) j = v
  set_wf : ∀ f i v, WFF f → i < ops.num_flags f → WFF (ops.set_flag f i v)
  set_num : ∀ f i v, WFF f → i < ops.num_flags f →
    ops.num_flags (ops.set_flag f i v) = ops.num_flags f
  set_get : ∀ f i v j, WFF f → i < ops.num_flags f →
    ops.get_flag (ops.set_flag f i v) j = if j = i then v else ops.get_flag f j
  add_wf : ∀ f k v, WFF f → 0 < k → WFF (ops.add_flags f k v)
  add_num : ∀ f k v, WFF f → 0 < k →
    ops.num_flags (ops.add_flags f k v) = ops.num_flags f + k
  add_get : ∀ f k v j, WFF f → 0 < k → j < ops.num_flags f + k →
    ops.get_flag (ops.add_flags f k v) j =
      if j < ops.num_flags f then ops.get_flag f j else v
  find_some : ∀ f, WFF f → (∃ i, i < ops.num_flags f ∧ ops.get_flag f i = true) →
    ∃ t, ops.find_a_true_flag f = some t ∧ t < ops.num_flags f ∧
      ops.get_flag f t = true ∧ ∀ j, j < t → ops.get_flag f j = false
  true_flags : ∀ f, WFF f →
    ops.true_flags_list f =
      (List.range (ops.num_flags f)).filter (fun i => ops.get_flag f i)

structure FlagsBasedPool (T F : Type) where
  alloc : F
  free : F
  items : List (Option T)
  num_items : Nat

/-- The `Vec::resize(n, v)`: truncate or extend with copies of `v`. -/
def listResize {α : Type} (l : List α) (n : Nat) (v : α) : List α :=
  if n ≤ l.length then l.take n else l ++ List.replicate (n - l.length) v

def pool_new {T F : Type} (ops : FlagVecOps F) : FlagsBasedPool T F :=
  ⟨ops.new, ops.new, [], 0⟩

def pool_with_capacity {T F : Type} (ops : FlagVecOps F) (num_items : Nat) :
    FlagsBasedPool T F :=
  ⟨ops.with_flags num_items false, ops.with_flags num_items true,
    List.replicate num_items none, 0⟩

def pool_len {T F : Type} (p : FlagsBasedPool T F) : Nat := p.num_items

/-- The `get` models `self.items[id].as_ref().unwrap()`: `none` is the fatal
panic, from out-of-range indexing or from unwrapping an empty slot. -/
def pool_get {T F : Type} (p : FlagsBasedPool T F) (id : Nat) : Option T :=
  p.items.getD id none

/-- The `get_mut` dereferences the same slot as `get`; `none` is the same fatal
panic. -/
def pool_get_mut {T F : Type} (p : FlagsBasedPool T F) (id : Nat) : Option T :=
  p.items.getD id none

def expand_if_needed {T F : Type} (ops : FlagVecOps F) (p : FlagsBasedPool T F) :
    FlagsBasedPool T F :=
  if p.num_items < ops.num_flags p.alloc then p
  else
    let new_num_items := if p.num_items = 0 then 1 else p.num_items * 2
    let num_new_items := new_num_items - p.num_items
    ⟨ops.add_flags p.alloc num_new_items false,
      ops.add_flags p.free num_new_items true,
      listResize p.items new_num_items none,
      p.num_items⟩

/-- The `allocate`; `none` models any of its panics: the `unwrap` on an exhausted
free list, the two flag `assert!`s, the indexing of `items[id]` and the
`assert!(items[id].is_none())`. -/
def pool_allocate {T F : Type} (ops : FlagVecOps F) (p : FlagsBasedPool T F)
    (item : T) : Option (Nat × FlagsBasedPool T F) :=
  let p1 := expand_if_needed ops p
  match ops.find_a_true_flag p1.free with
  | none => none
  | some id =>
    if ops.get_flag p1.alloc id = false ∧ ops.get_flag p1.free id = true ∧
        id < p1.items.length ∧ (p1.items.getD id none).isNone = true then
      some (id, ⟨ops.set_flag p1.alloc id true, ops.set_flag p1.free id false,
        p1.items.set id (some item), p1.num_items + 1⟩)
    else none

/-- The `deallocate`; `none` models the indexing panic and the three
`assert!`s. -/
def pool_deallocate {T F : Type} (ops : FlagVecOps F) (p : FlagsBasedPool T F)
    (id : Nat) : Option (FlagsBasedPool T F) :=
  if id < p.items.length ∧ (p.items.getD id none).isSome = true ∧
      ops.get_flag p.alloc id = true ∧ ops.get_flag p.free id = false then
    some ⟨ops.set_flag p.alloc id false, ops.set_flag p.free id true,
      p.items.set id none, p.num_items - 1⟩
  else none

/-- The sequence of slots dereferenced by `iter()`: one entry per index the
`true_flags` iterator of `alloc` yields; a `none` entry would be the `unwrap`
panic on an empty slot. -/
def pool_iter_list {T F : Type} (ops : FlagVecOps F) (p : FlagsBasedPool T F) :
    List (Option T) :=
  (ops.true_flags_list p.alloc).map (fun id => p.items.getD id none)

/-- Pool states reachable by the public constructors and mutators (a
successful `allocate` or `deallocate`; `get`/`get_mut` do not change the
recorded state). -/
inductive PReach {T F : Type} (ops : FlagVecOps F) : FlagsBasedPool T F → Prop where
  | new : PReach ops (pool_new ops)
  | with_capacity (n : Nat) : PReach ops (pool_with_capacity ops n)
  | allocate {p : FlagsBasedPool T F} {x : T} {id : Nat} {p2 : FlagsBasedPool T F} :
      PReach ops p → pool_allocate ops p x = some (id, p2) → PReach ops p2
  | deallocate {p : FlagsBasedPool T F} {id : Nat} {p2 : FlagsBasedPool T F} :
      PReach ops p → pool_deallocate ops p id = some p2 → PReach ops p2

/-- The pool invariant: well-formed flag vectors of equal logical length (the
capacity), `items` of that same length, `free` the complement of `alloc`,
slots full exactly where allocated, and `num_items` counting the full
slots. -/
def PoolInv {T F : Type} (ops : FlagVecOps F) (WFF : F → Prop)
    (p : FlagsBasedPool T F) : Prop :=
  WFF p.alloc ∧ WFF p.free ∧
  ops.num_flags p.alloc = ops.num_flags p.free ∧
  p.items.length = ops.num_flags p.alloc ∧
  (∀ id, id < ops.num_flags p.alloc →
    ops.get_flag p.free id = ! ops.get_flag p.alloc id) ∧
  (∀ id, id < ops.num_flags p.alloc →
    (p.items.getD id none).isSome = ops.get_flag p.alloc id) ∧
  p.num_items = p.items.countP (fun o => o.isSome)

theorem countP_set {α : Type} (p : α → Bool) :
    ∀ (l : List α) (i : Nat) (a : α), i < l.length →
    (l.set i a).countP p + (if p (l.getD i a) then 1 else 0) =
      l.countP p + (if p a then 1 else 0) := by
  intro l
  induction l with
  | nil =>
    intro i a hi
    simp at hi
  | cons b l ih =>
    intro i a hi
    cases i with
    | zero =>
      rw [List.set_cons_zero, List.countP_cons, List.countP_cons,
        show ((b :: l).getD 0 a) = b from rfl]
      omega
    | succ i =>
      rw [List.set_cons_succ, List.countP_cons, List.countP_cons,
        show ((b :: l).getD (i + 1) a) = l.getD i a from rfl]
      have := ih i a (by rw [List.length_cons] at hi; omega)
      omega

theorem PoolInv_new {T F : Type} (ops : FlagVecOps F) (WFF : F → Prop)
    (laws : FlagLaws ops WFF) : PoolInv ops WFF (pool_new (T := T) ops) := by
  unfold PoolInv pool_new
  dsimp only
  refine ⟨laws.new_wf, laws.new_wf, rfl, ?_, ?_, ?_, rfl⟩
  · rw [laws.new_num]
    rfl
  · intro id hid
    rw [laws.new_num] at hid
    omega
  · intro id hid
    rw [laws.new_num] at hid
    omega

theorem PoolInv_with_capacity {T F : Type} (ops : FlagVecOps F) (WFF : F → Prop)
    (laws : FlagLaws ops WFF) (n : Nat) :
    PoolInv ops WFF (pool_with_capacity (T := T) ops n) := by
  have hcount : ∀ m : Nat,
      (List.replicate m (none : Option T)).countP (fun o => o.isSome) = 0 := by
    intro m
    induction m with
    | zero => rfl
    | succ m2 ihm =>
      rw [List.replicate_succ, List.countP_cons, ihm]
      simp
  unfold PoolInv pool_with_capacity
  dsimp only
  refine ⟨laws.with_flags_wf n false, laws.with_flags_wf n true, ?_, ?_, ?_, ?_, ?_⟩
  · rw [laws.with_flags_num, laws.with_flags_num]
  · rw [laws.with_flags_num, List.length_replicate]
  · intro id hid
    rw [laws.with_flags_num] at hid
    rw [laws.with_flags_get n false id hid, laws.with_flags_get n true id hid]
    rfl
  · intro id hid
    rw [laws.with_flags_num] at hid
    rw [laws.with_flags_get n false id hid, getD_replicate none none hid]
    rfl
  · rw [hcount n]

theorem countP_isSome_replicate_none {T : Type} (m : Nat) :
    (List.replicate m (none : Option T)).countP (fun o => o.isSome) = 0 := by
  induction m with
  | zero => rfl
  | succ m2 ihm =>
    rw [List.replicate_succ, List.countP_cons, ihm]
    simp

/-- The `expand_if_needed`: preserves the invariant and the item count, leaves
every existing flag and slot unchanged, never shrinks, afterwards the item
count is strictly below capacity, and capacity follows the `0 → 1`,
`c → 2 c` growth policy. -/
theorem expand_if_needed_spec {T F : Type} {ops : FlagVecOps F} {WFF : F → Prop}
    (laws : FlagLaws ops WFF) {p : FlagsBasedPool T F} (hinv : PoolInv ops WFF p) :
    PoolInv ops WFF (expand_if_needed ops p) ∧
    (expand_if_needed ops p).num_items = p.num_items ∧
    p.num_items < ops.num_flags (expand_if_needed ops p).alloc ∧
    ops.num_flags p.alloc ≤ ops.num_flags (expand_if_needed ops p).alloc ∧
    (∀ id, id < ops.num_flags p.alloc →
      ops.get_flag (expand_if_needed ops p).alloc id = ops.get_flag p.alloc id ∧
      ops.get_flag (expand_if_needed ops p).free id = ops.get_flag p.free id ∧
      (expand_if_needed ops p).items.getD id none = p.items.getD id none) ∧
    (∀ id, ops.num_flags p.alloc ≤ id →
      id < ops.num_flags (expand_if_needed ops p).alloc →
      ops.get_flag (expand_if_needed ops p).alloc id = false ∧
      ops.get_flag (expand_if_needed ops p).free id = true ∧
      (expand_if_needed ops p).items.getD id none = none) ∧
    ops.num_flags (expand_if_needed ops p).alloc =
      (if p.num_items < ops.num_flags p.alloc then ops.num_flags p.alloc
       else if p.num_items = 0 then 1 else p.num_items * 2) := by
  obtain ⟨hwa, hwf, hnum, hlen, hcompl, hsome, hcnt⟩ := hinv
  have hle : p.num_items ≤ ops.num_flags p.alloc := by
    rw [hcnt, ← hlen]
    exact List.countP_le_length _
  by_cases hcond : p.num_items < ops.num_flags p.alloc
  · have he : expand_if_needed ops p = p := by
      unfold expand_if_needed
      rw [if_pos hcond]
    rw [he, if_pos hcond]
    exact ⟨⟨hwa, hwf, hnum, hlen, hcompl, hsome, hcnt⟩, rfl, hcond, le_refl _,
      fun id _ => ⟨rfl, rfl, rfl⟩, fun id h1 h2 => absurd h2 (by omega), rfl⟩
  · have hfull : p.num_items = ops.num_flags p.alloc := by omega
    set c := ops.num_flags p.alloc with hc
    set newN := if p.num_items = 0 then 1 else p.num_items * 2 with hnewN
    have hgrow : c < newN := by
      rw [hnewN]
      by_cases h0 : p.num_items = 0
      · rw [if_pos h0]
        omega
      · rw [if_neg h0]
        omega
    set k := newN - p.num_items with hk
    have hkpos : 0 < k := by omega
    have he : expand_if_needed ops p =
        ⟨ops.add_flags p.alloc k false, ops.add_flags p.free k true,
          listResize p.items newN none, p.num_items⟩ := by
      unfold expand_if_needed
      rw [if_neg hcond]
    have hsum : c + k = newN := by omega
    have hresize : listResize p.items newN none =
        p.items ++ List.replicate (newN - p.items.length) none := by
      unfold listResize
      rw [if_neg (by omega)]
    have hlen2 : (listResize p.items newN none).length = newN := by
      rw [hresize, List.length_append, List.length_replicate]
      omega
    have hgetD : ∀ id, (listResize p.items newN none).getD id none =
        if id < p.items.length then p.items.getD id none else none := by
      intro id
      rw [hresize]
      by_cases hid : id < p.items.length
      · rw [if_pos hid, getD_append_lt none hid]
      · rw [if_neg hid, getD_append_ge none (by omega)]
        by_cases hid2 : id - p.items.length < newN - p.items.length
        · exact getD_replicate none none hid2
        · exact getD_of_length_le none (by rw [List.length_replicate]; omega)
    have hnuma : ops.num_flags (ops.add_flags p.alloc k false) = c + k :=
      laws.add_num p.alloc k false hwa hkpos
    have hnumf : ops.num_flags (ops.add_flags p.free k true) = c + k := by
      rw [laws.add_num p.free k true hwf hkpos, ← hnum]
    rw [he, if_neg hcond]
    refine ⟨⟨laws.add_wf p.alloc k false hwa hkpos, laws.add_wf p.free k true hwf hkpos,
      ?_, ?_, ?_, ?_, ?_⟩, rfl, ?_, ?_, ?_, ?_, ?_⟩
    · rw [hnuma, hnumf]
    · rw [hlen2, hnuma]
      omega
    · intro id hid
      rw [hnuma] at hid
      rw [laws.add_get p.alloc k false id hwa hkpos hid,
        laws.add_get p.free k true id hwf hkpos (by omega)]
      by_cases hidc : id < c
      · rw [if_pos hidc, if_pos (by rw [← hnum]; exact hidc)]
        exact hcompl id hidc
      · rw [if_neg hidc, if_neg (by rw [← hnum]; exact hidc)]
        rfl
    · intro id hid
      rw [hnuma] at hid
      rw [hgetD id, laws.add_get p.alloc k false id hwa hkpos hid]
      by_cases hidc : id < c
      · rw [if_pos (by omega), if_pos hidc]
        exact hsome id hidc
      · rw [if_neg (by omega), if_neg hidc]
        rfl
    · show p.num_items = (listResize p.items newN none).countP (fun o => o.isSome)
      rw [hresize, List.countP_append, countP_isSome_replicate_none]
      omega
    · rw [hnuma]
      omega
    · rw [hnuma]
      omega
    · intro id hid
      refine ⟨?_, ?_, ?_⟩
      · rw [laws.add_get p.alloc k false id hwa hkpos (by omega), if_pos hid]
      · rw [laws.add_get p.free k true id hwf hkpos (by rw [← hnum]; omega),
          if_pos (by rw [← hnum]; exact hid)]
      · rw [hgetD id, if_pos (by omega)]
    · intro id h1 h2
      rw [hnuma] at h2
      refine ⟨?_, ?_, ?_⟩
      · rw [laws.add_get p.alloc k false id hwa hkpos h2, if_neg (by omega)]
      · rw [laws.add_get p.free k true id hwf hkpos (by rw [← hnum]; omega),
          if_neg (by rw [← hnum]; omega)]
      · rw [hgetD id, if_neg (by omega)]
    · rw [hnuma]
      omega

theorem getD_default_irrel {α : Type} (l : List α) (i : Nat) (d1 d2 : α)
    (h : i < l.length) : l.getD i d1 = l.getD i d2 := by
  rw [List.getD_eq_getElem l d1 h, List.getD_eq_getElem l d2 h]

/-- The `allocate` on an invariant-satisfying pool always succeeds: it returns the
smallest id not currently allocated (after any needed growth), stores the item
there, bumps the item count, follows the growth policy, and leaves every other
existing slot and flag unchanged. -/
theorem pool_allocate_spec {T F : Type} {ops : FlagVecOps F} {WFF : F → Prop}
    (laws : FlagLaws ops WFF) {p : FlagsBasedPool T F} (hinv : PoolInv ops WFF p)
    (x : T) :
    ∃ id p2, pool_allocate ops p x = some (id, p2) ∧
      PoolInv ops WFF p2 ∧
      id < ops.num_flags p2.alloc ∧
      (∀ j, j < id → j < ops.num_flags p.alloc ∧ ops.get_flag p.alloc j = true) ∧
      (id < ops.num_flags p.alloc → ops.get_flag p.alloc id = false) ∧
      ops.get_flag p2.alloc id = true ∧
      pool_get p2 id = some x ∧
      p2.num_items = p.num_items + 1 ∧
      ops.num_flags p2.alloc =
        (if p.num_items < ops.num_flags p.alloc then ops.num_flags p.alloc
         else if p.num_items = 0 then 1 else p.num_items * 2) ∧
      ops.num_flags p.alloc ≤ ops.num_flags p2.alloc ∧
      (∀ j, j < ops.num_flags p.alloc → j ≠ id →
        ops.get_flag p2.alloc j = ops.get_flag p.alloc j ∧
        p2.items.getD j none = p.items.getD j none) ∧
      (∀ j, ops.num_flags p.alloc ≤ j → j < ops.num_flags p2.alloc → j ≠ id →
        ops.get_flag p2.alloc j = false ∧ ops.get_flag p2.free j = true ∧
        p2.items.getD j none = none) := by
  obtain ⟨hinv1, hni, hlt, hmono, hpres, hnewr, hcap⟩ := expand_if_needed_spec laws hinv
  obtain ⟨p1, hp1⟩ : ∃ q, expand_if_needed ops p = q := ⟨_, rfl⟩
  rw [hp1] at hinv1 hni hlt hmono hpres hnewr hcap
  obtain ⟨hwa1, hwf1, hnum1, hlen1, hcompl1, hsome1, hcnt1⟩ := hinv1
  have hexfree : ∃ i, i < ops.num_flags p1.free ∧ ops.get_flag p1.free i = true := by
    by_contra hno
    push_neg at hno
    have hall : ∀ o ∈ p1.items, (fun o : Option T => o.isSome) o = true := by
      intro o ho
      obtain ⟨j, hjl, hjo⟩ := List.mem_iff_getElem.mp ho
      have hjc : j < ops.num_flags p1.alloc := by omega
      have hfr : ops.get_flag p1.free j ≠ true := hno j (by rw [← hnum1]; exact hjc)
      have hfr2 : ops.get_flag p1.free j = false := Bool.eq_false_iff.mpr hfr
      have halj : ops.get_flag p1.alloc j = true := by
        have := hcompl1 j hjc
        rw [hfr2] at this
        cases hval : ops.get_flag p1.alloc j
        · rw [hval] at this
          exact absurd this (by simp)
        · rfl
      have := hsome1 j hjc
      rw [List.getD_eq_getElem p1.items none hjl, hjo] at this
      show o.isSome = true
      rw [this, halj]
    have hfull2 : p1.items.countP (fun o => o.isSome) = p1.items.length :=
      List.countP_eq_length.mpr hall
    omega
  obtain ⟨id, hfind, hidlt, hfreeid, hfirst⟩ := laws.find_some p1.free hwf1 hexfree
  have hidc : id < ops.num_flags p1.alloc := by rw [hnum1]; exact hidlt
  have hallocid : ops.get_flag p1.alloc id = false := by
    have := hcompl1 id hidc
    rw [hfreeid] at this
    cases hval : ops.get_flag p1.alloc id
    · rfl
    · rw [hval] at this
      exact absurd this (by simp)
  have hslotid : p1.items.getD id none = none := by
    have := hsome1 id hidc
    rw [hallocid] at this
    exact Option.not_isSome_iff_eq_none.mp (by rw [this]; simp)
  have heq : pool_allocate ops p x =
      some (id, ⟨ops.set_flag p1.alloc id true, ops.set_flag p1.free id false,
        p1.items.set id (some x), p1.num_items + 1⟩) := by
    unfold pool_allocate
    dsimp only
    rw [hp1, hfind]
    dsimp only
    rw [if_pos ⟨hallocid, hfreeid, by omega, by rw [hslotid]; rfl⟩]
  have hidfree : id < ops.num_flags p1.free := hidlt
  have hsetnuma : ops.num_flags (ops.set_flag p1.alloc id true) = ops.num_flags p1.alloc :=
    laws.set_num p1.alloc id true hwa1 hidc
  have hsetnumf : ops.num_flags (ops.set_flag p1.free id false) = ops.num_flags p1.free :=
    laws.set_num p1.free id false hwf1 hidfree
  have hcount2 : (p1.items.set id (some x)).countP (fun o => o.isSome) =
      p1.items.countP (fun o => o.isSome) + 1 := by
    have hcs := countP_set (fun o : Option T => o.isSome) p1.items id (some x) (by omega)
    rw [getD_default_irrel p1.items id (some x) none (by omega), hslotid] at hcs
    simp at hcs
    omega
  refine ⟨id, _, heq, ⟨laws.set_wf p1.alloc id true hwa1 hidc,
    laws.set_wf p1.free id false hwf1 hidfree, ?_, ?_, ?_, ?_, ?_⟩,
    ?_, ?_, ?_, ?_, ?_, ?_, ?_, ?_, ?_, ?_⟩
  · show ops.num_flags (ops.set_flag p1.alloc id true) = _
    rw [hsetnuma, hsetnumf, hnum1]
  · show (p1.items.set id (some x)).length = _
    rw [List.length_set, hsetnuma]
    omega
  · intro j hj
    rw [hsetnuma] at hj
    rw [laws.set_get p1.alloc id true j hwa1 hidc,
      laws.set_get p1.free id false j hwf1 hidfree]
    by_cases hji : j = id
    · rw [if_pos hji, if_pos hji]
      rfl
    · rw [if_neg hji, if_neg hji]
      exact hcompl1 j hj
  · intro j hj
    rw [hsetnuma] at hj
    rw [laws.set_get p1.alloc id true j hwa1 hidc]
    by_cases hji : j = id
    · rw [if_pos hji, hji, getD_set_self (some x) none (by omega)]
      rfl
    · rw [if_neg hji, getD_set_ne (some x) none (fun he => hji he.symm)]
      exact hsome1 j hj
  · show p1.num_items + 1 = _
    rw [hcount2]
    omega
  · rw [hsetnuma]
    exact hidc
  · intro j hj
    have hfj : ops.get_flag p1.free j = false := hfirst j hj
    have hjc : j < ops.num_flags p1.alloc := by omega
    have haj : ops.get_flag p1.alloc j = true := by
      have := hcompl1 j hjc
      rw [hfj] at this
      cases hval : ops.get_flag p1.alloc j
      · rw [hval] at this
        exact absurd this (by simp)
      · rfl
    have hjold : j < ops.num_flags p.alloc := by
      by_contra hc
      have := (hnewr j (by omega) hjc).1
      rw [this] at haj
      exact absurd haj (by simp)
    refine ⟨hjold, ?_⟩
    rw [← (hpres j hjold).1]
    exact haj
  · intro hido
    rw [← (hpres id hido).1]
    exact hallocid
  · show ops.get_flag (ops.set_flag p1.alloc id true) id = true
    rw [laws.set_get p1.alloc id true id hwa1 hidc, if_pos rfl]
  · show (p1.items.set id (some x)).getD id none = some x
    rw [getD_set_self (some x) none (by omega)]
  · show p1.num_items + 1 = p.num_items + 1
    omega
  · show ops.num_flags (ops.set_flag p1.alloc id true) = _
    rw [hsetnuma, hcap]
  · rw [hsetnuma]
    omega
  · intro j hjold hji
    constructor
    · show ops.get_flag (ops.set_flag p1.alloc id true) j = _
      rw [laws.set_get p1.alloc id true j hwa1 hidc, if_neg hji]
      exact (hpres j hjold).1
    · show (p1.items.set id (some x)).getD j none = _
      rw [getD_set_ne (some x) none (fun he => hji he.symm)]
      exact (hpres j hjold).2.2
  · intro j hjge hjlt hji
    rw [hsetnuma] at hjlt
    obtain ⟨hna, hnf, hns⟩ := hnewr j hjge hjlt
    refine ⟨?_, ?_, ?_⟩
    · show ops.get_flag (ops.set_flag p1.alloc id true) j = false
      rw [laws.set_get p1.alloc id true j hwa1 hidc, if_neg hji]
      exact hna
    · show ops.get_flag (ops.set_flag p1.free id false) j = true
      rw [laws.set_get p1.free id false j hwf1 hidfree, if_neg hji]
      exact hnf
    · show (p1.items.set id (some x)).getD j none = none
      rw [getD_set_ne (some x) none (fun he => hji he.symm)]
      exact hns

/-- A successful `deallocate` preserves the invariant, decrements the item
count, keeps capacity, clears the slot, and leaves everything else
unchanged. -/
theorem pool_deallocate_some_inv {T F : Type} {ops : FlagVecOps F} {WFF : F → Prop}
    (laws : FlagLaws ops WFF) {p p2 : FlagsBasedPool T F} {id : Nat}
    (hinv : PoolInv ops WFF p) (h : pool_deallocate ops p id = some p2) :
    PoolInv ops WFF p2 ∧ p2.num_items = p.num_items - 1 ∧ 0 < p.num_items ∧
    ops.num_flags p2.alloc = ops.num_flags p.alloc ∧
    ops.get_flag p2.alloc id = false ∧ pool_get p2 id = none ∧
    (∀ j, j < ops.num_flags p.alloc → j ≠ id →
      ops.get_flag p2.alloc j = ops.get_flag p.alloc j ∧
      p2.items.getD j none = p.items.getD j none) := by
  obtain ⟨hwa, hwf, hnum, hlen, hcompl, hsome, hcnt⟩ := hinv
  unfold pool_deallocate at h
  by_cases hcond : id < p.items.length ∧ (p.items.getD id none).isSome = true ∧
      ops.get_flag p.alloc id = true ∧ ops.get_flag p.free id = false
  · obtain ⟨hc1, hc2, hc3, hc4⟩ := hcond
    rw [if_pos ⟨hc1, hc2, hc3, hc4⟩] at h
    have hp2 := (Option.some.inj h).symm
    have hidc : id < ops.num_flags p.alloc := by omega
    have hidf : id < ops.num_flags p.free := by rw [← hnum]; exact hidc
    have hcount2 : (p.items.set id none).countP (fun o => o.isSome) + 1 =
        p.items.countP (fun o => o.isSome) := by
      have hcs := countP_set (fun o : Option T => o.isSome) p.items id none hc1
      simp only [] at hcs
      rw [if_pos hc2] at hcs
      simp at hcs
      omega
    subst hp2
    refine ⟨⟨laws.set_wf p.alloc id false hwa hidc, laws.set_wf p.free id true hwf hidf,
      ?_, ?_, ?_, ?_, ?_⟩, ?_, ?_, ?_, ?_, ?_, ?_⟩
    · show ops.num_flags (ops.set_flag p.alloc id false) = _
      rw [laws.set_num p.alloc id false hwa hidc, laws.set_num p.free id true hwf hidf,
        hnum]
    · show (p.items.set id none).length = _
      rw [List.length_set, laws.set_num p.alloc id false hwa hidc]
      omega
    · intro j hj
      rw [laws.set_num p.alloc id false hwa hidc] at hj
      rw [laws.set_get p.alloc id false j hwa hidc,
        laws.set_get p.free id true j hwf hidf]
      by_cases hji : j = id
      · rw [if_pos hji, if_pos hji]
        rfl
      · rw [if_neg hji, if_neg hji]
        exact hcompl j hj
    · intro j hj
      rw [laws.set_num p.alloc id false hwa hidc] at hj
      rw [laws.set_get p.alloc id false j hwa hidc]
      by_cases hji : j = id
      · rw [if_pos hji, hji, getD_set_self none none hc1]
        rfl
      · rw [if_neg hji, getD_set_ne none none (fun he => hji he.symm)]
        exact hsome j hj
    · show p.num_items - 1 = (p.items.set id none).countP (fun o => o.isSome)
      omega
    · rfl
    · omega
    · show ops.num_flags (ops.set_flag p.alloc id false) = _
      rw [laws.set_num p.alloc id false hwa hidc]
    · show ops.get_flag (ops.set_flag p.alloc id false) id = false
      rw [laws.set_get p.alloc id false id hwa hidc, if_pos rfl]
    · show (p.items.set id none).getD id none = none
      rw [getD_set_self none none hc1]
    · intro j hjc hji
      constructor
      · show ops.get_flag (ops.set_flag p.alloc id false) j = _
        rw [laws.set_get p.alloc id false j hwa hidc, if_neg hji]
      · show (p.items.set id none).getD j none = _
        rw [getD_set_ne none none (fun he => hji he.symm)]
  · rw [if_neg hcond] at h
    exact absurd h (by simp)

/-- The `get`, `get_mut` and `deallocate` on an id that is not currently
allocated all fail fatally (`none`): this covers out-of-range ids, ids never
issued, ids on an empty pool and just-deallocated ids. -/
theorem pool_unallocated_fatal {T F : Type} {ops : FlagVecOps F} {WFF : F → Prop}
    {p : FlagsBasedPool T F} (hinv : PoolInv ops WFF p) {id : Nat}
    (hun : ¬ (id < ops.num_flags p.alloc ∧ ops.get_flag p.alloc id = true)) :
    pool_get p id = none ∧ pool_get_mut p id = none ∧
    pool_deallocate ops p id = none := by
  obtain ⟨hwa, hwf, hnum, hlen, hcompl, hsome, hcnt⟩ := hinv
  have hget : p.items.getD id none = none := by
    by_cases hidc : id < ops.num_flags p.alloc
    · have halloc : ops.get_flag p.alloc id = false := by
        cases hval : ops.get_flag p.alloc id
        · rfl
        · exact absurd ⟨hidc, hval⟩ hun
      have := hsome id hidc
      rw [halloc] at this
      exact Option.not_isSome_iff_eq_none.mp (by rw [this]; simp)
    · exact getD_of_length_le none (by omega)
  refine ⟨hget, hget, ?_⟩
  unfold pool_deallocate
  rw [if_neg]
  intro hcond
  obtain ⟨hc1, hc2, hc3, _⟩ := hcond
  exact hun ⟨by omega, hc3⟩

/-- Every reachable pool state satisfies the invariant. -/
theorem PReach_inv {T F : Type} {ops : FlagVecOps F} {WFF : F → Prop}
    (laws : FlagLaws ops WFF) {p : FlagsBasedPool T F} (hr : PReach ops p) :
    PoolInv ops WFF p := by
  induction hr with
  | new => exact PoolInv_new ops WFF laws
  | with_capacity n => exact PoolInv_with_capacity ops WFF laws n
  | allocate hp heq ih =>
    rename_i q x id p2
    obtain ⟨id2, p2x, heq2, hinv2, _⟩ := pool_allocate_spec laws ih x
    rw [heq] at heq2
    have hpair := Option.some.inj heq2
    have hp2 : p2 = p2x := congrArg Prod.snd hpair
    rw [hp2]
    exact hinv2
  | deallocate hp heq ih =>
    exact (pool_deallocate_some_inv laws ih heq).1

/-! ## The three `FlagVec` implementations as law bundles -/

def boolOps : FlagVecOps BoolVec :=
  ⟨BoolVec.new, BoolVec.with_flags, BoolVec.num_flags, BoolVec.get_flag,
    BoolVec.set_flag, BoolVec.add_flags, BoolVec.find_a_true_flag,
    BoolVec.true_flags_list⟩

def bitOps : FlagVecOps BitVec :=
  ⟨BitVec.new, BitVec.with_bits, BitVec.num_bits, BitVec.get_bit,
    BitVec.set_bit, BitVec.add_bits, BitVec.find_a_true_bit,
    BitVec.true_bits_list⟩

def hierOps : FlagVecOps HierarchicalBitVec :=
  ⟨HierarchicalBitVec.new, HierarchicalBitVec.with_bits,
    HierarchicalBitVec.num_bits, HierarchicalBitVec.get_bit,
    HierarchicalBitVec.set_bit, HierarchicalBitVec.add_bits,
    HierarchicalBitVec.find_a_true_bit, HierarchicalBitVec.true_bits_list⟩

theorem boolLaws : FlagLaws boolOps (fun _ => True) := by
  refine ⟨trivial, rfl, fun n v => trivial, BoolVec.with_flags_num, ?_,
    fun f i v _ _ => trivial, fun f i v _ _ => BoolVec.set_flag_num f i v, ?_,
    fun f k v _ _ => trivial, fun f k v _ _ => BoolVec.add_flags_num f k v, ?_,
    ?_, fun f _ => BoolVec.true_flags_list_eq f⟩
  · intro n v j hj
    exact BoolVec.get_flag_with_flags n v hj
  · intro f i v j _ hi
    exact BoolVec.get_flag_set_bit f i v j hi
  · intro f k v j _ _ hj
    exact BoolVec.get_flag_add_flags f k v j hj
  · intro f _ hex
    obtain ⟨i, hi, hbit⟩ := hex
    have hi2 : i < f.num_flags := hi
    have hbit2 : f.get_flag i = true := hbit
    show ∃ t, f.find_a_true_flag = some t ∧ t < f.num_flags ∧ f.get_flag t = true ∧
      ∀ j, j < t → f.get_flag j = false
    cases hop : f.find_a_true_flag with
    | none =>
      rw [(BoolVec.find_a_true_flag_spec f).2 hop i hi2] at hbit2
      exact absurd hbit2 (by simp)
    | some t =>
      obtain ⟨h1, h2, h3⟩ := (BoolVec.find_a_true_flag_spec f).1 t hop
      exact ⟨t, rfl, h1, h2, h3⟩

theorem bitLaws : FlagLaws bitOps BitVec.WF := by
  refine ⟨BitVec.new_WF, rfl, fun n v => BitVec.with_bits_WF n v,
    BitVec.with_bits_num_bits, ?_,
    fun f i v hwf _ => BitVec.set_bit_WF hwf i v,
    fun f i v _ _ => BitVec.set_bit_num_bits f i v, ?_,
    fun f k v hwf hk => BitVec.add_bits_WF hwf hk v,
    fun f k v _ _ => BitVec.add_bits_num_bits f k v, ?_,
    ?_, fun f _ => BitVec.true_bits_list_eq f⟩
  · intro n v j hj
    exact BitVec.get_bit_with_bits n v j (by have := le_32_mul_numBlocks n; omega)
  · intro f i v j hwf hi
    exact BitVec.get_bit_set_bit hwf hi v j
  · intro f k v j hwf hk hj
    exact BitVec.get_bit_add_bits hwf hk v j hj
  · intro f hwf hex
    exact BitVec.find_a_true_bit_lowest hwf hex

theorem HierarchicalBitVec.set_bit_num_full {h : HierarchicalBitVec} (hw : h.WFH)
    {i : Nat} (hi : i < h.num_bits) (v : Bool) :
    (h.set_bit i v).num_bits = h.num_bits := by
  rcases hw with hemp | hwf
  · exfalso
    unfold HierarchicalBitVec.num_bits at hi
    rw [hemp] at hi
    simp at hi
  · exact (HierarchicalBitVec.set_bit_spec hwf hi v).2.1

theorem HierarchicalBitVec.set_bit_get_full {h : HierarchicalBitVec} (hw : h.WFH)
    {i : Nat} (hi : i < h.num_bits) (v : Bool) (j : Nat) :
    (h.set_bit i v).get_bit j = if j = i then v else h.get_bit j := by
  rcases hw with hemp | hwf
  · exfalso
    unfold HierarchicalBitVec.num_bits at hi
    rw [hemp] at hi
    simp at hi
  · exact (HierarchicalBitVec.set_bit_spec hwf hi v).2.2.1 j

theorem hierLaws : FlagLaws hierOps HierarchicalBitVec.WFH := by
  refine ⟨Or.inl rfl, rfl, fun n v => HierarchicalBitVec.with_bits_WFH n v,
    HierarchicalBitVec.with_bits_num, ?_,
    fun f i v hwf hi => HierarchicalBitVec.set_bit_WFH hwf hi v,
    fun f i v hwf hi => HierarchicalBitVec.set_bit_num_full hwf hi v, ?_,
    fun f k v hwf _ => (HierarchicalBitVec.add_bits_full hwf k v).1,
    fun f k v hwf _ => (HierarchicalBitVec.add_bits_full hwf k v).2.1, ?_,
    ?_, fun f hwf => HierarchicalBitVec.true_bits_eq_filter hwf⟩
  · intro n v j hj
    exact HierarchicalBitVec.with_bits_get_bit n v j hj
  · intro f i v j hwf hi
    exact HierarchicalBitVec.set_bit_get_full hwf hi v j
  · intro f k v j hwf hk hj
    obtain ⟨_, _, hold, hnew⟩ := HierarchicalBitVec.add_bits_full hwf k v
    have hj2 : j < f.num_bits + k := hj
    show (f.add_bits k v).get_bit j = if j < f.num_bits then f.get_bit j else v
    by_cases hjn : j < f.num_bits
    · rw [if_pos hjn]
      exact hold j hjn
    · rw [if_neg hjn]
      exact hnew j (by omega) hj2
  · intro f hwf hex
    exact (HierarchicalBitVec.find_spec hwf).1 hex

/-! ## Reachability for the hierarchical bitset and the claims -/

/-- Hierarchical states reachable by the public constructors and mutators
(`set_bit` at an index below the bit count, the contract of `set`). -/
inductive HReach : HierarchicalBitVec → Prop where
  | new : HReach HierarchicalBitVec.new
  | with_bits (n : Nat) (v : Bool) : HReach (HierarchicalBitVec.with_bits n v)
  | set_bit {h : HierarchicalBitVec} (hr : HReach h) {i : Nat}
      (hi : i < h.num_bits) (v : Bool) : HReach (h.set_bit i v)
  | add_bits {h : HierarchicalBitVec} (hr : HReach h) (a : Nat) (v : Bool) :
      HReach (h.add_bits a v)

theorem HReach_WFH {h : HierarchicalBitVec} (hr : HReach h) : h.WFH := by
  induction hr with
  | new => exact Or.inl rfl
  | with_bits n v => exact HierarchicalBitVec.with_bits_WFH n v
  | set_bit hr2 hi v ih => exact HierarchicalBitVec.set_bit_WFH ih hi v
  | add_bits hr2 a v ih => exact (HierarchicalBitVec.add_bits_full ih a v).1

/-- C1: for every `HierarchicalBitVec` reachable through `new`, `with_bits`,
`set_bit` and `add_bits`, and for every level `k > 0` and index `i` below
level `k`'s bit count, bit `i` of level `k` is true iff the masked word read
by `get_block i` from level `k-1` is nonzero — in particular after every
`set_bit` and `add_bits` call, since those preserve reachability. -/
theorem claim_C1 {h : HierarchicalBitVec} (hr : HReach h) :
    ∀ k, 0 < k → k < h.levels.length →
    ∀ i, i < (levelAt h.levels k).num_bits →
    ((levelAt h.levels k).get_bit i = true ↔
      (levelAt h.levels (k - 1)).get_block i ≠ 0) := by
  intro k hk hkL i hi
  rcases HReach_WFH hr with hemp | hwf
  · rw [hemp] at hkL
    simp at hkL
  · exact hwf.2.2.2.2.2.2 k hk hkL i hi

theorem claim_C1_witness :
    (levelAt (HierarchicalBitVec.with_bits 40 true).levels 1).get_bit 0 = true ↔
      (levelAt (HierarchicalBitVec.with_bits 40 true).levels 0).get_block 0 ≠ 0 :=
  claim_C1 (HReach.with_bits 40 true) 1 (by decide) (by decide) 0 (by decide)

/-- C2: every non-empty reachable `HierarchicalBitVec` with `n` level-0 bits
has a topmost level of exactly one word (at most 32 bits), and every level
`k` has logical bit count exactly `ceil(n / 32^k)`. -/
theorem claim_C2 {h : HierarchicalBitVec} (hr : HReach h) (hne : h.levels ≠ []) :
    (levelAt h.levels (h.levels.length - 1)).num_blocks = 1 ∧
    (levelAt h.levels (h.levels.length - 1)).num_bits ≤ 32 ∧
    (∀ k, k < h.levels.length →
      (levelAt h.levels k).num_bits = ceil_div h.num_bits (32 ^ k)) := by
  rcases HReach_WFH hr with hemp | hwf
  · exact absurd hemp hne
  · obtain ⟨hn, hL, h0n, hshape, htop, hmin, hcons⟩ := hwf
    have hTL : h.levels.length - 1 < h.levels.length := by omega
    have htwf := (hshape (h.levels.length - 1) hTL).1
    have htsz := (hshape (h.levels.length - 1) hTL).2
    refine ⟨?_, ?_, fun k hk => (hshape k hk).2⟩
    · have hpos : 0 < (levelAt h.levels (h.levels.length - 1)).num_bits := by
        rw [htsz]
        unfold ceil_div
        exact Nat.succ_pos _
      have hle32 : (levelAt h.levels (h.levels.length - 1)).num_bits ≤ 32 := by
        rw [htsz]
        exact htop
      unfold BitVec.num_blocks
      rw [htwf.2]
      unfold numBlocks
      rw [if_neg (by omega)]
      omega
    · rw [htsz]
      exact htop

theorem claim_C2_witness :
    (levelAt (HierarchicalBitVec.with_bits 40 true).levels
      ((HierarchicalBitVec.with_bits 40 true).levels.length - 1)).num_blocks = 1 ∧
    (levelAt (HierarchicalBitVec.with_bits 40 true).levels
      ((HierarchicalBitVec.with_bits 40 true).levels.length - 1)).num_bits ≤ 32 ∧
    (∀ k, k < (HierarchicalBitVec.with_bits 40 true).levels.length →
      (levelAt (HierarchicalBitVec.with_bits 40 true).levels k).num_bits =
        ceil_div (HierarchicalBitVec.with_bits 40 true).num_bits (32 ^ k)) :=
  claim_C2 (HReach.with_bits 40 true)
    (fun hc => absurd (congrArg List.length hc) (by decide))

/-- C3: on every reachable pool of any lawful `FlagVec` implementation, the
`alloc` and `free` vectors have equal logical length and are complementary at
every id below it. -/
theorem claim_C3 {T F : Type} {ops : FlagVecOps F} {WFF : F → Prop}
    (laws : FlagLaws ops WFF) {p : FlagsBasedPool T F} (hr : PReach ops p) :
    ops.num_flags p.alloc = ops.num_flags p.free ∧
    ∀ id, id < ops.num_flags p.alloc →
      ops.get_flag p.free id = ! ops.get_flag p.alloc id := by
  obtain ⟨_, _, hnum, _, hcompl, _, _⟩ := PReach_inv laws hr
  exact ⟨hnum, hcompl⟩

theorem claim_C3_witness :
    boolOps.num_flags (pool_with_capacity (T := Nat) boolOps 3).alloc =
      boolOps.num_flags (pool_with_capacity (T := Nat) boolOps 3).free ∧
    ∀ id, id < boolOps.num_flags (pool_with_capacity (T := Nat) boolOps 3).alloc →
      boolOps.get_flag (pool_with_capacity (T := Nat) boolOps 3).free id =
        ! boolOps.get_flag (pool_with_capacity (T := Nat) boolOps 3).alloc id :=
  claim_C3 boolLaws (PReach.with_capacity 3)

/-- C4 (corrected): `BitVec::find_a_true_bit` scans raw storage words, which
may hold true bits at or beyond the logical length. What holds is: when some
bit below `num_bits` is true it returns the lowest such index, and when it
returns `None` every bit below `num_bits` is false. The original claim's
other direction — `None` whenever no bit below `num_bits` is true — is
refuted by `claim_C4_counterexample`. -/
theorem claim_C4 {bv : BitVec} (hwf : bv.WF) :
    ((∃ i, i < bv.num_bits ∧ bv.get_bit i = true) →
      ∃ r, bv.find_a_true_bit = some r ∧ r < bv.num_bits ∧ bv.get_bit r = true ∧
        ∀ j, j < r → bv.get_bit j = false) ∧
    (bv.find_a_true_bit = none → ∀ j, j < bv.num_bits → bv.get_bit j = false) :=
  ⟨fun hex => BitVec.find_a_true_bit_lowest hwf hex,
   fun hn j _ => BitVec.find_a_true_bit_none hn j⟩

/-- C4 counterexample: `with_bits(1, true)` then `set_bit(0, false)` has no
true bit below its logical length 1, yet `find_a_true_bit` returns `Some 1`
(a trailing storage bit), not `None`. -/
theorem claim_C4_counterexample :
    ((BitVec.with_bits 1 true).set_bit 0 false).WF ∧
    ((BitVec.with_bits 1 true).set_bit 0 false).num_bits = 1 ∧
    (∀ i, i < ((BitVec.with_bits 1 true).set_bit 0 false).num_bits →
      ((BitVec.with_bits 1 true).set_bit 0 false).get_bit i = false) ∧
    ((BitVec.with_bits 1 true).set_bit 0 false).find_a_true_bit = some 1 := by
  refine ⟨⟨?_, ?_⟩, ?_, ?_, ?_⟩ <;> decide

theorem claim_C4_witness :
    (BitVec.with_bits 40 true).WF ∧
    (((∃ i, i < (BitVec.with_bits 40 true).num_bits ∧
        (BitVec.with_bits 40 true).get_bit i = true) →
      ∃ r, (BitVec.with_bits 40 true).find_a_true_bit = some r ∧
        r < (BitVec.with_bits 40 true).num_bits ∧
        (BitVec.with_bits 40 true).get_bit r = true ∧
        ∀ j, j < r → (BitVec.with_bits 40 true).get_bit j = false) ∧
    ((BitVec.with_bits 40 true).find_a_true_bit = none →
      ∀ j, j < (BitVec.with_bits 40 true).num_bits →
        (BitVec.with_bits 40 true).get_bit j = false)) :=
  ⟨BitVec.with_bits_WF 40 true, claim_C4 (BitVec.with_bits_WF 40 true)⟩

/-- C5: on a well-formed `BitVec` of `n` bits (stored in exactly
`ceil(n/32)` words), `add_bits(k, v)` with `k > 0` preserves all bits below
`n`, makes bits `n .. n+k-1` read `v`, sets the logical length to `n + k`,
and grows storage to exactly `ceil((n+k)/32)` words. -/
theorem claim_C5 {bv : BitVec} (hwf : bv.WF) {k : Nat} (hk : 0 < k) (v : Bool) :
    (bv.add_bits k v).num_bits = bv.num_bits + k ∧
    (bv.add_bits k v).flags.length = ceil_div (bv.num_bits + k) 32 ∧
    (∀ j, j < bv.num_bits → (bv.add_bits k v).get_bit j = bv.get_bit j) ∧
    (∀ j, bv.num_bits ≤ j → j < bv.num_bits + k → (bv.add_bits k v).get_bit j = v) := by
  have hlen := (BitVec.add_bits_WF hwf hk v).2
  refine ⟨BitVec.add_bits_num_bits bv k v, ?_, ?_, ?_⟩
  · rw [hlen, BitVec.add_bits_num_bits]
    unfold numBlocks ceil_div
    rw [if_neg (by omega)]
  · intro j hj
    rw [BitVec.get_bit_add_bits hwf hk v j (by omega), if_pos hj]
  · intro j hj1 hj2
    rw [BitVec.get_bit_add_bits hwf hk v j hj2, if_neg (by omega)]

theorem claim_C5_witness :
    (BitVec.with_bits 5 false).WF ∧ 0 < 60 ∧
    ((((BitVec.with_bits 5 false).add_bits 60 true).num_bits =
        (BitVec.with_bits 5 false).num_bits + 60 ∧
      ((BitVec.with_bits 5 false).add_bits 60 true).flags.length =
        ceil_div ((BitVec.with_bits 5 false).num_bits + 60) 32 ∧
      (∀ j, j < (BitVec.with_bits 5 false).num_bits →
        ((BitVec.with_bits 5 false).add_bits 60 true).get_bit j =
          (BitVec.with_bits 5 false).get_bit j) ∧
      (∀ j, (BitVec.with_bits 5 false).num_bits ≤ j →
        j < (BitVec.with_bits 5 false).num_bits + 60 →
        ((BitVec.with_bits 5 false).add_bits 60 true).get_bit j = true))) :=
  ⟨BitVec.with_bits_WF 5 false, by decide,
    claim_C5 (BitVec.with_bits_WF 5 false) (by decide) true⟩

/-- C6: from the empty `HierarchicalBitVec`, `add_bits(40, true)` produces
exactly two levels of 40 and 2 bits, and `find_a_true_bit` returns
`Some 0`. -/
theorem claim_C6 :
    (HierarchicalBitVec.new.add_bits 40 true).levels.length = 2 ∧
    (levelAt (HierarchicalBitVec.new.add_bits 40 true).levels 0).num_bits = 40 ∧
    (levelAt (HierarchicalBitVec.new.add_bits 40 true).levels 1).num_bits = 2 ∧
    (HierarchicalBitVec.new.add_bits 40 true).find_a_true_bit = some 0 := by
  refine ⟨?_, ?_, ?_, ?_⟩ <;> decide

/-- C7: on every reachable pool, `allocate(x)` immediately followed by
`get(id)` returns `x`; and `get`, `get_mut` or `deallocate` on an id that is
not currently allocated (out of range, never issued, on an empty pool, or
just deallocated) is the fatal `none` — a contract violation, not a
recoverable value. -/
theorem claim_C7 {T F : Type} {ops : FlagVecOps F} {WFF : F → Prop}
    (laws : FlagLaws ops WFF) {p : FlagsBasedPool T F} (hr : PReach ops p) :
    (∀ x id p2, pool_allocate ops p x = some (id, p2) → pool_get p2 id = some x) ∧
    (∀ id, ¬ (id < ops.num_flags p.alloc ∧ ops.get_flag p.alloc id = true) →
      pool_get p id = none ∧ pool_get_mut p id = none ∧
      pool_deallocate ops p id = none) := by
  have hinv := PReach_inv laws hr
  constructor
  · intro x id p2 heq
    obtain ⟨id2, p2x, heq2, _, _, _, _, _, hget, _, _, _, _, _⟩ :=
      pool_allocate_spec laws hinv x
    rw [heq] at heq2
    have hpair := Option.some.inj heq2
    have hid : id = id2 := congrArg Prod.fst hpair
    have hp2 : p2 = p2x := congrArg Prod.snd hpair
    rw [hid, hp2]
    exact hget
  · intro id hun
    exact pool_unallocated_fatal hinv hun

theorem claim_C7_witness :
    (∀ x id p2, pool_allocate boolOps (pool_with_capacity (T := Nat) boolOps 2) x =
      some (id, p2) → pool_get p2 id = some x) ∧
    (∀ id, ¬ (id < boolOps.num_flags (pool_with_capacity (T := Nat) boolOps 2).alloc ∧
        boolOps.get_flag (pool_with_capacity (T := Nat) boolOps 2).alloc id = true) →
      pool_get (pool_with_capacity (T := Nat) boolOps 2) id = none ∧
      pool_get_mut (pool_with_capacity (T := Nat) boolOps 2) id = none ∧
      pool_deallocate boolOps (pool_with_capacity (T := Nat) boolOps 2) id = none) :=
  claim_C7 boolLaws (PReach.with_capacity 2)

/-- C8: on every reachable pool, `iter()` dereferences exactly the
currently-allocated ids in ascending order (the filtered range), and each
such slot holds a live item, so no `unwrap` fails and nothing deallocated or
empty is yielded. -/
theorem claim_C8 {T F : Type} {ops : FlagVecOps F} {WFF : F → Prop}
    (laws : FlagLaws ops WFF) {p : FlagsBasedPool T F} (hr : PReach ops p) :
    pool_iter_list ops p =
      ((List.range (ops.num_flags p.alloc)).filter
        (fun id => ops.get_flag p.alloc id)).map (fun id => p.items.getD id none) ∧
    (∀ id, id < ops.num_flags p.alloc → ops.get_flag p.alloc id = true →
      (p.items.getD id none).isSome = true) := by
  obtain ⟨hwa, _, _, _, _, hsome, _⟩ := PReach_inv laws hr
  constructor
  · unfold pool_iter_list
    rw [laws.true_flags p.alloc hwa]
  · intro id hid halloc
    rw [hsome id hid, halloc]

theorem claim_C8_witness :
    pool_iter_list boolOps (pool_with_capacity (T := Nat) boolOps 2) =
      ((List.range (boolOps.num_flags
        (pool_with_capacity (T := Nat) boolOps 2).alloc)).filter
        (fun id => boolOps.get_flag (pool_with_capacity (T := Nat) boolOps 2).alloc id)).map
        (fun id => (pool_with_capacity (T := Nat) boolOps 2).items.getD id none) ∧
    (∀ id, id < boolOps.num_flags (pool_with_capacity (T := Nat) boolOps 2).alloc →
      boolOps.get_flag (pool_with_capacity (T := Nat) boolOps 2).alloc id = true →
      ((pool_with_capacity (T := Nat) boolOps 2).items.getD id none).isSome = true) :=
  claim_C8 boolLaws (PReach.with_capacity 2)

/-- C9: on every reachable pool `allocate` always succeeds; capacity stays
put while a free slot remains and otherwise grows from 0 to 1 or from `c` to
`2 c`, the grown region `[old capacity, new capacity)` getting false `alloc`
flags, true `free` flags and empty slots (before the one slot the same call
then allocates); capacity never decreases, not even under `deallocate`; and
every other existing slot and flag is unchanged, so previously issued ids
keep addressing the same slots. -/
theorem claim_C9 {T F : Type} {ops : FlagVecOps F} {WFF : F → Prop}
    (laws : FlagLaws ops WFF) {p : FlagsBasedPool T F} (hr : PReach ops p) :
    (∀ j, ops.num_flags p.alloc ≤ j →
      j < ops.num_flags (expand_if_needed ops p).alloc →
      ops.get_flag (expand_if_needed ops p).alloc j = false ∧
      ops.get_flag (expand_if_needed ops p).free j = true ∧
      (expand_if_needed ops p).items.getD j none = none) ∧
    (∀ x, ∃ id p2, pool_allocate ops p x = some (id, p2) ∧
      (p.num_items < ops.num_flags p.alloc →
        ops.num_flags p2.alloc = ops.num_flags p.alloc) ∧
      (p.num_items = ops.num_flags p.alloc →
        ops.num_flags p2.alloc =
          if ops.num_flags p.alloc = 0 then 1 else 2 * ops.num_flags p.alloc) ∧
      ops.num_flags p.alloc ≤ ops.num_flags p2.alloc ∧
      (∀ j, j < ops.num_flags p.alloc → j ≠ id →
        ops.get_flag p2.alloc j = ops.get_flag p.alloc j ∧
        p2.items.getD j none = p.items.getD j none) ∧
      (∀ j, ops.num_flags p.alloc ≤ j → j < ops.num_flags p2.alloc → j ≠ id →
        ops.get_flag p2.alloc j = false ∧ ops.get_flag p2.free j = true ∧
        p2.items.getD j none = none)) ∧
    (∀ id p2, pool_deallocate ops p id = some p2 →
      ops.num_flags p2.alloc = ops.num_flags p.alloc) := by
  have hinv := PReach_inv laws hr
  refine ⟨(expand_if_needed_spec laws hinv).2.2.2.2.2.1, ?_, ?_⟩
  · intro x
    obtain ⟨id, p2, heq, _, _, _, _, _, _, _, hcapf, hmono, hstable, hnewreg⟩ :=
      pool_allocate_spec laws hinv x
    refine ⟨id, p2, heq, ?_, ?_, hmono, hstable, hnewreg⟩
    · intro hlt
      rw [hcapf, if_pos hlt]
    · intro heqn
      rw [hcapf, if_neg (by omega), heqn]
      by_cases hc0 : ops.num_flags p.alloc = 0
      · rw [if_pos hc0, if_pos hc0]
      · rw [if_neg hc0, if_neg hc0, Nat.mul_comm]
  · intro id p2 heq
    exact (pool_deallocate_some_inv laws hinv heq).2.2.2.1

theorem claim_C9_witness :
    (∀ j, boolOps.num_flags (pool_new (T := Nat) boolOps).alloc ≤ j →
      j < boolOps.num_flags (expand_if_needed boolOps (pool_new (T := Nat) boolOps)).alloc →
      boolOps.get_flag (expand_if_needed boolOps (pool_new (T := Nat) boolOps)).alloc j
        = false ∧
      boolOps.get_flag (expand_if_needed boolOps (pool_new (T := Nat) boolOps)).free j
        = true ∧
      (expand_if_needed boolOps (pool_new (T := Nat) boolOps)).items.getD j none = none) ∧
    (∀ x, ∃ id p2, pool_allocate boolOps (pool_new (T := Nat) boolOps) x =
        some (id, p2) ∧
      ((pool_new (T := Nat) boolOps).num_items <
          boolOps.num_flags (pool_new (T := Nat) boolOps).alloc →
        boolOps.num_flags p2.alloc =
          boolOps.num_flags (pool_new (T := Nat) boolOps).alloc) ∧
      ((pool_new (T := Nat) boolOps).num_items =
          boolOps.num_flags (pool_new (T := Nat) boolOps).alloc →
        boolOps.num_flags p2.alloc =
          if boolOps.num_flags (pool_new (T := Nat) boolOps).alloc = 0 then 1
          else 2 * boolOps.num_flags (pool_new (T := Nat) boolOps).alloc) ∧
      boolOps.num_flags (pool_new (T := Nat) boolOps).alloc ≤
        boolOps.num_flags p2.alloc ∧
      (∀ j, j < boolOps.num_flags (pool_new (T := Nat) boolOps).alloc → j ≠ id →
        boolOps.get_flag p2.alloc j =
          boolOps.get_flag (pool_new (T := Nat) boolOps).alloc j ∧
        p2.items.getD j none = (pool_new (T := Nat) boolOps).items.getD j none) ∧
      (∀ j, boolOps.num_flags (pool_new (T := Nat) boolOps).alloc ≤ j →
        j < boolOps.num_flags p2.alloc → j ≠ id →
        boolOps.get_flag p2.alloc j = false ∧ boolOps.get_flag p2.free j = true ∧
        p2.items.getD j none = none)) ∧
    (∀ id p2, pool_deallocate boolOps (pool_new (T := Nat) boolOps) id = some p2 →
      boolOps.num_flags p2.alloc =
        boolOps.num_flags (pool_new (T := Nat) boolOps).alloc) :=
  claim_C9 boolLaws PReach.new

theorem pool_allocate_smallest {T F : Type} {ops : FlagVecOps F} {WFF : F → Prop}
    (laws : FlagLaws ops WFF) {p : FlagsBasedPool T F} (hr : PReach ops p) (x : T) :
    ∃ id p2, pool_allocate ops p x = some (id, p2) ∧
      id < ops.num_flags p2.alloc ∧
      (id < ops.num_flags p.alloc → ops.get_flag p.alloc id = false) ∧
      ∀ j, j < id → j < ops.num_flags p.alloc ∧ ops.get_flag p.alloc j = true := by
  obtain ⟨id, p2, heq, _, hidlt, hsmall, hnotal, _, _, _, _, _, _, _⟩ :=
    pool_allocate_spec laws (PReach_inv laws hr) x
  exact ⟨id, p2, heq, hidlt, hnotal, hsmall⟩

/-- C10: in each of the three instantiations (`BoolVec`, `BitVec`,
`HierarchicalBitVec`), `allocate` returns the smallest id not currently
allocated after any needed growth, and that id is always below the resulting
capacity — the packed vectors' trailing storage bits never leak out. -/
theorem claim_C10 :
    (∀ (T : Type) (p : FlagsBasedPool T BoolVec), PReach boolOps p → ∀ x : T,
      ∃ id p2, pool_allocate boolOps p x = some (id, p2) ∧
        id < boolOps.num_flags p2.alloc ∧
        (id < boolOps.num_flags p.alloc → boolOps.get_flag p.alloc id = false) ∧
        ∀ j, j < id → j < boolOps.num_flags p.alloc ∧
          boolOps.get_flag p.alloc j = true) ∧
    (∀ (T : Type) (p : FlagsBasedPool T BitVec), PReach bitOps p → ∀ x : T,
      ∃ id p2, pool_allocate bitOps p x = some (id, p2) ∧
        id < bitOps.num_flags p2.alloc ∧
        (id < bitOps.num_flags p.alloc → bitOps.get_flag p.alloc id = false) ∧
        ∀ j, j < id → j < bitOps.num_flags p.alloc ∧
          bitOps.get_flag p.alloc j = true) ∧
    (∀ (T : Type) (p : FlagsBasedPool T HierarchicalBitVec),
      PReach hierOps p → ∀ x : T,
      ∃ id p2, pool_allocate hierOps p x = some (id, p2) ∧
        id < hierOps.num_flags p2.alloc ∧
        (id < hierOps.num_flags p.alloc → hierOps.get_flag p.alloc id = false) ∧
        ∀ j, j < id → j < hierOps.num_flags p.alloc ∧
          hierOps.get_flag p.alloc j = true) :=
  ⟨fun T p hr x => pool_allocate_smallest boolLaws hr x,
   fun T p hr x => pool_allocate_smallest bitLaws hr x,
   fun T p hr x => pool_allocate_smallest hierLaws hr x⟩

end PoolParty
